import Mathlib

/-!
HTTP message parsing: a shallow embedding of `HTTPMessage`, `HTTPRequest` and
`HTTPResponse`.

Texts (`std::string`, `const char*` buffers) are lists of characters.  A pointer into a
buffer is modelled by the list of bytes readable from that pointer on, together with
offsets counted from it; `NULL` is `none`.  A call `f(data, length)` takes the memory
`data` and the number `length`: the buffer is the first `length` bytes of `data`, and
what comes after them is whatever lies in memory behind the buffer.  `size_t` is 64 bits
wide and `int` 32 bits.
-/

namespace HTTP

/-- Text: the bytes of a `std::string` or of a `char` buffer. -/
abbrev Str := List Char

/-- The constant `lineEnding` of HTTPMessage.h: "\r\n". -/
def lineEnding : Str := ['\r', '\n']

/-- The constant `headerDelimiter` of HTTPMessage.h. -/
def headerDelimiter : Char := ':'

/-! ## std::string primitives used by the parsers -/

/-- Scan of `std::string::find`: `s` is the text from index `i` on. -/
def findFrom (pat : Str) : Str → Nat → Option Nat
  | [], i => if pat = [] then some i else none
  | c :: cs, i => if pat.isPrefixOf (c :: cs) then some i else findFrom pat cs (i + 1)

/-- The call `s.find(pat, start)`: first index `≥ start` at which `pat` occurs in `s`;
`none` stands for `std::string::npos`. -/
def find (s pat : Str) (start : Nat) : Option Nat :=
  if s.length < start then none else findFrom pat (s.drop start) start

/-- The call `s.substr(pos, n)` for `pos ≤ s.size()`. -/
def substr (s : Str) (pos n : Nat) : Str := (s.drop pos).take n

/-- The blank characters of the trim set `" \t\r\n"`. -/
def isBlank (c : Char) : Bool := c = ' ' || c = '\t' || c = '\r' || c = '\n'

/-- The call `s.find_first_not_of(" \t\r\n")`; `s` is the text from index `i` on. -/
def findFirstNotOfFrom : Str → Nat → Option Nat
  | [], _ => none
  | c :: cs, i => if isBlank c then findFirstNotOfFrom cs (i + 1) else some i

/-- The call `s.find_first_not_of(" \t\r\n")`. -/
def findFirstNotOf (s : Str) : Option Nat := findFirstNotOfFrom s 0

/-- The call `s.find_last_not_of(" \t\r\n")`; `s` is the text from index `i` on and
`last` the latest non-blank index met so far. -/
def findLastNotOfFrom : Str → Nat → Option Nat → Option Nat
  | [], _, last => last
  | c :: cs, i, last => findLastNotOfFrom cs (i + 1) (if isBlank c then last else some i)

/-- The call `s.find_last_not_of(" \t\r\n")`. -/
def findLastNotOf (s : Str) : Option Nat := findLastNotOfFrom s 0 none

/-! ## HTTPMessage: the header map -/

/-- Order of `std::less<std::string>`: lexicographic on the character codes. -/
def strLt : Str → Str → Bool
  | [], [] => false
  | [], _ :: _ => true
  | _ :: _, [] => false
  | a :: as, b :: bs =>
    if a.toNat < b.toNat then true
    else if b.toNat < a.toNat then false
    else strLt as bs

/-- The member `headers`, a `std::map<std::string, std::string>`: the entries in
iteration order (ascending by name). -/
abbrev Headers := List (Str × Str)

/-- The method `HTTPMessage::setHeaderField(name, value)`, that is `headers[name] = value`. -/
def setHeaderField : Headers → Str → Str → Headers
  | [], name, value => [(name, value)]
  | (k, v) :: rest, name, value =>
    if name = k then (k, value) :: rest
    else if strLt name k then (name, value) :: (k, v) :: rest
    else (k, v) :: setHeaderField rest name value

/-- The method `HTTPMessage::getHeaderValue(name, outValue)`: `some value` when it
returns true with `outValue = value`, `none` when it returns false. -/
def getHeaderValue : Headers → Str → Option Str
  | [], _ => none
  | (k, v) :: rest, name => if k = name then some v else getHeaderValue rest name

/-- The method `HTTPMessage::getHeaderSet`. -/
def getHeaderSet (headers : Headers) : List (Str × Str) := headers

/-! ## HTTPMessage::findNextLine -/

/-- The `while` loop of `HTTPMessage::findNextLine`.  `data` is the memory from the
current pointer on, `remaining` is `dataEnd - data`, `off` is the number of bytes
passed so far.  A scan that reaches the end of the modelled memory stops like one
that reaches `dataEnd`. -/
def findNextLineLoop : Str → Nat → Nat → Nat → Option Nat
  | [], _, endCharsFound, off =>
    if lineEnding.length ≤ endCharsFound then some off else none
  | c :: rest, remaining, endCharsFound, off =>
    if lineEnding.length ≤ endCharsFound then some off
    else match remaining with
      | 0 => none
      | remaining + 1 =>
        if some c = lineEnding.get? endCharsFound then
          findNextLineLoop rest remaining (endCharsFound + 1) (off + 1)
        else
          findNextLineLoop rest remaining 0 (off + 1)

/-- The method `HTTPMessage::findNextLine(data, length)`: the offset from `data` of the
returned pointer (the start of the next line), or `none` for `NULL`. -/
def findNextLine (data : Str) (length : Nat) : Option Nat :=
  findNextLineLoop data length 0 0

/-! ## HTTPMessage::parseFields and HTTPMessage::print -/

/-- The `for` loop of `parseFields` that looks for the header delimiter: `line` is the
memory from `delimPos` up to `lineEnd`, `i` is `delimPos - data`; the result is the
final `delimPos - data`. -/
def findDelim : Str → Nat → Nat
  | [], i => i
  | c :: cs, i => if c = headerDelimiter then i else findDelim cs (i + 1)

/-- The value of `std::string::npos` (64-bit `size_t`). -/
def npos : Nat := 2 ^ 64 - 1

/-- The trimming of a header value in `parseFields`:
`ltrimPos = value.find_first_not_of(" \t\r\n")`, `rtrimPos = value.find_last_not_of(" \t\r\n")`,
then `std::string(value, ltrimPos, rtrimPos)` when `ltrimPos != npos` and `""` otherwise.
The constructor `std::string(str, pos, n)` is `str.substr(pos, n)`. -/
def trimValue (value : Str) : Str :=
  match findFirstNotOf value with
  | some ltrimPos => substr value ltrimPos ((findLastNotOf value).getD npos)
  | none => []

/-- The `while` loop of `HTTPMessage::parseFields`.  `length` is the (never updated)
parameter `length`; `data` is the memory from the current `data` pointer on; `avail` is
`dataEnd - data` (0 when `data` is at or past `dataEnd`); the result is `foundEoh` and
the header map.  The first argument bounds the number of iterations. -/
def parseFieldsLoop (length : Nat) : Nat → Str → Nat → Headers → Bool × Headers
  | 0, _, _, headers => (false, headers)
  | fuel + 1, data, avail, headers =>
    if avail = 0 then (false, headers)
    else
      match findNextLine data length with
      | none => (false, headers)
      | some next =>
        if next = lineEnding.length then (true, headers)
        else
          let lineEnd := next - lineEnding.length
          let delimPos := findDelim (data.take lineEnd) 0
          if lineEnd ≤ delimPos then (false, headers)
          else
            let name := data.take delimPos
            let value := (data.drop (delimPos + 1)).take (lineEnd - delimPos - 1)
            parseFieldsLoop length fuel (data.drop next) (avail - next)
              (setHeaderField headers name (trimValue value))

/-- The method `HTTPMessage::parseFields(data, length)` run on a message whose header map
is `headers`: the returned flag and the header map afterwards.  Every iteration that
continues moves `data` forward, so `length` iterations are enough. -/
def parseFields (headers : Headers) (data : Str) (length : Nat) : Bool × Headers :=
  parseFieldsLoop length length data length headers

/-- The method `HTTPMessage::print(std::string&)`: the text appended to `outputString`. -/
def HTTPMessage.print : Headers → Str
  | [] => lineEnding
  | (name, value) :: rest =>
    name ++ [headerDelimiter] ++ [' '] ++ value ++ lineEnding ++ HTTPMessage.print rest

/-! ## HTTPRequest -/

/-- The class `HTTPRequest`: its three members and the header map of its base class. -/
structure HTTPRequest where
  method : Str
  path : Str
  version : Str
  headers : Headers
deriving DecidableEq

/-- The result of a `parse` factory: a pointer to a new object, `NULL`, or the exception
`std::out_of_range` leaving the function. -/
inductive ParseResult (α : Type) where
  | object (a : α)
  | null
  | outOfRange
deriving DecidableEq

/-- The constructor `HTTPRequest(method, path, version)`. -/
def HTTPRequest.construct (method path version : Str) : HTTPRequest :=
  { method := method, path := path, version := version, headers := [] }

/-- The default arguments of the constructor: `HTTPRequest("", "", "HTTP/1.1")`. -/
def HTTPRequest.default : HTTPRequest :=
  HTTPRequest.construct [] [] ['H', 'T', 'T', 'P', '/', '1', '.', '1']

/-- The factory `HTTPRequest::createGetRequest(path, version)`. -/
def HTTPRequest.createGetRequest (path version : Str) : HTTPRequest :=
  HTTPRequest.construct ['G', 'E', 'T'] path version

/-- The method `HTTPRequest::getHost`: the value of the header "Host", or "". -/
def HTTPRequest.getHost (headers : Headers) : Str :=
  (getHeaderValue headers ['H', 'o', 's', 't']).getD []

/-- The method `HTTPRequest::setHost`. -/
def HTTPRequest.setHost (r : HTTPRequest) (host : Str) : HTTPRequest :=
  { r with headers := setHeaderField r.headers ['H', 'o', 's', 't'] host }

/-- The conversion of a `size_t` find result to `int` in `int pos = path.find(..)`:
the low 32 bits, read in two's complement. -/
def toInt (found : Option Nat) : Int :=
  let n : Nat := found.getD npos % 2 ^ 32
  if n < 2 ^ 31 then (n : Int) else (n : Int) - 2 ^ 32

/-- The conversion of an `int` to `size_t`, in `pos != std::string::npos` and in the
first argument of `path.replace`. -/
def toSizeT (i : Int) : Nat := (i % 2 ^ 64).toNat

/-- The call `s.replace(pos, n, "")`: `none` when it throws `std::out_of_range`
(`pos > s.size()`). -/
def replaceEmpty (s : Str) (pos n : Nat) : Option Str :=
  if s.length < pos then none else some (s.take pos ++ s.drop (pos + n))

/-- The text "http://" removed from the path by `HTTPRequest::parse`. -/
def httpScheme : Str := ['h', 't', 't', 'p', ':', '/', '/']

/-- The two statements `int pos = path.find(pat); if (pos != npos) path.replace(pos, n, "")`
of `HTTPRequest::parse`. -/
def stripFirst (path pat : Str) (n : Nat) : Option Str :=
  let pos := toInt (find path pat 0)
  if toSizeT pos ≠ npos then replaceEmpty path (toSizeT pos) n else some path

/-- The second half of `HTTPRequest::parse`, from the call of `parseFields` on: `request`
holds the method and the version, `path` is the target cut out of the request line and
`fields` is what `parseFields` returned and stored. -/
def HTTPRequest.finish (request : HTTPRequest) (path : Str) (fields : Bool × Headers) :
    ParseResult HTTPRequest :=
  let headersOkay := fields.1
  let request := { request with headers := fields.2 }
  let host := HTTPRequest.getHost request.headers
  match stripFirst path httpScheme 7 with
  | none => .outOfRange
  | some path =>
    match stripFirst path host host.length with
    | none => .outOfRange
    | some path =>
      let request := { request with path := path }
      if headersOkay then .object request else .null

/-- The factory `HTTPRequest::parse(data, length)`.  `data` is the memory from the pointer
`data` on (the buffer is its first `length` bytes).  The subtractions `firstLineLen - 2`
and `length - firstLineLen` do not wrap: `findNextLine` returns an offset between 2 and
`length`. -/
def HTTPRequest.parse (data : Str) (length : Nat) : ParseResult HTTPRequest :=
  let request := HTTPRequest.default
  match findNextLine data length with
  | none => .null
  | some firstHeader =>
    let firstLineLen := firstHeader
    let requestLine := data.take (firstLineLen - 2)
    match find requestLine [' '] 0 with
    | none => .null
    | some urlPos =>
      let request := { request with method := substr requestLine 0 urlPos }
      match find requestLine [' '] (urlPos + 1) with
      | none => .null
      | some versionPos =>
        let path := substr requestLine (urlPos + 1) (versionPos - urlPos - 1)
        let request := { request with version := requestLine.drop (versionPos + 1) }
        HTTPRequest.finish request path
          (parseFields request.headers (data.drop firstHeader) (length - firstLineLen))

/-- The method `HTTPRequest::print(std::string&)`: the final content of `outputString`. -/
def HTTPRequest.print (r : HTTPRequest) : Str :=
  r.method ++ [' '] ++ r.path ++ [' '] ++ r.version ++ lineEnding ++ HTTPMessage.print r.headers

/-! ## Stream extraction of integers (`operator>>` of the C++ library) -/

/-- The test `isspace` in the "C" locale: the characters skipped before an extraction. -/
def isSpace (c : Char) : Bool :=
  c = ' ' || c = '\t' || c = '\n' || c = '\x0b' || c = '\x0c' || c = '\r'

/-- The value of the character `c` as a digit in base `base` (10 or 16), `none` when it is
not such a digit. -/
def digitValue (base : Nat) (c : Char) : Option Nat :=
  if 48 ≤ c.toNat ∧ c.toNat ≤ 57 then some (c.toNat - 48)
  else if base = 16 ∧ 97 ≤ c.toNat ∧ c.toNat ≤ 102 then some (c.toNat - 87)
  else if base = 16 ∧ 65 ≤ c.toNat ∧ c.toNat ≤ 70 then some (c.toNat - 55)
  else none

/-- The digit loop of an extraction: the digits at the head of `s` are accumulated on `acc`;
`any` tells whether a digit has been read.  The library keeps the value in a machine word
and raises an overflow flag exactly when the exact value, kept here, is above the largest
value of the type. -/
def readDigits (base : Nat) : Str → Nat → Bool → Nat × Bool
  | [], acc, any => (acc, any)
  | c :: cs, acc, any =>
    match digitValue base c with
    | some d => readDigits base cs (base * acc + d) true
    | none => (acc, any)

/-- In base 16 a leading "0x" or "0X" is passed over before the digits. -/
def skipHexMark (base : Nat) (s : Str) : Str :=
  match s with
  | '0' :: x :: rest => if base = 16 ∧ (x = 'x' ∨ x = 'X') then rest else s
  | _ => s

/-- The scan of a number by `stream >> value`: `none` when the text holds nothing but
white space (nothing is extracted and `value` keeps what it held); otherwise whether the
number has a minus sign, the value of its digits, and whether there was any digit. -/
def scanNumber (base : Nat) (s : Str) : Option (Bool × Nat × Bool) :=
  match s.dropWhile isSpace with
  | [] => none
  | c :: cs =>
    let body := if c = '-' ∨ c = '+' then cs else c :: cs
    let digits := readDigits base (skipHexMark base body) 0 false
    some (decide (c = '-'), digits.1, digits.2)

/-- The extraction `stream >> value` for an `unsigned int` in decimal, the stream holding
`s` and `value` holding `old`: the new content of `value`.  Without a digit 0 is stored,
above the largest value 2^32 - 1 is stored, and a minus sign negates modulo 2^32. -/
def extractUnsigned (old : Nat) (s : Str) : Nat :=
  match scanNumber 10 s with
  | none => old
  | some (negative, value, any) =>
    if any = false then 0
    else if 2 ^ 32 - 1 < value then 2 ^ 32 - 1
    else if negative then (2 ^ 32 - value) % 2 ^ 32
    else value

/-- The extraction `stream >> value` for an `int` in base `base`: without a digit 0 is
stored, and a value out of range is replaced by the nearest bound. -/
def extractInt (base : Nat) (old : Int) (s : Str) : Int :=
  match scanNumber base s with
  | none => old
  | some (negative, value, any) =>
    if any = false then 0
    else if negative then (if 2 ^ 31 < value then -(2 ^ 31 : Int) else -(value : Int))
    else (if 2 ^ 31 - 1 < value then (2 ^ 31 - 1 : Int) else (value : Int))

/-! ## HTTPResponse -/

/-- The class `HTTPResponse`: its members and the header map of its base class.  The
member `chunked` is `none` as long as nothing has been assigned to it. -/
structure HTTPResponse where
  statusCode : Nat
  version : Str
  statusDesc : Str
  content : Str
  chunked : Option Bool
  headers : Headers
deriving DecidableEq

/-- The method `HTTPResponse::buildStatus`: the description it assigns for `statusCode`. -/
def buildStatus (statusCode : Nat) : Str :=
  match statusCode with
  | 200 => "OK".toList
  | 400 => "Bad request".toList
  | 403 => "Forbidden".toList
  | 404 => "Not Found".toList
  | 500 => "Internal server error".toList
  | 501 => "Not implemented".toList
  | 503 => "Service unavailable".toList
  | _ => "Code not implemented/recognized".toList

/-- The constructor `HTTPResponse(statusCode, statusDesc, version, content)`; `date` is the
text that `buildTime()` returns at the call.  The constructor does not use its arguments
`statusDesc`, `version` and `content`. -/
def HTTPResponse.construct (date : Str) (statusCode : Nat) (_statusDesc _version _content : Str) :
    HTTPResponse :=
  { statusCode := statusCode
    statusDesc := buildStatus statusCode
    version := "HTTP/1.1".toList
    content := []
    chunked := none
    headers :=
      setHeaderField
        (setHeaderField
          (setHeaderField
            (setHeaderField [] "Content-Type".toList "text/html".toList)
            "Server".toList "MSU/CSE422/SS17-Section001".toList)
          "Connection".toList "close".toList)
        "Date".toList date }

/-- The default arguments of the constructor: `HTTPResponse(0, "", "HTTP/1.1", "")`. -/
def HTTPResponse.default (date : Str) : HTTPResponse :=
  HTTPResponse.construct date 0 [] "HTTP/1.1".toList []

/-- The method `HTTPResponse::isChunked`. -/
def HTTPResponse.isChunked (r : HTTPResponse) : Option Bool := r.chunked

/-- The second half of `HTTPResponse::parse`, from `setStatusCode(statusCodeStr)` on:
`response` holds the version, `statusCodeStr` and `statusDesc` are cut out of the status
line, `data` and `length` are the arguments given to `parseFields`. -/
def HTTPResponse.finish (response : HTTPResponse) (statusCodeStr statusDesc : Str)
    (data : Str) (length : Nat) : ParseResult HTTPResponse :=
  let response := { response with
    statusCode := extractUnsigned response.statusCode statusCodeStr }
  if response.statusCode < 100 ∨ 600 ≤ response.statusCode then .null
  else
    let response := { response with statusDesc := statusDesc }
    let fields := parseFields response.headers data length
    let headersOkay := fields.1
    let response := { response with headers := fields.2 }
    let transferEncoding :=
      (getHeaderValue response.headers "Transfer-Encoding".toList).getD []
    let response := { response with
      chunked := some (find transferEncoding "chunked".toList 0).isSome }
    if headersOkay then .object response else .null

/-- The factory `HTTPResponse::parse(data, length)`; `date` is the text that `buildTime()`
returns when the response object is constructed. -/
def HTTPResponse.parse (date : Str) (data : Str) (length : Nat) : ParseResult HTTPResponse :=
  let response := HTTPResponse.default date
  match findNextLine data length with
  | none => .null
  | some firstHeader =>
    let firstLineLen := firstHeader
    let responseLine := data.take (firstLineLen - 2)
    match find responseLine [' '] 0 with
    | none => .null
    | some statusCodePos =>
      let response := { response with version := substr responseLine 0 statusCodePos }
      match find responseLine [' '] (statusCodePos + 1) with
      | none => .null
      | some statusDescPos =>
        let statusCodeStr :=
          substr responseLine (statusCodePos + 1) (statusDescPos - statusCodePos - 1)
        HTTPResponse.finish response statusCodeStr (responseLine.drop (statusDescPos + 1))
          (data.drop firstHeader) (length - firstLineLen)

/-- The function `HTTPResponse::getChunkSize(data)`: the returned number and the content of
`data` afterwards, or `none` when `std::out_of_range` leaves the function.  `chunkLen0` is
the value that the local `chunkLen`, which is not initialised, holds before the extraction.
The sum `chunkLenStrEnd + 2` is taken without wrap-around; the difference
`data.length() - chunkLenStrEnd - 2` is taken in `size_t` (a `std::string` is shorter than
2^64, so it is exact when it does not go below 0). -/
def HTTPResponse.getChunkSize (chunkLen0 : Int) (data : Str) : Option (Int × Str) :=
  let chunkLenStrEnd : Int := toInt (find data lineEnding 0)
  if toSizeT chunkLenStrEnd ≠ npos then
    let chunkLenStr := substr data 0 (toSizeT chunkLenStrEnd)
    let chunkLen := extractInt 16 chunkLen0 chunkLenStr
    let pos := toSizeT (chunkLenStrEnd + 2)
    let n :=
      if toSizeT chunkLenStrEnd + 2 ≤ data.length then
        data.length - toSizeT chunkLenStrEnd - 2
      else (data.length + 2 * 2 ^ 64 - toSizeT chunkLenStrEnd - 2) % 2 ^ 64
    if data.length < pos then none else some (chunkLen, substr data pos n)
  else some (chunkLenStrEnd, data)

/-- The method `HTTPResponse::getContentLen`. -/
def HTTPResponse.getContentLen (r : HTTPResponse) : Int :=
  match getHeaderValue r.headers "Content-Length".toList with
  | some len_str => extractInt 10 0 len_str
  | none => -1

/-- The method `HTTPMessage::getNumHeaderFields`. -/
def getNumHeaderFields (headers : Headers) : Nat := headers.length

/-! ## Shapes of inputs -/

/-- The request line `M SP T SP V CRLF` as it stands in a buffer. -/
def requestLine (M T V : Str) : Str :=
  M ++ ' ' :: (T ++ ' ' :: (V ++ ['\r', '\n']))

/-- A header line as it stands in a buffer: `name ':' value CRLF`, where `value` is all
the text between the delimiter and the line ending. -/
def headerLine (field : Str × Str) : Str :=
  field.1 ++ ':' :: (field.2 ++ ['\r', '\n'])

/-- Consecutive header lines as they stand in a buffer. -/
def headerLines : List (Str × Str) → Str
  | [] => []
  | field :: rest => headerLine field ++ headerLines rest

/-- A header line `name ':' value CRLF` is well formed when the name holds neither the
delimiter nor a carriage return and the value holds no carriage return. -/
def WellFormedField (field : Str × Str) : Prop :=
  ':' ∉ field.1 ∧ '\r' ∉ field.1 ∧ '\r' ∉ field.2

instance : DecidablePred WellFormedField := fun field => by
  unfold WellFormedField
  infer_instance

/-- What `parseFields` stores for the line `name ':' value CRLF`. -/
def storeField (headers : Headers) (field : Str × Str) : Headers :=
  setHeaderField headers field.1 (trimValue field.2)

/-- The value begins with a blank of the trim set. -/
def startsBlank (value : Str) : Bool :=
  match value with
  | [] => false
  | c :: _ => isBlank c

/-- The value ends with a blank of the trim set. -/
def endsBlank (value : Str) : Bool :=
  match value.getLast? with
  | none => false
  | some c => isBlank c

/-- A stored header field that `print` followed by `parseFields` gives back: the name
holds neither the delimiter nor a carriage return, the value holds no carriage return
and neither begins nor ends with a blank. -/
def PrintableField (field : Str × Str) : Prop :=
  ':' ∉ field.1 ∧ '\r' ∉ field.1 ∧ '\r' ∉ field.2
    ∧ startsBlank field.2 = false ∧ endsBlank field.2 = false

instance : DecidablePred PrintableField := fun field => by
  unfold PrintableField
  infer_instance

/-- The header map is in the order of a `std::map`: names strictly ascending. -/
def OrderedHeaders (headers : Headers) : Prop :=
  headers.Pairwise (fun a b => strLt a.1 b.1 = true)

instance : DecidablePred OrderedHeaders := fun headers => by
  unfold OrderedHeaders
  infer_instance

/-- The status line `V SP C SP D CRLF` as it stands in a buffer. -/
def statusLine (V C D : Str) : Str :=
  V ++ ' ' :: (C ++ ' ' :: (D ++ ['\r', '\n']))

/-- A numeral in base `base` (10 or 16): a non-empty text of digits of that base. -/
def IsNumeral (base : Nat) (digits : Str) : Prop :=
  digits ≠ [] ∧ ∀ c ∈ digits, (digitValue base c).isSome = true

instance (base : Nat) : DecidablePred (IsNumeral base) := fun digits => by
  unfold IsNumeral
  infer_instance

/-- The number that a text of digits denotes in base `base`, most significant digit first. -/
def numeralValue (base : Nat) (digits : Str) : Nat :=
  Nat.ofDigits base (digits.reverse.map fun c => (digitValue base c).getD 0)

/-- A text that does not start like a number: it is empty, or its first character is
neither a decimal digit, nor a sign, nor white space. -/
def NonNumeric (s : Str) : Prop :=
  match s with
  | [] => True
  | c :: _ => digitValue 10 c = none ∧ c ≠ '+' ∧ c ≠ '-' ∧ isSpace c = false

instance : DecidablePred NonNumeric := fun s => by
  unfold NonNumeric
  cases s <;> infer_instance

/-! ## Printing into the output string -/

/-- The method `HTTPMessage::print(std::string&)` on the string itself: the content of
`outputString` after the call. -/
def HTTPMessage.printTo : Headers → Str → Str
  | [], outputString => outputString ++ lineEnding
  | (name, value) :: rest, outputString =>
    HTTPMessage.printTo rest
      (outputString ++ name ++ [headerDelimiter] ++ [' '] ++ value ++ lineEnding)

/-- The method `HTTPRequest::print(std::string&)`: the content of `outputString` after the
call.  The string is cleared and then assigned, so what it held does not matter. -/
def HTTPRequest.printTo (r : HTTPRequest) (_outputString : Str) : Str :=
  HTTPMessage.printTo r.headers (r.method ++ [' '] ++ r.path ++ [' '] ++ r.version ++ lineEnding)

/-- The digit loop of `stream << value` for an unsigned number in decimal: the digits of
`n` are put in front of `acc`, least significant first; `fuel` bounds the number of digits. -/
def putDigits : Nat → Nat → Str → Str
  | 0, _, acc => acc
  | fuel + 1, n, acc =>
    if n / 10 = 0 then Char.ofNat (48 + n % 10) :: acc
    else putDigits fuel (n / 10) (Char.ofNat (48 + n % 10) :: acc)

/-- The insertion `stream << value` for an `unsigned int`: the decimal text of `n`, without
sign and without leading zero. -/
def putUnsigned (n : Nat) : Str := putDigits (n + 1) n []

/-- The method `HTTPResponse::print(std::string&)`: the content of `outputString` after the
call.  The string is cleared and then assigned, so what it held does not matter. -/
def HTTPResponse.print (r : HTTPResponse) (_outputString : Str) : Str :=
  HTTPMessage.printTo r.headers
    (r.version ++ [' '] ++ putUnsigned r.statusCode ++ [' '] ++ r.statusDesc ++ lineEnding)

/-- The factory `HTTPResponse::createStandardResponse(contentLen, statusCode, statusDesc,
version)`; `date` is the text that `buildTime()` returns in the constructor and
`timeBuffer` the text that `strftime` writes afterwards. -/
def HTTPResponse.createStandardResponse (date timeBuffer : Str) (contentLen statusCode : Nat)
    (statusDesc version : Str) : HTTPResponse :=
  let response := HTTPResponse.construct date statusCode statusDesc version []
  { response with
    headers :=
      setHeaderField
        (setHeaderField
          (setHeaderField
            (setHeaderField
              (setHeaderField response.headers "Content-Encoding".toList "identity".toList)
              "Transfer-Encoding".toList "identity".toList)
            "Connection".toList "close".toList)
          "Date".toList timeBuffer)
        "Content-Length".toList (putUnsigned contentLen) }

/-! ## TCPSocket -/

/-- The result of one call `read(sock, &c, 1)`: one byte, 0 (the peer has closed), or -1. -/
inductive ReadByte where
  | byte (c : Char)
  | closed
  | failed
deriving DecidableEq

/-- The loop of `TCPSocket::readLine(vptr, maxLen)` from the counter `n` on, `stored` being
the bytes written through `ptr` so far and the list the results of the coming calls of
`read`: the returned number and the bytes stored, `none` when the list ends while the loop
still reads.  After the loop a NUL is written behind the stored bytes. -/
def readLineLoop (maxLen : Nat) : List ReadByte → Nat → Str → Option (Int × Str)
  | [], n, stored => if n < maxLen then none else some ((n : Int), stored)
  | r :: reads, n, stored =>
    if n < maxLen then
      match r with
      | .byte c =>
        if c = '\n' then some ((n : Int), stored ++ [c])
        else readLineLoop maxLen reads (n + 1) (stored ++ [c])
      | .closed => if n = 1 then some (0, stored) else some ((n : Int), stored)
      | .failed => some (-1, stored)
    else some ((n : Int), stored)

/-- The method `TCPSocket::readLine(vptr, maxLen)` on the results `reads` of the calls of
`read`: the returned number and the bytes stored in the buffer. -/
def TCPSocket.readLine (reads : List ReadByte) (maxLen : Nat) : Option (Int × Str) :=
  readLineLoop maxLen reads 1 []

/-- The array `headerEnd` of `TCPSocket::receiveHeaders`. -/
def headerEnd : Str := ['\r', '\n', '\r', '\n']

/-- The inner loop of `TCPSocket::receiveHeaders` over the bytes `buffer[i ..]` of the piece
just read: the final values of `i` and `headerEndRead`. -/
def matchHeaderEnd : Str → Nat → Nat → Nat × Nat
  | [], i, headerEndRead => (i, headerEndRead)
  | c :: piece, i, headerEndRead =>
    if headerEndRead < headerEnd.length then
      if headerEnd.get? headerEndRead = some c then matchHeaderEnd piece (i + 1) (headerEndRead + 1)
      else matchHeaderEnd piece (i + 1) 0
    else (i, headerEndRead)

/-- The outer loop of `TCPSocket::receiveHeaders(buffer, bufferLen, totalReceivedLen)`.
Each element of the list is what one call of `read` finds: `none` for the result -1,
otherwise the bytes ready at the socket, of which `read` delivers at most the count asked
for (no bytes: the result 0).  `buffer` holds the `bytesReceived` bytes written so far.
The result is the returned number, the final `totalReceivedLen` and the bytes in the
buffer; `none` when the list ends while the loop still reads. -/
def receiveHeadersLoop (bufferLen : Nat) :
    List (Option Str) → Str → Nat → Nat → Option (Int × Nat × Str)
  | [], buffer, _, _ =>
    if buffer.length < bufferLen then none else some (-1, buffer.length, buffer)
  | r :: reads, buffer, headerEndRead, totalReceivedLen =>
    if buffer.length < bufferLen then
      match r with
      | none => some (-1, totalReceivedLen, buffer)
      | some ready =>
        let piece := ready.take (bufferLen - buffer.length)
        let found := matchHeaderEnd piece buffer.length headerEndRead
        if headerEnd.length ≤ found.2 then
          some ((found.1 : Int), buffer.length + piece.length, buffer ++ piece)
        else receiveHeadersLoop bufferLen reads (buffer ++ piece) found.2 totalReceivedLen
    else some (-1, buffer.length, buffer)

/-- The method `TCPSocket::receiveHeaders(buffer, bufferLen, totalReceivedLen)`. -/
def TCPSocket.receiveHeaders (reads : List (Option Str)) (bufferLen totalReceivedLen : Nat) :
    Option (Int × Nat × Str) :=
  receiveHeadersLoop bufferLen reads [] 0 totalReceivedLen

/-- How a call that may throw ends on a given list of read results. -/
inductive Outcome (α : Type) where
  | returned (a : α)
  | thrown
  | pending
deriving DecidableEq

/-- The method `TCPSocket::readHeader(header, data)` with a buffer of `BUFFER_SIZE` bytes:
the final contents of `header` and `data`, `thrown` when it throws, `pending` when the
list of read results ends while `receiveHeaders` still reads. -/
def TCPSocket.readHeader (BUFFER_SIZE : Nat) (reads : List (Option Str)) (header data : Str) :
    Outcome (Str × Str) :=
  match TCPSocket.receiveHeaders reads (BUFFER_SIZE - 1) 0 with
  | none => .pending
  | some (headerEndPos, total, buffer) =>
    if headerEndPos < 0 then .thrown
    else
      .returned (header ++ buffer.take headerEndPos.toNat,
        data ++ (buffer.drop headerEndPos.toNat).take (total - headerEndPos.toNat))

/-! ## Printing into a character buffer -/

/-- The characters of a string up to its first NUL: what `strlen` and `memcpy` see of
`s.c_str()`. -/
def cstr (s : Str) : Str := s.takeWhile fun c => c != '\x00'

/-- The pair `outputBuffer`, `remainingLength` of the buffer printers: `written` is the
text stored between the start of the buffer and `outputBuffer`, `terminated` tells whether
a NUL has been stored at `*outputBuffer`. -/
structure OutputBuffer where
  written : Str
  remainingLength : Nat
  terminated : Bool
deriving DecidableEq

/-- The method `HTTPMessage::copyIfRoom(outputBuffer, dataString, remainingLength)`. -/
def copyIfRoom (out : OutputBuffer) (dataString : Str) : OutputBuffer :=
  if out.remainingLength = 0 then out
  else
    let dataLength :=
      if out.remainingLength < (cstr dataString).length then out.remainingLength
      else (cstr dataString).length
    { written := out.written ++ (cstr dataString).take dataLength
      remainingLength := out.remainingLength - dataLength
      terminated := true }

/-- The array `delimString` of `HTTPMessage::print(char*, unsigned)`. -/
def delimString : Str := [headerDelimiter, ' ', '\x00']

/-- The method `HTTPMessage::print(outputBuffer, bufferLength)`, continuing in the buffer
state `out`. -/
def HTTPMessage.printBuffer : Headers → OutputBuffer → OutputBuffer
  | [], out => copyIfRoom out lineEnding
  | (name, value) :: rest, out =>
    HTTPMessage.printBuffer rest
      (copyIfRoom (copyIfRoom (copyIfRoom (copyIfRoom out name) delimString) value) lineEnding)

/-- The method `HTTPRequest::print(outputBuffer, bufferLength)` on a fresh buffer. -/
def HTTPRequest.printBuffer (r : HTTPRequest) (bufferLength : Nat) : OutputBuffer :=
  let out : OutputBuffer := { written := [], remainingLength := bufferLength, terminated := false }
  let out := copyIfRoom out r.method
  let out := copyIfRoom out [' ']
  let out := copyIfRoom out r.path
  let out := copyIfRoom out [' ']
  let out := copyIfRoom out r.version
  let out := copyIfRoom out lineEnding
  HTTPMessage.printBuffer r.headers out

/-- The method `HTTPResponse::print(outputBuffer, bufferLen)` on a fresh buffer. -/
def HTTPResponse.printBuffer (r : HTTPResponse) (bufferLen : Nat) : OutputBuffer :=
  let codeStr := putUnsigned r.statusCode
  let out : OutputBuffer := { written := [], remainingLength := bufferLen, terminated := false }
  let out := copyIfRoom out r.version
  let out := copyIfRoom out [' ']
  let out := copyIfRoom out codeStr
  let out := copyIfRoom out [' ']
  let out := copyIfRoom out r.statusDesc
  let out := copyIfRoom out lineEnding
  HTTPMessage.printBuffer r.headers out

/-! ## URL -/

/-- The class `URL`. -/
structure URL where
  protocol : Str
  host : Str
  port : Nat
  path : Str
  query : Str
  fragment : Str
deriving DecidableEq

/-- The constant `UNDEFINED_PORT`. -/
def UNDEFINED_PORT : Nat := 0xffff

/-- The constructor `URL()`. -/
def URL.construct : URL :=
  { protocol := [], host := [], port := UNDEFINED_PORT, path := ['/'], query := [],
    fragment := [] }

/-- The method `URL::isPortDefined`. -/
def URL.isPortDefined (url : URL) : Bool := url.port != UNDEFINED_PORT

/-- The method `URL::getPort`. -/
def URL.getPort (url : URL) : Nat := url.port

/-- Scan of `std::string::find_first_of`: `s` is the text from index `i` on. -/
def findFirstOfFrom (chars : Str) : Str → Nat → Option Nat
  | [], _ => none
  | c :: cs, i => if c ∈ chars then some i else findFirstOfFrom chars cs (i + 1)

/-- The call `s.find_first_of(chars, start)`; `none` stands for `std::string::npos`. -/
def findFirstOf (s chars : Str) (start : Nat) : Option Nat :=
  if s.length < start then none else findFirstOfFrom chars (s.drop start) start

/-- The extraction `stream >> value` for an `unsigned short` in decimal: as
`extractUnsigned`, with 16 bits. -/
def extractUShort (old : Nat) (s : Str) : Nat :=
  match scanNumber 10 s with
  | none => old
  | some (negative, value, any) =>
    if any = false then 0
    else if 2 ^ 16 - 1 < value then 2 ^ 16 - 1
    else if negative then (2 ^ 16 - value) % 2 ^ 16
    else value

/-- The method `URL::readProtocol(urlString, offset)`: the object afterwards and the
returned offset. -/
def URL.readProtocol (url : URL) (urlString : Str) (offset : Nat) : URL × Nat :=
  match find urlString [':', '/', '/'] offset with
  | none => ({ url with protocol := ['h', 't', 't', 'p'] }, 0)
  | some protocolEnd =>
    ({ url with protocol := substr urlString offset (protocolEnd - offset) }, protocolEnd + 3)

/-- The method `URL::readHostPort(urlString, offset)`: the object afterwards and the
returned offset. -/
def URL.readHostPort (url : URL) (urlString : Str) (offset : Nat) : URL × Nat :=
  let partEnd := (findFirstOf urlString ['/', '#', '?'] offset).getD urlString.length
  let portOffset :=
    match find urlString [':'] offset with
    | none => partEnd
    | some found => if partEnd < found then partEnd else found
  let url := { url with host := substr urlString offset (portOffset - offset) }
  if portOffset < partEnd then
    let portString := substr urlString (portOffset + 1) (partEnd - portOffset - 1)
    ({ url with port := extractUShort url.port portString }, partEnd)
  else (url, partEnd)

/-- The method `URL::readPathDetails(urlString, offset)`: the object afterwards and the
returned offset. -/
def URL.readPathDetails (url : URL) (urlString : Str) (offset : Nat) : URL × Nat :=
  let fragmentOffset := find urlString ['#'] offset
  let url :=
    match fragmentOffset with
    | some f => { url with fragment := urlString.drop (f + 1) }
    | none => url
  let unparsedEnd := fragmentOffset.getD urlString.length
  let queryOffset := find urlString ['?'] offset
  let cut : URL × Nat :=
    match queryOffset with
    | some q =>
      if q < unparsedEnd then
        ({ url with query := substr urlString (q + 1) (unparsedEnd - q - 1) }, q)
      else (url, unparsedEnd)
    | none => (url, unparsedEnd)
  ({ cut.1 with path := substr urlString offset (cut.2 - offset) }, urlString.length)

/-- The factory `URL::parse(urlString)`; `none` stands for `NULL`. -/
def URL.parse (urlString : Str) : Option URL :=
  let start := URL.readProtocol URL.construct urlString 0
  if start.2 = npos then none
  else
    let hostPort := URL.readHostPort start.1 urlString start.2
    if hostPort.2 < urlString.length then
      let details := URL.readPathDetails hostPort.1 urlString hostPort.2
      if details.1.path.length = 0 then some { details.1 with path := ['/'] }
      else some details.1
    else some hostPort.1

/-- Scan of `std::string::rfind`: `s` is the text from index `i` on; the last index at
which `pat` occurs. -/
def rfindFrom (pat : Str) : Str → Nat → Option Nat
  | [], i => if pat = [] then some i else none
  | c :: cs, i =>
    match rfindFrom pat cs (i + 1) with
    | some j => some j
    | none => if pat.isPrefixOf (c :: cs) then some i else none

/-- The call `s.rfind(pat)`; `none` stands for `std::string::npos`. -/
def rfind (s pat : Str) : Option Nat := rfindFrom pat s 0

/-- The test `path.rfind(e) + e.size() == path.size()` of `URL::isHtml`, in the 64-bit
arithmetic of `size_t`. -/
def endsAt (path e : Str) : Bool :=
  ((rfind path e).getD npos + e.length) % 2 ^ 64 == path.length

/-- The function `URL::isHtml(path)`. -/
def URL.isHtml (path : Str) : Bool :=
  endsAt path ['/'] || endsAt path ['h', 't', 'm', 'l'] || endsAt path ['h', 't', 'm']

/-! ## Playlist -/

/-- The class `PlaylistEntry`. -/
structure PlaylistEntry where
  url : Str
  duration : Nat
deriving DecidableEq

/-- The class `Playlist`: its member `segments`. -/
structure Playlist where
  segments : List PlaylistEntry
deriving DecidableEq

/-- The constant `PLAYLIST_HEADER`. -/
def PLAYLIST_HEADER : Str := ['#', 'E', 'X', 'T', 'M', '3', 'U']

/-- The constant `SEGMENT_TAG`. -/
def SEGMENT_TAG : Str := ['#', 'E', 'X', 'T', 'I', 'N', 'F', ':']

/-- The constant `END_TAG`. -/
def END_TAG : Str :=
  ['#', 'E', 'X', 'T', '-', 'X', '-', 'E', 'N', 'D', 'L', 'I', 'S', 'T']

/-- The function `atoi` as the C library computes it, `(int) strtol(s, NULL, 10)`: white
space is skipped, a sign and the digits are read, the value is kept within the range of
`long` and then cut to the 32 bits of an `int`. -/
def atoi (s : Str) : Int :=
  match scanNumber 10 s with
  | none => 0
  | some (negative, value, _) =>
    let long : Int :=
      if negative then (if 2 ^ 63 < value then -(2 ^ 63 : Int) else -(value : Int))
      else (if 2 ^ 63 - 1 < value then (2 ^ 63 - 1 : Int) else (value : Int))
    let low : Nat := (long % 2 ^ 32).toNat
    if low < 2 ^ 31 then (low : Int) else (low : Int) - 2 ^ 32

/-- The conversion of an `int` to `unsigned int`. -/
def toUnsigned (i : Int) : Nat := (i % 2 ^ 32).toNat

/-- The function `Playlist::readUpTo(data, length, delimiter, output)`; `data` is the
`length` bytes from the pointer on.  The result is `output` and the bytes left. -/
def Playlist.readUpTo : Str → Char → Str × Str
  | [], _ => ([], [])
  | test :: data, delimiter =>
    if test = delimiter then ([], data)
    else (test :: (Playlist.readUpTo data delimiter).1, (Playlist.readUpTo data delimiter).2)

/-- The function `Playlist::verifyHeader(data, length)`: the returned flag and the bytes
left. -/
def Playlist.verifyHeader (data : Str) : Bool × Str :=
  let header := Playlist.readUpTo data '\n'
  (header.1 == PLAYLIST_HEADER && header.2.length != 0, header.2)

/-- The body of the loop of `Playlist::readNextSegment`, entered with both flags false:
the flags `endOfList` and `foundSegment`, the bytes left and the segments afterwards. -/
def Playlist.segmentStep (data : Str) (segments : List PlaylistEntry) :
    Bool × Bool × Str × List PlaylistEntry :=
  let first := Playlist.readUpTo data '\n'
  let endOfList := first.1.take END_TAG.length == END_TAG
  if first.1.take SEGMENT_TAG.length = SEGMENT_TAG then
    let line := first.1.drop SEGMENT_TAG.length
    match find line [','] 0 with
    | none => (endOfList, false, first.2, segments)
    | some _ =>
      let duration := toUnsigned (atoi line)
      let second := Playlist.readUpTo first.2 '\n'
      if 0 < second.1.length ∧ second.1.head? ≠ some '#' then
        (endOfList, true, second.2, segments ++ [{ url := second.1, duration := duration }])
      else if second.1.take END_TAG.length = END_TAG then (true, false, second.2, segments)
      else (endOfList, false, second.2, segments)
  else (endOfList, false, first.2, segments)

/-- The loop of `Playlist::readNextSegment` and its `return`: the returned flag, the bytes
left and the segments; `none` when the bound on the number of iterations is used up. -/
def Playlist.readNextSegmentLoop :
    Nat → Str → List PlaylistEntry → Option (Bool × Str × List PlaylistEntry)
  | 0, data, segments => if 0 < data.length then none else some (false, data, segments)
  | fuel + 1, data, segments =>
    if 0 < data.length then
      let step := Playlist.segmentStep data segments
      if step.1 || step.2.1 then
        some (!step.1 && decide (0 < step.2.2.1.length), step.2.2.1, step.2.2.2)
      else Playlist.readNextSegmentLoop fuel step.2.2.1 step.2.2.2
    else some (false, data, segments)

/-- The function `Playlist::readNextSegment(data, length, outPlaylist)`.  Every iteration
takes at least one byte, so `length` iterations are enough. -/
def Playlist.readNextSegment (data : Str) (segments : List PlaylistEntry) :
    Option (Bool × Str × List PlaylistEntry) :=
  Playlist.readNextSegmentLoop data.length data segments

/-- The loop `while (possiblyMore)` of `Playlist::parse`. -/
def Playlist.parseLoop : Nat → Str → List PlaylistEntry → Option (List PlaylistEntry)
  | 0, _, _ => none
  | fuel + 1, data, segments =>
    match Playlist.readNextSegment data segments with
    | none => none
    | some (possiblyMore, data, segments) =>
      if possiblyMore then Playlist.parseLoop fuel data segments else some segments

/-- The factory `Playlist::parse(data, length)`, `data` being the `length` bytes of the
buffer: `returned none` stands for `NULL`.  A call of `readNextSegment` that returns true
has taken at least one byte, so `length + 1` calls are enough; `pending` is the result
when that bound is used up. -/
def Playlist.parse (data : Str) : Outcome (Option Playlist) :=
  let header := Playlist.verifyHeader data
  if header.1 = false then .returned none
  else
    match Playlist.parseLoop (header.2.length + 1) header.2 [] with
    | none => .pending
    | some segments => .returned (some { segments := segments })

/-- A segment of a playlist as it stands in the file, for the duration, the title and the
URL: the line "#EXTINF:" duration "," title and the line of the URL. -/
def segmentText (segment : Nat × Str × Str) : Str :=
  SEGMENT_TAG ++ (putUnsigned segment.1 ++ ',' :: (segment.2.1 ++ '\n' :: (segment.2.2 ++ ['\n'])))

/-- The segments of a playlist as they stand in the file, followed by the line
"#EXT-X-ENDLIST". -/
def segmentsText : List (Nat × Str × Str) → Str
  | [] => END_TAG ++ ['\n']
  | segment :: rest => segmentText segment ++ segmentsText rest

/-- A playlist file: the line "#EXTM3U", the segments and the line "#EXT-X-ENDLIST". -/
def playlistText (segments : List (Nat × Str × Str)) : Str :=
  PLAYLIST_HEADER ++ '\n' :: segmentsText segments

/-! ## Lemmas on the line matcher -/

theorem findNextLineLoop_found (data : Str) (remaining found off : Nat) (h : 2 ≤ found) :
    findNextLineLoop data remaining found off = some off := by
  cases data <;> simp [findNextLineLoop, lineEnding, h]

/-- On a line free of carriage returns the matcher stops just past the line ending. -/
theorem findNextLineLoop_line (L : Str) (hL : ∀ c ∈ L, c ≠ '\r') (rest : Str) (k : Nat) :
    ∀ off, findNextLineLoop (L ++ '\r' :: '\n' :: rest) (L.length + 2 + k) 0 off
      = some (off + L.length + 2) := by
  induction L with
  | nil =>
    intro off
    have e : ([] : Str).length + 2 + k = (k + 1) + 1 := by simp; omega
    rw [e]
    simp [findNextLineLoop, lineEnding, findNextLineLoop_found]
  | cons c cs ih =>
    intro off
    have hc : c ≠ '\r' := hL c (List.mem_cons_self _ _)
    have hcs : ∀ d ∈ cs, d ≠ '\r' := fun d hd => hL d (List.mem_cons_of_mem _ hd)
    have e : (c :: cs).length + 2 + k = (cs.length + 2 + k) + 1 := by simp; omega
    rw [List.cons_append, e]
    simp only [findNextLineLoop, lineEnding]
    simp [hc, ih hcs]
    omega

theorem findNextLine_line (L : Str) (hL : ∀ c ∈ L, c ≠ '\r') (rest : Str) (length : Nat)
    (hlen : L.length + 2 ≤ length) :
    findNextLine (L ++ '\r' :: '\n' :: rest) length = some (L.length + 2) := by
  obtain ⟨k, rfl⟩ := Nat.exists_eq_add_of_le hlen
  simpa [findNextLine] using findNextLineLoop_line L hL rest k 0

theorem findNextLineLoop_ge : ∀ (data : Str) (remaining found off p : Nat),
    findNextLineLoop data remaining found off = some p → found ≤ 2 → off + 2 ≤ p + found := by
  intro data
  induction data with
  | nil =>
    intro remaining found off p h hf
    by_cases h2 : 2 ≤ found
    · simp [findNextLineLoop, lineEnding, h2] at h; omega
    · simp [findNextLineLoop, lineEnding, h2] at h
  | cons c rest ih =>
    intro remaining found off p h hf
    by_cases h2 : 2 ≤ found
    · simp [findNextLineLoop, lineEnding, h2] at h; omega
    · cases remaining with
      | zero => simp [findNextLineLoop, lineEnding, h2] at h
      | succ n =>
        simp only [findNextLineLoop, lineEnding, List.length_cons, List.length_nil,
          Nat.zero_add, Nat.reduceAdd, h2, if_false] at h
        split at h
        · have := ih n (found + 1) (off + 1) p h (by omega); omega
        · have := ih n 0 (off + 1) p h (by omega); omega

/-- A pointer returned by `findNextLine` is at least two bytes past `data`. -/
theorem findNextLine_ge (data : Str) (length p : Nat) (h : findNextLine data length = some p) :
    2 ≤ p := by
  have := findNextLineLoop_ge data length 0 0 p h (by omega)
  omega

/-! ## Lemmas on `find` and on the path clean-up -/

theorem findFrom_single (c : Char) (xs : Str) (hx : c ∉ xs) (ys : Str) :
    ∀ i, findFrom [c] (xs ++ c :: ys) i = some (i + xs.length) := by
  induction xs with
  | nil => intro i; simp [findFrom, List.isPrefixOf]
  | cons x xs ih =>
    intro i
    have hne : c ≠ x := fun h => hx (h ▸ List.mem_cons_self _ _)
    have hxs : c ∉ xs := fun h => hx (List.mem_cons_of_mem _ h)
    simp [findFrom, List.isPrefixOf, hne, ih hxs]
    omega

theorem findFrom_single_none (c : Char) (xs : Str) (hx : c ∉ xs) :
    ∀ i, findFrom [c] xs i = none := by
  induction xs with
  | nil => intro i; simp [findFrom]
  | cons x xs ih =>
    intro i
    have hne : c ≠ x := fun h => hx (h ▸ List.mem_cons_self _ _)
    have hxs : c ∉ xs := fun h => hx (List.mem_cons_of_mem _ h)
    simp [findFrom, List.isPrefixOf, hne, ih hxs]

theorem findFrom_none_of_absent (pat : Str) (s : Str) (h : ¬ pat <:+: s) :
    ∀ i, findFrom pat s i = none := by
  induction s with
  | nil =>
    intro i
    have : pat ≠ [] := fun e => h (e ▸ List.nil_infix)
    simp [findFrom, this]
  | cons c cs ih =>
    intro i
    have h1 : ¬ pat <+: c :: cs := fun hp => h hp.isInfix
    have h2 : ¬ pat <:+: cs := fun hi => h (hi.trans (List.suffix_cons c cs).isInfix)
    have h3 : pat.isPrefixOf (c :: cs) = false := by
      cases hb : pat.isPrefixOf (c :: cs) with
      | false => rfl
      | true => exact absurd (List.isPrefixOf_iff_prefix.mp hb) h1
    simp only [findFrom, h3]
    simpa using ih h2 (i + 1)

theorem findFrom_at_start (pat ys : Str) (i : Nat) : findFrom pat (pat ++ ys) i = some i := by
  cases h : pat ++ ys with
  | nil =>
    have : pat = [] := (List.append_eq_nil.mp h).1
    simp [findFrom, this]
  | cons c cs =>
    have hp : pat.isPrefixOf (c :: cs) = true := by
      rw [← h]; exact List.isPrefixOf_iff_prefix.mpr (List.prefix_append _ _)
    simp [findFrom, hp]

theorem findFrom_bound (pat : Str) : ∀ (s : Str) (i p : Nat),
    findFrom pat s i = some p → i ≤ p ∧ p ≤ i + s.length := by
  intro s
  induction s with
  | nil =>
    intro i p h
    by_cases hp : pat = []
    · simp [findFrom, hp] at h; subst h; simp
    · simp [findFrom, hp] at h
  | cons c cs ih =>
    intro i p h
    by_cases hb : pat.isPrefixOf (c :: cs) = true
    · simp [findFrom, hb] at h; subst h; simp
    · simp only [findFrom, hb] at h
      have := ih (i + 1) p (by simpa using h)
      simp only [List.length_cons]
      omega

theorem find_zero (s pat : Str) : find s pat 0 = findFrom pat s 0 := by
  simp [find]

theorem toSizeT_toInt_none : toSizeT (toInt none) = npos := by decide

theorem toSizeT_toInt_small (p : Nat) (h : p < 2 ^ 31) : toSizeT (toInt (some p)) = p := by
  have h1 : p % 2 ^ 32 = p := Nat.mod_eq_of_lt (by omega)
  have h2 : (2 : Int) ^ 64 = ((2 ^ 64 : Nat) : Int) := by norm_num
  simp only [toInt, toSizeT, Option.getD_some, h1, h, if_true]
  rw [h2, ← Int.ofNat_emod, Int.toNat_ofNat]
  exact Nat.mod_eq_of_lt (by omega)

/-- The clean-up leaves a path alone when the pattern does not occur in it. -/
theorem stripFirst_absent (path pat : Str) (n : Nat) (h : ¬ pat <:+: path) :
    stripFirst path pat n = some path := by
  simp [stripFirst, find_zero, findFrom_none_of_absent pat path h, toSizeT_toInt_none]

/-- The clean-up removes a leading occurrence of the pattern. -/
theorem stripFirst_leading (pat rest : Str) :
    stripFirst (pat ++ rest) pat pat.length = some rest := by
  have h0 : toSizeT (toInt (some 0)) = 0 := by decide
  have hn : (0 : Nat) ≠ npos := by decide
  simp [stripFirst, find_zero, findFrom_at_start, h0, hn, replaceEmpty]

/-- Below 2^31 bytes the clean-up never throws, and it never lengthens the path. -/
theorem stripFirst_isSome (path pat : Str) (n : Nat) (h : path.length < 2 ^ 31) :
    ∃ q, stripFirst path pat n = some q ∧ q.length ≤ path.length := by
  cases hf : findFrom pat path 0 with
  | none => exact ⟨path, by simp [stripFirst, find_zero, hf, toSizeT_toInt_none], Nat.le_refl _⟩
  | some p =>
    have hb := findFrom_bound pat path 0 p hf
    have hp : p < 2 ^ 31 := by omega
    have hq : p ≠ npos := by
      have : npos = 2 ^ 64 - 1 := rfl
      omega
    refine ⟨path.take p ++ path.drop (p + n), ?_, ?_⟩
    · have : ¬ path.length < p := by omega
      simp [stripFirst, find_zero, hf, toSizeT_toInt_small p hp, hq, replaceEmpty, this]
    · simp only [List.length_append, List.length_take, List.length_drop]
      omega

/-! ## The request line -/

theorem take_drop_left (xs ys : Str) : (xs ++ ys).drop xs.length = ys := by simp

theorem take_line (xs ys : Str) : (xs ++ ys).take (xs.length + 2 - 2) = xs := by simp

theorem drop_line (xs rest : Str) : (xs ++ '\r' :: '\n' :: rest).drop (xs.length + 2) = rest := by
  have : xs ++ '\r' :: '\n' :: rest = (xs ++ ['\r', '\n']) ++ rest := by simp
  rw [this]
  have hl : (xs ++ ['\r', '\n']).length = xs.length + 2 := by simp
  rw [← hl]
  exact take_drop_left _ _

/-- On an input that begins with `M SP T SP V CRLF`, where `M` and `T` hold no space and
the line holds no carriage return, `HTTPRequest::parse` splits the line into `M`, `T`, `V`
and parses the rest as the header block. -/
theorem parse_requestLine (M T V rest : Str) (length : Nat)
    (hM : ' ' ∉ M) (hT : ' ' ∉ T)
    (hMr : '\r' ∉ M) (hTr : '\r' ∉ T) (hVr : '\r' ∉ V)
    (hlen : M.length + T.length + V.length + 4 ≤ length) :
    HTTPRequest.parse (M ++ ' ' :: (T ++ ' ' :: (V ++ '\r' :: '\n' :: rest))) length
      = HTTPRequest.finish { HTTPRequest.default with method := M, version := V } T
          (parseFields [] rest (length - (M.length + T.length + V.length + 4))) := by
  have hline : ∀ c ∈ M ++ ' ' :: (T ++ ' ' :: V), c ≠ '\r' := by
    intro c hc hr
    subst hr
    simp at hc
    rcases hc with h | h | h
    · exact hMr h
    · exact hTr h
    · exact hVr h
  have hdata : M ++ ' ' :: (T ++ ' ' :: (V ++ '\r' :: '\n' :: rest))
      = (M ++ ' ' :: (T ++ ' ' :: V)) ++ '\r' :: '\n' :: rest := by simp
  have hL : (M ++ ' ' :: (T ++ ' ' :: V)).length = M.length + T.length + V.length + 2 := by
    simp; omega
  have hfind := findNextLine_line _ hline rest length (by rw [hL]; omega)
  have hurl : find (M ++ ' ' :: (T ++ ' ' :: V)) [' '] 0 = some M.length := by
    rw [find_zero]
    simpa using findFrom_single ' ' M hM (T ++ ' ' :: V) 0
  have hdrop : (M ++ ' ' :: (T ++ ' ' :: V)).drop (M.length + 1) = T ++ ' ' :: V := by
    have : M ++ ' ' :: (T ++ ' ' :: V) = (M ++ [' ']) ++ (T ++ ' ' :: V) := by simp
    rw [this]
    have hl : (M ++ [' ']).length = M.length + 1 := by simp
    rw [← hl]
    exact take_drop_left _ _
  have hver : find (M ++ ' ' :: (T ++ ' ' :: V)) [' '] (M.length + 1)
      = some (M.length + 1 + T.length) := by
    have hlt : ¬ (M ++ ' ' :: (T ++ ' ' :: V)).length < M.length + 1 := by rw [hL]; omega
    simp only [find, hlt, if_false, hdrop]
    exact findFrom_single ' ' T hT V (M.length + 1)
  have hdrop2 : (M ++ ' ' :: (T ++ ' ' :: V)).drop (M.length + 1 + T.length + 1) = V := by
    have : M ++ ' ' :: (T ++ ' ' :: V) = (M ++ ' ' :: (T ++ [' '])) ++ V := by simp
    rw [this]
    have hl : (M ++ ' ' :: (T ++ [' '])).length = M.length + 1 + T.length + 1 := by
      simp; omega
    rw [← hl]
    exact take_drop_left _ _
  have hmeth : substr (M ++ ' ' :: (T ++ ' ' :: V)) 0 M.length = M := by
    simp [substr]
  have hpath : substr (M ++ ' ' :: (T ++ ' ' :: V)) (M.length + 1)
      (M.length + 1 + T.length - M.length - 1) = T := by
    have e : M.length + 1 + T.length - M.length - 1 = T.length := by omega
    rw [e]
    simp only [substr, hdrop]
    simp
  have htake := take_line (M ++ ' ' :: (T ++ ' ' :: V)) ('\r' :: '\n' :: rest)
  have hrest := drop_line (M ++ ' ' :: (T ++ ' ' :: V)) rest
  have hsub : length - ((M ++ ' ' :: (T ++ ' ' :: V)).length + 2)
      = length - (M.length + T.length + V.length + 4) := by rw [hL]
  rw [hdata]
  unfold HTTPRequest.parse
  simp only [hfind, htake, hurl, hver, hmeth, hpath, hdrop2, hrest, hsub]
  simp only [HTTPRequest.default, HTTPRequest.construct]

/-! ## The header block -/

theorem findDelim_at (name post : Str) (hn : ':' ∉ name) :
    ∀ i, findDelim (name ++ ':' :: post) i = i + name.length := by
  induction name with
  | nil => intro i; simp [findDelim, headerDelimiter]
  | cons c cs ih =>
    intro i
    have hne : c ≠ ':' := fun h => hn (h ▸ List.mem_cons_self _ _)
    have hcs : ':' ∉ cs := fun h => hn (List.mem_cons_of_mem _ h)
    simp [findDelim, headerDelimiter, hne, ih hcs]
    omega

theorem findDelim_absent (line : Str) (hn : ':' ∉ line) :
    ∀ i, findDelim line i = i + line.length := by
  induction line with
  | nil => intro i; simp [findDelim]
  | cons c cs ih =>
    intro i
    have hne : c ≠ ':' := fun h => hn (h ▸ List.mem_cons_self _ _)
    have hcs : ':' ∉ cs := fun h => hn (List.mem_cons_of_mem _ h)
    simp [findDelim, headerDelimiter, hne, ih hcs]
    omega

theorem parseFieldsLoop_exhausted (length fuel : Nat) (data : Str) (headers : Headers) :
    parseFieldsLoop length fuel data 0 headers = (false, headers) := by
  cases fuel <;> simp [parseFieldsLoop]

/-- One iteration of the loop on a line `name ':' value CRLF`. -/
theorem parseFieldsLoop_step (length fuel : Nat) (name value rest : Str) (avail : Nat)
    (headers : Headers) (hn : ':' ∉ name) (hnr : '\r' ∉ name) (hvr : '\r' ∉ value)
    (hlen : name.length + value.length + 3 ≤ length) (havail : avail ≠ 0) :
    parseFieldsLoop length (fuel + 1) (name ++ ':' :: (value ++ '\r' :: '\n' :: rest)) avail headers
      = parseFieldsLoop length fuel rest (avail - (name.length + value.length + 3))
          (setHeaderField headers name (trimValue value)) := by
  have hline : ∀ c ∈ name ++ ':' :: value, c ≠ '\r' := by
    intro c hc hr
    subst hr
    simp at hc
    rcases hc with h | h
    · exact hnr h
    · exact hvr h
  have hdata : name ++ ':' :: (value ++ '\r' :: '\n' :: rest)
      = (name ++ ':' :: value) ++ '\r' :: '\n' :: rest := by simp
  have hL : (name ++ ':' :: value).length = name.length + value.length + 1 := by
    simp; omega
  have hfind := findNextLine_line _ hline rest length (by rw [hL]; omega)
  have htake := take_line (name ++ ':' :: value) ('\r' :: '\n' :: rest)
  have hrest := drop_line (name ++ ':' :: value) rest
  have hdelim : findDelim (name ++ ':' :: value) 0 = name.length := by
    simpa using findDelim_at name value hn 0
  have hne : (name ++ ':' :: value).length + 2 ≠ 2 := by rw [hL]; omega
  have hlt : ¬ (name ++ ':' :: value).length + 2 - 2 ≤ name.length := by rw [hL]; omega
  have hname : ((name ++ ':' :: value) ++ '\r' :: '\n' :: rest).take name.length = name := by
    simp
  have hvalue : (((name ++ ':' :: value) ++ '\r' :: '\n' :: rest).drop (name.length + 1)).take
      ((name ++ ':' :: value).length + 2 - 2 - name.length - 1) = value := by
    have e1 : (name ++ ':' :: value).length + 2 - 2 - name.length - 1 = value.length := by
      rw [hL]; omega
    have e2 : (name ++ ':' :: value) ++ '\r' :: '\n' :: rest
        = (name ++ [':']) ++ (value ++ '\r' :: '\n' :: rest) := by simp
    have e3 : (name ++ [':']).length = name.length + 1 := by simp
    rw [e1, e2, ← e3, take_drop_left]
    simp
  have hsub : avail - ((name ++ ':' :: value).length + 2)
      = avail - (name.length + value.length + 3) := by rw [hL]
  rw [hdata]
  simp only [parseFieldsLoop, havail, if_false, hfind, lineEnding, List.length_cons,
    List.length_nil]
  simp only [Nat.zero_add, Nat.reduceAdd, hne, if_false, htake, hdelim, hlt, hname, hvalue,
    hrest, hsub]

/-- The loop on the end-of-headers line. -/
theorem parseFieldsLoop_eoh (length fuel : Nat) (rest : Str) (avail : Nat) (headers : Headers)
    (hlen : 2 ≤ length) (havail : avail ≠ 0) :
    parseFieldsLoop length (fuel + 1) ('\r' :: '\n' :: rest) avail headers = (true, headers) := by
  have hfind := findNextLine_line [] (by simp) rest length (by simpa using hlen)
  simp only [List.nil_append, List.length_nil, Nat.zero_add] at hfind
  simp [parseFieldsLoop, havail, hfind, lineEnding]

/-- The loop on a non-empty line without the delimiter. -/
theorem parseFieldsLoop_bad (length fuel : Nat) (line rest : Str) (avail : Nat)
    (headers : Headers) (hne : line ≠ []) (hn : ':' ∉ line) (hr : '\r' ∉ line)
    (hlen : line.length + 2 ≤ length) :
    parseFieldsLoop length fuel (line ++ '\r' :: '\n' :: rest) avail headers = (false, headers) := by
  cases fuel with
  | zero => simp [parseFieldsLoop]
  | succ fuel =>
    by_cases havail : avail = 0
    · simp [parseFieldsLoop, havail]
    · have hfind := findNextLine_line line (fun c hc e => hr (e ▸ hc)) rest length hlen
      have htake := take_line line ('\r' :: '\n' :: rest)
      have hdelim : findDelim line 0 = line.length := by
        simpa using findDelim_absent line hn 0
      have hpos : 0 < line.length := List.length_pos.mpr hne
      have hne2 : line.length + 2 ≠ 2 := by omega
      simp only [parseFieldsLoop, havail, if_false, hfind, lineEnding, List.length_cons,
        List.length_nil]
      simp only [Nat.zero_add, Nat.reduceAdd, hne2, if_false, htake, hdelim]
      simp

/-- The bound on the iterations of `parseFieldsLoop` does not cut the loop short: once it
is at least `dataEnd - data`, a larger bound gives the same result. -/
theorem parseFieldsLoop_fuel (length : Nat) : ∀ (fuel k : Nat) (data : Str) (avail : Nat)
    (headers : Headers), avail ≤ fuel →
      parseFieldsLoop length (fuel + k) data avail headers
        = parseFieldsLoop length fuel data avail headers := by
  intro fuel
  induction fuel with
  | zero =>
    intro k data avail headers h
    have : avail = 0 := by omega
    subst this
    rw [parseFieldsLoop_exhausted, parseFieldsLoop_exhausted]
  | succ fuel ih =>
    intro k data avail headers h
    have e : fuel + 1 + k = (fuel + k) + 1 := by omega
    rw [e]
    simp only [parseFieldsLoop]
    split
    · rfl
    · cases hf : findNextLine data length with
      | none => rfl
      | some next =>
        have h2 := findNextLine_ge data length next hf
        simp only []
        split
        · rfl
        · split
          · rfl
          · exact ih k _ _ _ (by omega)

theorem headerLine_length_pos (field : Str × Str) : 3 ≤ (headerLine field).length := by
  simp [headerLine]; omega

/-- The loop on a run of well-formed header lines: each line is stored and the loop goes
on with what follows them. -/
theorem parseFieldsLoop_lines (length : Nat) :
    ∀ (fields : List (Str × Str)) (fuel : Nat) (rest : Str) (avail : Nat) (headers : Headers),
      (∀ f ∈ fields, WellFormedField f) →
      (∀ f ∈ fields, (headerLine f).length ≤ length) →
      parseFieldsLoop length (fuel + fields.length) (headerLines fields ++ rest)
          (avail + (headerLines fields).length) headers
        = parseFieldsLoop length fuel rest avail (fields.foldl storeField headers) := by
  intro fields
  induction fields with
  | nil => intro fuel rest avail headers _ _; simp [headerLines]
  | cons f fs ih =>
    intro fuel rest avail headers hwf hlen
    obtain ⟨h1, h2, h3⟩ := hwf f (List.mem_cons_self _ _)
    have hl := hlen f (List.mem_cons_self _ _)
    have hlf : (headerLine f).length = f.1.length + f.2.length + 3 := by
      simp [headerLine]; omega
    have hdata : headerLines (f :: fs) ++ rest
        = f.1 ++ ':' :: (f.2 ++ '\r' :: '\n' :: (headerLines fs ++ rest)) := by
      simp [headerLines, headerLine]
    have hfuel : fuel + (f :: fs).length = (fuel + fs.length) + 1 := by simp; omega
    have havail : avail + (headerLines (f :: fs)).length ≠ 0 := by
      simp only [headerLines, List.length_append]; omega
    have hsub : avail + (headerLines (f :: fs)).length - (f.1.length + f.2.length + 3)
        = avail + (headerLines fs).length := by
      simp only [headerLines, List.length_append]; omega
    rw [hdata, hfuel, parseFieldsLoop_step length _ f.1 f.2 _ _ headers h1 h2 h3
      (by omega) havail, hsub]
    rw [ih fuel rest avail _ (fun g hg => hwf g (List.mem_cons_of_mem _ hg))
      (fun g hg => hlen g (List.mem_cons_of_mem _ hg))]
    simp [storeField]

theorem headerLines_count (fields : List (Str × Str)) :
    3 * fields.length ≤ (headerLines fields).length := by
  induction fields with
  | nil => simp
  | cons f fs ih =>
    have := headerLine_length_pos f
    simp only [headerLines, List.length_append, List.length_cons]
    omega

theorem headerLine_le_headerLines (fields : List (Str × Str)) :
    ∀ f ∈ fields, (headerLine f).length ≤ (headerLines fields).length := by
  induction fields with
  | nil => intro f hf; simp at hf
  | cons g gs ih =>
    intro f hf
    simp only [headerLines, List.length_append]
    rcases List.mem_cons.mp hf with h | h
    · subst h; omega
    · have := ih f h; omega

/-- A block of well-formed header lines closed by the bare CRLF is accepted; the stored
headers are those of the lines, in order. -/
theorem parseFields_complete (fields : List (Str × Str)) (tail : Str) (headers : Headers)
    (hwf : ∀ f ∈ fields, WellFormedField f) :
    parseFields headers (headerLines fields ++ '\r' :: '\n' :: tail)
        ((headerLines fields).length + 2)
      = (true, fields.foldl storeField headers) := by
  have hc := headerLines_count fields
  have hfuel : (headerLines fields).length + 2
      = ((headerLines fields).length + 1 - fields.length + 1) + fields.length := by omega
  have hlen : ∀ f ∈ fields, (headerLine f).length ≤ (headerLines fields).length + 2 :=
    fun f hf => Nat.le_trans (headerLine_le_headerLines fields f hf) (by omega)
  unfold parseFields
  have key := parseFieldsLoop_lines ((headerLines fields).length + 2) fields
    ((headerLines fields).length + 1 - fields.length + 1) ('\r' :: '\n' :: tail) 2 headers hwf hlen
  have hav : (headerLines fields).length + 2 = 2 + (headerLines fields).length := by omega
  rw [← hfuel] at key
  rw [← hav] at key
  rw [key]
  exact parseFieldsLoop_eoh _ _ tail 2 _ (by omega) (by omega)

/-- A block of well-formed header lines that stops before the bare CRLF is not accepted. -/
theorem parseFields_truncated (fields : List (Str × Str)) (tail : Str) (headers : Headers)
    (hwf : ∀ f ∈ fields, WellFormedField f) :
    parseFields headers (headerLines fields ++ tail) (headerLines fields).length
      = (false, fields.foldl storeField headers) := by
  have hc := headerLines_count fields
  have hfuel : (headerLines fields).length
      = ((headerLines fields).length - fields.length) + fields.length := by omega
  unfold parseFields
  have key := parseFieldsLoop_lines (headerLines fields).length fields
    ((headerLines fields).length - fields.length) tail 0 headers hwf
    (headerLine_le_headerLines fields)
  rw [← hfuel] at key
  rw [Nat.zero_add] at key
  rw [key]
  exact parseFieldsLoop_exhausted _ _ _ _

/-- A block in which a non-empty line without the delimiter follows well-formed header
lines is not accepted, whatever follows that line. -/
theorem parseFields_malformed (fields : List (Str × Str)) (line rest : Str) (length : Nat)
    (headers : Headers) (hwf : ∀ f ∈ fields, WellFormedField f)
    (hne : line ≠ []) (hn : ':' ∉ line) (hr : '\r' ∉ line)
    (hlen : (headerLines fields).length + line.length + 2 ≤ length) :
    parseFields headers (headerLines fields ++ (line ++ '\r' :: '\n' :: rest)) length
      = (false, fields.foldl storeField headers) := by
  have hc := headerLines_count fields
  obtain ⟨k, hk⟩ := Nat.exists_eq_add_of_le hlen
  have hfuel : length = (length - fields.length) + fields.length := by omega
  have hav : length = (length - (headerLines fields).length) + (headerLines fields).length := by
    omega
  have hll : ∀ f ∈ fields, (headerLine f).length ≤ length :=
    fun f hf => Nat.le_trans (headerLine_le_headerLines fields f hf) (by omega)
  unfold parseFields
  have key := parseFieldsLoop_lines length fields (length - fields.length)
    (line ++ '\r' :: '\n' :: rest) (length - (headerLines fields).length) headers hwf hll
  rw [← hfuel, ← hav] at key
  rw [key]
  exact parseFieldsLoop_bad length _ line rest _ _ hne hn hr (by omega)

/-! ## Trimming of printed values and the order of the header map -/

theorem findLastNotOfFrom_concat (xs : Str) (d : Char) (hd : isBlank d = false) :
    ∀ (i : Nat) (last : Option Nat), findLastNotOfFrom (xs ++ [d]) i last = some (i + xs.length) := by
  induction xs with
  | nil => intro i last; simp [findLastNotOfFrom, hd]
  | cons x xs ih =>
    intro i last
    have e : i + 1 + xs.length = i + (xs.length + 1) := by omega
    rw [List.cons_append, findLastNotOfFrom, ih (i + 1), e, List.length_cons]

/-- The value written by `print` after ": " is read back unchanged when it neither
begins nor ends with a blank. -/
theorem trimValue_printed (v : Str)
    (hhead : ∀ c, v.head? = some c → isBlank c = false)
    (hlast : ∀ c, v.getLast? = some c → isBlank c = false) :
    trimValue (' ' :: v) = v := by
  cases v with
  | nil => decide
  | cons c cs =>
    have hc : isBlank c = false := hhead c rfl
    rcases List.eq_nil_or_concat (c :: cs) with h | ⟨xs, d, h⟩
    · simp at h
    · rw [List.concat_eq_append] at h
      have hd : isBlank d = false := hlast d (by rw [h]; simp)
      have hsp : isBlank ' ' = true := by decide
      have hfirst : findFirstNotOf (' ' :: c :: cs) = some 1 := by
        simp [findFirstNotOf, findFirstNotOfFrom, hsp, hc]
      have hlastpos : findLastNotOf (' ' :: c :: cs) = some (1 + xs.length) := by
        rw [h]
        simp only [findLastNotOf, findLastNotOfFrom, hsp, if_true, Nat.zero_add]
        exact findLastNotOfFrom_concat xs d hd 1 none
      have hlen : (c :: cs).length = xs.length + 1 := by rw [h]; simp
      simp only [trimValue, hfirst, hlastpos, Option.getD_some, substr, List.drop_succ_cons,
        List.drop_zero]
      exact List.take_of_length_le (by omega)

theorem strLt_irrefl : ∀ a : Str, strLt a a = false := by
  intro a
  induction a with
  | nil => rfl
  | cons c cs ih => simp [strLt, ih]

theorem strLt_asymm : ∀ a b : Str, strLt a b = true → strLt b a = false := by
  intro a
  induction a with
  | nil => intro b _; cases b <;> rfl
  | cons c cs ih =>
    intro b h
    cases b with
    | nil => simp [strLt] at h
    | cons d ds =>
      by_cases h1 : c.toNat < d.toNat
      · have h2 : ¬ d.toNat < c.toNat := by omega
        simp [strLt, h1, h2]
      · by_cases h2 : d.toNat < c.toNat
        · simp [strLt, h1, h2] at h
        · simp only [strLt, h1, h2, if_false] at h ⊢
          exact ih ds h

/-- Setting a name greater than every stored name appends the entry. -/
theorem setHeaderField_append (acc : Headers) (k v : Str)
    (h : ∀ a ∈ acc, strLt a.1 k = true) :
    setHeaderField acc k v = acc ++ [(k, v)] := by
  induction acc with
  | nil => rfl
  | cons a rest ih =>
    obtain ⟨ak, av⟩ := a
    have hak : strLt ak k = true := h (ak, av) (List.mem_cons_self _ _)
    have hne : k ≠ ak := by
      intro e
      rw [e, strLt_irrefl] at hak
      exact Bool.false_ne_true hak
    have hnlt : strLt k ak = false := strLt_asymm ak k hak
    simp [setHeaderField, hne, hnlt, ih (fun a ha => h a (List.mem_cons_of_mem _ ha))]

/-- Setting the entries of a header map one after the other, in its own order, builds
that map again. -/
theorem foldl_setHeaderField (H : Headers) :
    ∀ acc : Headers, (acc ++ H).Pairwise (fun a b => strLt a.1 b.1 = true) →
      H.foldl (fun h f => setHeaderField h f.1 f.2) acc = acc ++ H := by
  induction H with
  | nil => intro acc _; simp
  | cons f fs ih =>
    intro acc hp
    have hlt : ∀ a ∈ acc, strLt a.1 f.1 = true := by
      intro a ha
      exact (List.pairwise_append.mp hp).2.2 a ha f (List.mem_cons_self _ _)
    simp only [List.foldl_cons, setHeaderField_append acc f.1 f.2 hlt]
    have e : acc ++ f :: fs = (acc ++ [f]) ++ fs := by simp
    rw [e] at hp ⊢
    exact ih (acc ++ [f]) hp

/-! ## The second half of `HTTPRequest::parse` -/

theorem finish_short (request : HTTPRequest) (T : Str) (fields : Bool × Headers)
    (h : T.length < 2 ^ 31) :
    ∃ q, HTTPRequest.finish request T fields
      = if fields.1 then .object { request with headers := fields.2, path := q } else .null := by
  obtain ⟨q1, h1, hl1⟩ := stripFirst_isSome T httpScheme 7 h
  obtain ⟨q2, h2, _⟩ := stripFirst_isSome q1 (HTTPRequest.getHost fields.2)
    (HTTPRequest.getHost fields.2).length (by omega)
  exact ⟨q2, by simp [HTTPRequest.finish, h1, h2]⟩

theorem stripFirst_empty (path : Str) : stripFirst path [] 0 = some path := by
  simpa using stripFirst_leading [] path

theorem finish_clean (request : HTTPRequest) (T : Str) (fields : Bool × Headers)
    (h1 : ¬ httpScheme <:+: T)
    (h2 : HTTPRequest.getHost fields.2 = [] ∨ ¬ HTTPRequest.getHost fields.2 <:+: T) :
    HTTPRequest.finish request T fields
      = if fields.1 then .object { request with headers := fields.2, path := T } else .null := by
  have e1 := stripFirst_absent T httpScheme 7 h1
  have e2 : stripFirst T (HTTPRequest.getHost fields.2) (HTTPRequest.getHost fields.2).length
      = some T := by
    rcases h2 with h | h
    · rw [h]; exact stripFirst_empty T
    · exact stripFirst_absent T _ _ h
  simp [HTTPRequest.finish, e1, e2]

theorem finish_absolute (request : HTTPRequest) (H P : Str) (fields : Bool × Headers)
    (hh : HTTPRequest.getHost fields.2 = H) :
    HTTPRequest.finish request (httpScheme ++ (H ++ P)) fields
      = if fields.1 then .object { request with headers := fields.2, path := P } else .null := by
  have e1 : stripFirst (httpScheme ++ (H ++ P)) httpScheme 7 = some (H ++ P) :=
    stripFirst_leading httpScheme (H ++ P)
  have e2 : stripFirst (H ++ P) H H.length = some P := stripFirst_leading H P
  simp [HTTPRequest.finish, e1, hh, e2]

theorem requestLine_length (M T V : Str) :
    (requestLine M T V).length = M.length + T.length + V.length + 4 := by
  simp [requestLine]; omega

/-- The lemma `parse_requestLine` on the text `requestLine M T V ++ rest`. -/
theorem parse_requestLine_append (M T V rest : Str) (length : Nat)
    (hM : ' ' ∉ M) (hT : ' ' ∉ T)
    (hMr : '\r' ∉ M) (hTr : '\r' ∉ T) (hVr : '\r' ∉ V)
    (hlen : (requestLine M T V).length ≤ length) :
    HTTPRequest.parse (requestLine M T V ++ rest) length
      = HTTPRequest.finish { HTTPRequest.default with method := M, version := V } T
          (parseFields [] rest (length - (requestLine M T V).length)) := by
  rw [requestLine_length] at hlen ⊢
  have e : requestLine M T V ++ rest
      = M ++ ' ' :: (T ++ ' ' :: (V ++ '\r' :: '\n' :: rest)) := by
    simp [requestLine]
  rw [e]
  exact parse_requestLine M T V rest length hM hT hMr hTr hVr hlen

/-! ## The statements of the specification -/

/-- C2, evaluated on the buffer CR CR LF of length 3: the buffer holds a CRLF at offsets
1 and 2, yet `findNextLine` returns `NULL`; the counter is reset on the second CR, which is
not tried again as the start of a line ending. -/
theorem findNextLine_misses_crlf :
    findNextLine ['\r', '\r', '\n'] 3 = none
      ∧ ['\r', '\r', '\n'] = ['\r'] ++ lineEnding := by
  decide

/-- C3, evaluated on header lines whose value does not start with exactly one blank:
for "Host:x" the stored value is empty (the final character is dropped), for "A:bc" it
is "b", and for "A:  b c  " it is "b c " (a trailing blank is kept). -/
theorem parseFields_trim_divergence :
    parseFields [] "Host:x\r\n\r\n".toList 10 = (true, [("Host".toList, [])])
      ∧ parseFields [] "A:bc\r\n\r\n".toList 8 = (true, [(['A'], ['b'])])
      ∧ parseFields [] "A:  b c  \r\n\r\n".toList 13 = (true, [(['A'], ['b', ' ', 'c', ' '])]) := by
  decide

/-- C4: a request text made of a request line `M SP T SP V CRLF` (no space in `M` and `T`,
no carriage return in the line), well-formed header lines and the final bare CRLF is
parsed to a request, and the same text without the final CRLF gives `NULL`; whatever
lies in memory after the text.  The target is shorter than 2^31 characters, the range of
the `int` in which the code keeps positions in it. -/
theorem parse_end_of_headers (M T V : Str) (fields : List (Str × Str)) (tail : Str)
    (hM : ' ' ∉ M) (hT : ' ' ∉ T) (hMr : '\r' ∉ M) (hTr : '\r' ∉ T) (hVr : '\r' ∉ V)
    (hwf : ∀ f ∈ fields, WellFormedField f) (hsize : T.length < 2 ^ 31) :
    (∃ path, HTTPRequest.parse (requestLine M T V ++ (headerLines fields ++ lineEnding) ++ tail)
        (requestLine M T V ++ (headerLines fields ++ lineEnding)).length
          = .object { method := M, path := path, version := V,
                      headers := fields.foldl storeField [] })
      ∧ HTTPRequest.parse (requestLine M T V ++ headerLines fields ++ tail)
          (requestLine M T V ++ headerLines fields).length = .null := by
  constructor
  · have e : requestLine M T V ++ (headerLines fields ++ lineEnding) ++ tail
        = requestLine M T V ++ (headerLines fields ++ '\r' :: '\n' :: tail) := by
      simp [lineEnding]
    have hl : (requestLine M T V ++ (headerLines fields ++ lineEnding)).length
        - (requestLine M T V).length = (headerLines fields).length + 2 := by
      simp [lineEnding]
    rw [e, parse_requestLine_append M T V _ _ hM hT hMr hTr hVr (by simp), hl,
      parseFields_complete fields tail [] hwf]
    obtain ⟨q, hq⟩ := finish_short { HTTPRequest.default with method := M, version := V } T
      (true, fields.foldl storeField []) hsize
    exact ⟨q, by rw [hq]; simp [HTTPRequest.default, HTTPRequest.construct]⟩
  · have e : requestLine M T V ++ headerLines fields ++ tail
        = requestLine M T V ++ (headerLines fields ++ tail) := by simp
    have hl : (requestLine M T V ++ headerLines fields).length
        - (requestLine M T V).length = (headerLines fields).length := by simp
    rw [e, parse_requestLine_append M T V _ _ hM hT hMr hTr hVr (by simp), hl,
      parseFields_truncated fields tail [] hwf]
    obtain ⟨q, hq⟩ := finish_short { HTTPRequest.default with method := M, version := V } T
      (false, fields.foldl storeField []) hsize
    rw [hq]; simp

/-- C4 at the text "GET / HTTP/1.1" CRLF "Host: x" CRLF CRLF, and at the same text
without its final CRLF. -/
theorem parse_end_of_headers_witness :
    (∃ path, HTTPRequest.parse "GET / HTTP/1.1\r\nHost: x\r\n\r\n".toList 27
          = .object { method := "GET".toList, path := path, version := "HTTP/1.1".toList,
                      headers := [("Host".toList, ['x'])] })
      ∧ HTTPRequest.parse "GET / HTTP/1.1\r\nHost: x\r\n".toList 25 = .null :=
  parse_end_of_headers "GET".toList "/".toList "HTTP/1.1".toList
    [("Host".toList, " x".toList)] [] (by decide) (by decide) (by decide) (by decide)
    (by decide) (by decide) (by decide)

/-- C5, as stated, fails: on the buffer "A: b" CRLF, truncated after a well-formed header
line, and on the buffer "bad" CRLF CRLF, which has a line without the delimiter,
`parseFields` returns the same value `false`. -/
theorem parseFields_same_result_counterexample :
    parseFields [] "A: b\r\n".toList 6 = (false, [(['A'], ['b'])])
      ∧ parseFields [] "bad\r\n\r\n".toList 7 = (false, [])
      ∧ (parseFields [] "A: b\r\n".toList 6).1 = (parseFields [] "bad\r\n\r\n".toList 7).1 := by
  decide

/-- C5, amended: `parseFields` has one failure value.  It returns `false` on a buffer that
ends after well-formed header lines, before the end-of-headers line, and it returns the
same `false` on a buffer in which a non-empty line without ':' follows well-formed
header lines. -/
theorem parseFields_incomplete_and_malformed (fields fields' : List (Str × Str))
    (tail line rest : Str) (length : Nat) (headers headers' : Headers)
    (hwf : ∀ f ∈ fields, WellFormedField f) (hwf' : ∀ f ∈ fields', WellFormedField f)
    (hne : line ≠ []) (hn : ':' ∉ line) (hr : '\r' ∉ line)
    (hlen : (headerLines fields').length + line.length + 2 ≤ length) :
    (parseFields headers (headerLines fields ++ tail) (headerLines fields).length).1 = false
      ∧ (parseFields headers' (headerLines fields' ++ (line ++ lineEnding ++ rest)) length).1
          = false := by
  constructor
  · rw [parseFields_truncated fields tail headers hwf]
  · have e : line ++ lineEnding ++ rest = line ++ '\r' :: '\n' :: rest := by simp [lineEnding]
    rw [e, parseFields_malformed fields' line rest length headers' hwf' hne hn hr hlen]

/-- C5, amended, at the buffers "A: b" CRLF and "A: b" CRLF "bad" CRLF CRLF. -/
theorem parseFields_incomplete_and_malformed_witness :
    (parseFields [] "A: b\r\n".toList 6).1 = false
      ∧ (parseFields [] "A: b\r\nbad\r\n\r\n".toList 13).1 = false :=
  parseFields_incomplete_and_malformed [(['A'], " b".toList)] [(['A'], " b".toList)]
    [] "bad".toList lineEnding 13 [] [] (by decide) (by decide) (by decide) (by decide)
    (by decide) (by decide)

/-- C6, evaluated on the header block "bad" CR CRLF "x: y" CRLF CRLF: its first
CRLF-terminated line is "bad" CR, which is not empty and has no ':', yet `parseFields`
returns true, having stored one header named "bad" CR CR LF "x"; and `HTTPRequest::parse`
returns a request for "GET / HTTP/1.1" followed by that block. -/
theorem parseFields_accepts_line_without_delimiter :
    "bad\r\r\nx: y\r\n\r\n".toList = "bad\r".toList ++ lineEnding ++ "x: y\r\n\r\n".toList
      ∧ ¬ lineEnding <:+: "bad\r".toList
      ∧ ':' ∉ "bad\r".toList
      ∧ parseFields [] "bad\r\r\nx: y\r\n\r\n".toList 14
          = (true, [("bad\r\r\nx".toList, ['y'])])
      ∧ HTTPRequest.parse "GET / HTTP/1.1\r\nbad\r\r\nx: y\r\n\r\n".toList 30
          = .object { method := "GET".toList, path := ['/'], version := "HTTP/1.1".toList,
                      headers := [("bad\r\r\nx".toList, ['y'])] } := by
  decide

/-- C8, evaluated on the input "a b" CR CRLF "c d" CRLF CRLF: its first CRLF-terminated
line is "a b" CR, with one space, yet `HTTPRequest::parse` returns a request (method "a",
version "d"). -/
theorem parse_accepts_line_with_one_space :
    "a b\r\r\nc d\r\n\r\n".toList = "a b\r".toList ++ lineEnding ++ "c d\r\n\r\n".toList
      ∧ ¬ lineEnding <:+: "a b\r".toList
      ∧ "a b\r".toList.count ' ' = 1
      ∧ HTTPRequest.parse "a b\r\r\nc d\r\n\r\n".toList 13
          = .object { method := ['a'], path := "b\r\r\nc".toList, version := ['d'],
                      headers := [] } := by
  decide

/-- The normalization of an absolute target once the header map holds the Host value `H`:
on a request whose target is "http://" ++ H ++ P (no space and no carriage return in `H`
and `P`) and whose header block `parseFields` accepts and stores with the Host value `H`,
`HTTPRequest::parse` returns a request whose target is exactly `P`. -/
theorem parse_absolute_target (M H P V rest : Str) (length : Nat) (headers : Headers)
    (hM : ' ' ∉ M) (hH : ' ' ∉ H) (hP : ' ' ∉ P)
    (hMr : '\r' ∉ M) (hHr : '\r' ∉ H) (hPr : '\r' ∉ P) (hVr : '\r' ∉ V)
    (hlen : (requestLine M (httpScheme ++ (H ++ P)) V).length ≤ length)
    (hvalid : parseFields [] rest (length - (requestLine M (httpScheme ++ (H ++ P)) V).length)
      = (true, headers))
    (hhost : HTTPRequest.getHost headers = H) :
    HTTPRequest.parse (requestLine M (httpScheme ++ (H ++ P)) V ++ rest) length
      = .object { method := M, path := P, version := V, headers := headers } := by
  have hT : ' ' ∉ httpScheme ++ (H ++ P) := by
    intro h
    rcases List.mem_append.mp h with h | h
    · exact absurd h (by decide)
    · rcases List.mem_append.mp h with h | h
      · exact hH h
      · exact hP h
  have hTr : '\r' ∉ httpScheme ++ (H ++ P) := by
    intro h
    rcases List.mem_append.mp h with h | h
    · exact absurd h (by decide)
    · rcases List.mem_append.mp h with h | h
      · exact hHr h
      · exact hPr h
  rw [parse_requestLine_append M _ V rest length hM hT hMr hTr hVr hlen, hvalid,
    finish_absolute _ H P (true, headers) hhost]
  simp [HTTPRequest.default, HTTPRequest.construct]

/-- The normalization at the target "http://example.org/a/b" with the header line
"Host: example.org", whose value `parseFields` stores whole. -/
theorem parse_absolute_target_witness :
    HTTPRequest.parse
        "GET http://example.org/a/b HTTP/1.1\r\nHost: example.org\r\n\r\n".toList 58
      = .object { method := "GET".toList, path := "/a/b".toList, version := "HTTP/1.1".toList,
                  headers := [("Host".toList, "example.org".toList)] } :=
  parse_absolute_target "GET".toList "example.org".toList "/a/b".toList "HTTP/1.1".toList
    "Host: example.org\r\n\r\n".toList 58 [("Host".toList, "example.org".toList)]
    (by decide) (by decide) (by decide) (by decide) (by decide) (by decide) (by decide)
    (by decide) (by decide) (by decide)

/-- C9 at the request "GET http://example.org/a/b HTTP/1.1" with the header line
"Host:example.org": the Host value of the request is "example.org" and the target is
"http://" ++ "example.org" ++ "/a/b", yet the target of the parsed request is "g/a/b".
`parseFields` stores the Host value without its last character, "example.or" (the trimming
takes the index of the last character as a length), and that text is what is removed from
the target.  With one blank after the colon the value is stored whole and the target is
"/a/b". -/
theorem parse_absolute_target_host_cut :
    HTTPRequest.parse
        "GET http://example.org/a/b HTTP/1.1\r\nHost:example.org\r\n\r\n".toList 57
        = .object { method := "GET".toList, path := "g/a/b".toList,
                    version := "HTTP/1.1".toList,
                    headers := [("Host".toList, "example.or".toList)] }
      ∧ "GET http://example.org/a/b HTTP/1.1\r\nHost:example.org\r\n\r\n".toList.length = 57
      ∧ trimValue "example.org".toList = "example.or".toList
      ∧ trimValue " example.org".toList = "example.org".toList
      ∧ HTTPRequest.parse
        "GET http://example.org/a/b HTTP/1.1\r\nHost: example.org\r\n\r\n".toList 58
        = .object { method := "GET".toList, path := "/a/b".toList,
                    version := "HTTP/1.1".toList,
                    headers := [("Host".toList, "example.org".toList)] } := by
  decide

theorem print_eq (r : HTTPRequest) :
    HTTPRequest.print r = requestLine r.method r.path r.version ++ HTTPMessage.print r.headers := by
  simp [HTTPRequest.print, requestLine, lineEnding]

theorem HTTPMessage_print_eq (H : Headers) :
    HTTPMessage.print H = headerLines (H.map fun f => (f.1, ' ' :: f.2)) ++ lineEnding := by
  induction H with
  | nil => simp [HTTPMessage.print, headerLines]
  | cons f fs ih =>
    obtain ⟨name, value⟩ := f
    simp [HTTPMessage.print, headerLines, headerLine, ih, headerDelimiter, lineEnding]

theorem startsBlank_head (v : Str) (h : startsBlank v = false) :
    ∀ c, v.head? = some c → isBlank c = false := by
  intro c hc
  cases v with
  | nil => simp at hc
  | cons d ds =>
    simp only [List.head?_cons, Option.some.injEq] at hc
    subst hc
    simpa [startsBlank] using h

theorem endsBlank_last (v : Str) (h : endsBlank v = false) :
    ∀ c, v.getLast? = some c → isBlank c = false := by
  intro c hc
  simpa [endsBlank, hc] using h

theorem foldl_storeField_printed (H : Headers) (hp : ∀ f ∈ H, PrintableField f) :
    ∀ acc : Headers, (H.map fun f => (f.1, ' ' :: f.2)).foldl storeField acc
      = H.foldl (fun h f => setHeaderField h f.1 f.2) acc := by
  induction H with
  | nil => intro acc; rfl
  | cons f fs ih =>
    intro acc
    obtain ⟨_, _, _, h4, h5⟩ := hp f (List.mem_cons_self _ _)
    have ht : trimValue (' ' :: f.2) = f.2 :=
      trimValue_printed f.2 (startsBlank_head f.2 h4) (endsBlank_last f.2 h5)
    simp only [List.map_cons, List.foldl_cons, storeField, ht]
    exact ih (fun g hg => hp g (List.mem_cons_of_mem _ hg)) _

theorem wellFormed_printed (H : Headers) (hp : ∀ f ∈ H, PrintableField f) :
    ∀ g ∈ H.map (fun f => (f.1, ' ' :: f.2)), WellFormedField g := by
  intro g hg
  obtain ⟨f, hf, rfl⟩ := List.mem_map.mp hg
  obtain ⟨h1, h2, h3, _, _⟩ := hp f hf
  refine ⟨h1, h2, ?_⟩
  intro h
  rcases List.mem_cons.mp h with h | h
  · exact absurd h (by decide)
  · exact h3 h

/-- The header block written by `print` for an ordered map of printable fields is read
back by `parseFields` as that map. -/
theorem parseFields_print (H : Headers) (tail : Str)
    (hord : OrderedHeaders H) (hp : ∀ f ∈ H, PrintableField f) :
    parseFields [] (HTTPMessage.print H ++ tail) (HTTPMessage.print H).length = (true, H) := by
  have e1 : HTTPMessage.print H ++ tail
      = headerLines (H.map fun f => (f.1, ' ' :: f.2)) ++ '\r' :: '\n' :: tail := by
    rw [HTTPMessage_print_eq]; simp [lineEnding]
  have e2 : (HTTPMessage.print H).length
      = (headerLines (H.map fun f => (f.1, ' ' :: f.2))).length + 2 := by
    rw [HTTPMessage_print_eq]; simp [lineEnding]
  rw [e1, e2, parseFields_complete _ tail [] (wellFormed_printed H hp),
    foldl_storeField_printed H hp [], foldl_setHeaderField H [] (by simpa using hord)]
  simp

/-- The round trip of a request through `print` and `parse`. -/
theorem parse_print_core (r : HTTPRequest) (tail : Str)
    (hM : ' ' ∉ r.method) (hT : ' ' ∉ r.path)
    (hMr : '\r' ∉ r.method) (hTr : '\r' ∉ r.path) (hVr : '\r' ∉ r.version)
    (hscheme : ¬ httpScheme <:+: r.path)
    (hhost : HTTPRequest.getHost r.headers = [] ∨ ¬ HTTPRequest.getHost r.headers <:+: r.path)
    (hord : OrderedHeaders r.headers) (hp : ∀ f ∈ r.headers, PrintableField f) :
    HTTPRequest.parse (HTTPRequest.print r ++ tail) (HTTPRequest.print r).length = .object r := by
  have hl : (HTTPRequest.print r).length - (requestLine r.method r.path r.version).length
      = (HTTPMessage.print r.headers).length := by
    rw [print_eq]; simp
  have e : HTTPRequest.print r ++ tail
      = requestLine r.method r.path r.version ++ (HTTPMessage.print r.headers ++ tail) := by
    rw [print_eq]; simp
  rw [e, parse_requestLine_append r.method r.path r.version _ _ hM hT hMr hTr hVr
    (by rw [print_eq]; simp), hl, parseFields_print r.headers tail hord hp,
    finish_clean _ r.path (true, r.headers) hscheme hhost]
  simp [HTTPRequest.default, HTTPRequest.construct]

/-- C1, as stated, fails: the request with method "GET", target "http://a", version
"HTTP/1.1" and no header is printed and parsed back with the target "a". -/
theorem parse_print_counterexample :
    HTTPRequest.parse
        (HTTPRequest.print
          { method := "GET".toList, path := "http://a".toList, version := "HTTP/1.1".toList,
            headers := [] })
        (HTTPRequest.print
          { method := "GET".toList, path := "http://a".toList, version := "HTTP/1.1".toList,
            headers := [] }).length
      = .object
          { method := "GET".toList, path := ['a'], version := "HTTP/1.1".toList,
            headers := [] }
      ∧ ['a'] ≠ "http://a".toList := by
  decide

/-- C1, amended: a request is given back by `parse` from the text that `print` produces
when its method and target hold no space, its method, target and version hold no carriage
return, its target holds neither "http://" nor the Host value (if there is one), its
header names hold neither ':' nor a carriage return, and its header values hold no
carriage return and neither begin nor end with a blank; the result has the same method,
target and version and exactly the same header map (a `std::map`, its names ascending).
This holds whatever lies in memory after the text. -/
theorem parse_print_roundtrip (M T V : Str) (H : Headers) (tail : Str)
    (hM : ' ' ∉ M) (hT : ' ' ∉ T)
    (hMr : '\r' ∉ M) (hTr : '\r' ∉ T) (hVr : '\r' ∉ V)
    (hscheme : ¬ httpScheme <:+: T)
    (hhost : HTTPRequest.getHost H = [] ∨ ¬ HTTPRequest.getHost H <:+: T)
    (hord : OrderedHeaders H) (hp : ∀ f ∈ H, PrintableField f) :
    HTTPRequest.parse
        (HTTPRequest.print { method := M, path := T, version := V, headers := H } ++ tail)
        (HTTPRequest.print { method := M, path := T, version := V, headers := H }).length
      = .object { method := M, path := T, version := V, headers := H } :=
  parse_print_core { method := M, path := T, version := V, headers := H } tail
    hM hT hMr hTr hVr hscheme hhost hord hp

/-- C1, amended, at the request "GET /a/b HTTP/1.1" with the headers Accept and Host. -/
theorem parse_print_roundtrip_witness :
    HTTPRequest.parse
        (HTTPRequest.print
          { method := "GET".toList, path := "/a/b".toList, version := "HTTP/1.1".toList,
            headers := [("Accept".toList, "text/html".toList),
                        ("Host".toList, "example.org".toList)] } ++ [])
        (HTTPRequest.print
          { method := "GET".toList, path := "/a/b".toList, version := "HTTP/1.1".toList,
            headers := [("Accept".toList, "text/html".toList),
                        ("Host".toList, "example.org".toList)] }).length
      = .object
          { method := "GET".toList, path := "/a/b".toList, version := "HTTP/1.1".toList,
            headers := [("Accept".toList, "text/html".toList),
                        ("Host".toList, "example.org".toList)] } :=
  parse_print_roundtrip "GET".toList "/a/b".toList "HTTP/1.1".toList
    [("Accept".toList, "text/html".toList), ("Host".toList, "example.org".toList)] []
    (by decide) (by decide) (by decide) (by decide) (by decide) (by decide) (by decide)
    (by decide) (by decide)

/-! ## The line matcher on a first line that may hold lone carriage returns -/

theorem getLast?_tail_ne (c : Char) (cs : Str) (h : (c :: cs).getLast? ≠ some '\r') :
    cs.getLast? ≠ some '\r' := by
  cases cs with
  | nil => simp
  | cons d ds => simpa [List.getLast?_cons_cons] using h

theorem not_infix_tail (c : Char) (cs : Str) (h : ¬ lineEnding <:+: c :: cs) :
    ¬ lineEnding <:+: cs :=
  fun hi => h (hi.trans (List.suffix_cons c cs).isInfix)

/-- The matcher, in state 0 or 1, on a text `L` that holds no CRLF and does not end with a
carriage return, followed by CRLF: it stops just past that CRLF. -/
theorem findNextLineLoop_first (rest : Str) (k : Nat) : ∀ (L : Str) (s off : Nat),
    s ≤ 1 → (s = 1 → L.head? ≠ some '\n') → (s = 1 → L ≠ []) →
    ¬ lineEnding <:+: L → L.getLast? ≠ some '\r' →
    findNextLineLoop (L ++ '\r' :: '\n' :: rest) (L.length + 2 + k) s off
      = some (off + L.length + 2) := by
  intro L
  induction L with
  | nil =>
    intro s off hs _ hne _ _
    have hs0 : s = 0 := by
      rcases Nat.lt_or_ge s 1 with h | h
      · omega
      · exact absurd rfl (hne (by omega))
    subst hs0
    exact findNextLineLoop_line [] (by simp) rest k off
  | cons c cs ih =>
    intro s off hs hhead _ hinf hlast
    have e : (c :: cs).length + 2 + k = (cs.length + 2 + k) + 1 := by simp; omega
    have hcs_inf := not_infix_tail c cs hinf
    have hcs_last := getLast?_tail_ne c cs hlast
    rw [List.cons_append, e]
    rcases Nat.lt_or_ge s 1 with h0 | h1
    · have hs0 : s = 0 := by omega
      subst hs0
      by_cases hc : c = '\r'
      · subst hc
        have hne : cs ≠ [] := by
          intro hnil
          subst hnil
          exact hlast rfl
        have hh : cs.head? ≠ some '\n' := by
          intro hh
          cases cs with
          | nil => exact hne rfl
          | cons d ds =>
            simp only [List.head?_cons, Option.some.injEq] at hh
            subst hh
            exact hinf ⟨[], ds, by simp [lineEnding]⟩
        have := ih 1 (off + 1) (by omega) (fun _ => hh) (fun _ => hne) hcs_inf hcs_last
        simp only [findNextLineLoop, lineEnding]
        simp [this]
        omega
      · have := ih 0 (off + 1) (by omega) (fun h => by omega) (fun h => by omega)
          hcs_inf hcs_last
        simp only [findNextLineLoop, lineEnding]
        simp [hc, this]
        omega
    · have hs1 : s = 1 := by omega
      subst hs1
      have hc : c ≠ '\n' := by
        intro hc
        exact hhead rfl (by simp [hc])
      have := ih 0 (off + 1) (by omega) (fun h => by omega) (fun h => by omega)
        hcs_inf hcs_last
      simp only [findNextLineLoop, lineEnding]
      simp [hc, this]
      omega

/-- On a first line that holds no CRLF and does not end with a carriage return,
`findNextLine` returns the offset just past its CRLF. -/
theorem findNextLine_first (L rest : Str) (length : Nat)
    (hinf : ¬ lineEnding <:+: L) (hlast : L.getLast? ≠ some '\r')
    (hlen : L.length + 2 ≤ length) :
    findNextLine (L ++ '\r' :: '\n' :: rest) length = some (L.length + 2) := by
  obtain ⟨k, rfl⟩ := Nat.exists_eq_add_of_le hlen
  simpa [findNextLine] using
    findNextLineLoop_first rest k L 0 0 (by omega) (fun h => by omega) (fun h => by omega)
      hinf hlast

/-! ## Stream extraction -/

theorem digitValue_range (base : Nat) (c : Char) (h : (digitValue base c).isSome = true) :
    (48 ≤ c.toNat ∧ c.toNat ≤ 57) ∨ (65 ≤ c.toNat ∧ c.toNat ≤ 70)
      ∨ (97 ≤ c.toNat ∧ c.toNat ≤ 102) := by
  unfold digitValue at h
  split at h
  · left; assumption
  · split at h
    · right; right; rename_i h1; exact h1.2
    · split at h
      · right; left; rename_i h1; exact h1.2
      · simp at h

/-- A digit is neither white space, nor a sign, nor the letter x. -/
theorem digit_not_special (base : Nat) (c : Char) (h : (digitValue base c).isSome = true) :
    isSpace c = false ∧ c ≠ '-' ∧ c ≠ '+' ∧ c ≠ 'x' ∧ c ≠ 'X' := by
  have hr := digitValue_range base c h
  have key : ∀ d : Char, (d.toNat < 48 ∨ (57 < d.toNat ∧ d.toNat < 65)
      ∨ (70 < d.toNat ∧ d.toNat < 97) ∨ 102 < d.toNat) → c ≠ d := by
    intro d hd e
    subst e
    omega
  refine ⟨?_, key '-' (by decide), key '+' (by decide), key 'x' (by decide),
    key 'X' (by decide)⟩
  have h1 := key ' ' (by decide)
  have h2 := key '\t' (by decide)
  have h3 := key '\n' (by decide)
  have h4 := key '\x0b' (by decide)
  have h5 := key '\x0c' (by decide)
  have h6 := key '\r' (by decide)
  simp [isSpace, h1, h2, h3, h4, h5, h6]

/-- The digit loop passes over a run of digits. -/
theorem readDigits_append (base : Nat) (rest : Str) : ∀ (ds : Str) (acc : Nat) (any : Bool),
    (∀ c ∈ ds, (digitValue base c).isSome = true) →
    readDigits base (ds ++ rest) acc any
      = readDigits base rest
          (ds.foldl (fun a c => base * a + (digitValue base c).getD 0) acc)
          (any || !ds.isEmpty) := by
  intro ds
  induction ds with
  | nil => intro acc any _; simp
  | cons c cs ih =>
    intro acc any h
    have hc := h c (List.mem_cons_self _ _)
    obtain ⟨d, hd⟩ := Option.isSome_iff_exists.mp hc
    rw [List.cons_append]
    simp only [readDigits, hd, List.foldl_cons, Option.getD_some]
    rw [ih _ _ (fun x hx => h x (List.mem_cons_of_mem _ hx))]
    simp

/-- The digit loop stops at the end of the text and at a character that is not a digit. -/
theorem readDigits_stop (base : Nat) (rest : Str) (acc : Nat) (any : Bool)
    (h : ∀ x, rest.head? = some x → digitValue base x = none) :
    readDigits base rest acc any = (acc, any) := by
  cases rest with
  | nil => rfl
  | cons x xs => simp [readDigits, h x rfl]

/-- The accumulated value of a run of digits is the number it denotes. -/
theorem foldl_numeralValue (base : Nat) (ds : Str) :
    ds.foldl (fun a c => base * a + (digitValue base c).getD 0) 0 = numeralValue base ds := by
  induction ds using List.reverseRecOn with
  | nil => simp [numeralValue]
  | append_singleton cs c ih =>
    rw [List.foldl_append]
    simp only [List.foldl_cons, List.foldl_nil, ih]
    simp only [numeralValue, List.reverse_append, List.reverse_singleton, List.singleton_append,
      List.map_cons, Nat.ofDigits_cons]
    omega

theorem skipHexMark_dec (s : Str) : skipHexMark 10 s = s := by
  unfold skipHexMark
  split <;> simp

/-- A text that starts with a digit other than the mark "0x" is left alone. -/
theorem skipHexMark_digits (base : Nat) (ds rest : Str) (hne : ds ≠ [])
    (h : ∀ c ∈ ds, (digitValue base c).isSome = true)
    (hrest : ∀ x, rest.head? = some x → x ≠ 'x' ∧ x ≠ 'X') :
    skipHexMark base (ds ++ rest) = ds ++ rest := by
  unfold skipHexMark
  split
  · rename_i x tl heq
    have hx : x ≠ 'x' ∧ x ≠ 'X' := by
      cases ds with
      | nil => exact absurd rfl hne
      | cons a as =>
        cases as with
        | nil =>
          simp only [List.cons_append, List.nil_append, List.cons.injEq] at heq
          exact hrest x (by rw [heq.2]; rfl)
        | cons b bs =>
          simp only [List.cons_append, List.cons.injEq] at heq
          have hb := digit_not_special base b
            (h b (List.mem_cons_of_mem _ (List.mem_cons_self _ _)))
          rw [heq.2.1] at hb
          exact ⟨hb.2.2.2.1, hb.2.2.2.2⟩
    simp [hx.1, hx.2]
  · rfl

/-- The scan of a text that starts with a numeral: no sign, the value of the numeral. -/
theorem scanNumber_numeral (base : Nat) (ds rest : Str) (hn : IsNumeral base ds)
    (hstop : ∀ x, rest.head? = some x → digitValue base x = none)
    (hmark : base = 10 ∨ ∀ x, rest.head? = some x → x ≠ 'x' ∧ x ≠ 'X') :
    scanNumber base (ds ++ rest) = some (false, numeralValue base ds, true) := by
  obtain ⟨hne, hd⟩ := hn
  cases ds with
  | nil => exact absurd rfl hne
  | cons c cs =>
    have hc := digit_not_special base c (hd c (List.mem_cons_self _ _))
    have hskip : skipHexMark base (c :: cs ++ rest) = c :: cs ++ rest := by
      rcases hmark with h | h
      · subst h; exact skipHexMark_dec _
      · exact skipHexMark_digits base (c :: cs) rest hne hd h
    have hdrop : (c :: cs ++ rest).dropWhile isSpace = c :: (cs ++ rest) := by
      simp [List.dropWhile, hc.1]
    have hsign : ¬ (c = '-' ∨ c = '+') := by
      intro h
      rcases h with h | h
      · exact hc.2.1 h
      · exact hc.2.2.1 h
    unfold scanNumber
    rw [hdrop]
    simp only [hsign, if_false]
    rw [← List.cons_append, hskip, readDigits_append base rest (c :: cs) 0 false hd,
      readDigits_stop base rest _ _ hstop, foldl_numeralValue]
    simp [hc.2.1]

/-- The scan of a text that does not start like a number finds no digit. -/
theorem scanNumber_nonNumeric (c : Char) (cs : Str) (h : NonNumeric (c :: cs)) :
    scanNumber 10 (c :: cs) = some (false, 0, false) := by
  obtain ⟨h1, h2, h3, h4⟩ := h
  have hdrop : (c :: cs).dropWhile isSpace = c :: cs := by simp [List.dropWhile, h4]
  have hsign : ¬ (c = '-' ∨ c = '+') := by
    intro h
    rcases h with h | h
    · exact h3 h
    · exact h2 h
  unfold scanNumber
  rw [hdrop]
  simp only [hsign, if_false, skipHexMark_dec]
  simp [readDigits, h1, h3]

theorem extractUnsigned_numeral (old : Nat) (ds rest : Str) (hn : IsNumeral 10 ds)
    (hstop : ∀ x, rest.head? = some x → digitValue 10 x = none) :
    extractUnsigned old (ds ++ rest)
      = if 2 ^ 32 - 1 < numeralValue 10 ds then 2 ^ 32 - 1 else numeralValue 10 ds := by
  simp [extractUnsigned, scanNumber_numeral 10 ds rest hn hstop (Or.inl rfl)]

theorem extractInt_numeral (base : Nat) (old : Int) (ds rest : Str) (hn : IsNumeral base ds)
    (hstop : ∀ x, rest.head? = some x → digitValue base x = none)
    (hmark : base = 10 ∨ ∀ x, rest.head? = some x → x ≠ 'x' ∧ x ≠ 'X') :
    extractInt base old (ds ++ rest)
      = if 2 ^ 31 - 1 < numeralValue base ds then (2 ^ 31 - 1 : Int)
        else (numeralValue base ds : Int) := by
  simp [extractInt, scanNumber_numeral base ds rest hn hstop hmark]

theorem extractUnsigned_nonNumeric (s : Str) (h : NonNumeric s) : extractUnsigned 0 s = 0 := by
  cases s with
  | nil => rfl
  | cons c cs => simp [extractUnsigned, scanNumber_nonNumeric c cs h]

theorem extractInt_nonNumeric (s : Str) (h : NonNumeric s) : extractInt 10 0 s = 0 := by
  cases s with
  | nil => rfl
  | cons c cs => simp [extractInt, scanNumber_nonNumeric c cs h]

/-! ## Stream extraction on a token with white space and a sign -/

theorem dropWhile_isSpace_append (ws X : Str) (hws : ∀ c ∈ ws, isSpace c = true) :
    (ws ++ X).dropWhile isSpace = X.dropWhile isSpace := by
  induction ws with
  | nil => rfl
  | cons c ws ih =>
    rw [List.cons_append, List.dropWhile_cons, hws c (List.mem_cons_self _ _)]
    exact ih (fun d hd => hws d (List.mem_cons_of_mem _ hd))

theorem scanNumber_ws (ws X : Str) (hws : ∀ c ∈ ws, isSpace c = true) :
    scanNumber 10 (ws ++ X) = scanNumber 10 X := by
  unfold scanNumber
  rw [dropWhile_isSpace_append ws X hws]

theorem readDigits_token (ds rest : Str)
    (hds : ∀ c ∈ ds, (digitValue 10 c).isSome = true)
    (hrest : ∀ x, rest.head? = some x → digitValue 10 x = none) :
    readDigits 10 (ds ++ rest) 0 false = (numeralValue 10 ds, !ds.isEmpty) := by
  rw [readDigits_append 10 rest ds 0 false hds, readDigits_stop 10 rest _ _ hrest,
    foldl_numeralValue, Bool.false_or]

theorem scanNumber_token (ws sign ds rest : Str)
    (hws : ∀ c ∈ ws, isSpace c = true)
    (hsign : sign = [] ∨ sign = ['+'] ∨ sign = ['-'])
    (hds : ∀ c ∈ ds, (digitValue 10 c).isSome = true)
    (hrest : ∀ x, rest.head? = some x → digitValue 10 x = none)
    (hfirst : sign = [] → ds = [] →
      ∀ x, rest.head? = some x → x ≠ '+' ∧ x ≠ '-' ∧ isSpace x = false) :
    scanNumber 10 (ws ++ (sign ++ (ds ++ rest)))
      = if sign = [] ∧ ds = [] ∧ rest = [] then none
        else some (decide (sign = ['-']), numeralValue 10 ds, !ds.isEmpty) := by
  rw [scanNumber_ws ws _ hws]
  rcases hsign with hs | hs | hs
  · subst hs
    rw [List.nil_append]
    cases ds with
    | nil =>
      rw [List.nil_append]
      cases rest with
      | nil => rfl
      | cons c cs =>
        have hn : NonNumeric (c :: cs) :=
          ⟨hrest c rfl, (hfirst rfl rfl c rfl).1, (hfirst rfl rfl c rfl).2.1,
            (hfirst rfl rfl c rfl).2.2⟩
        rw [scanNumber_nonNumeric c cs hn]
        simp [numeralValue]
    | cons d ds =>
      rw [scanNumber_numeral 10 (d :: ds) rest ⟨by simp, hds⟩ hrest (Or.inl rfl)]
      simp
  · subst hs
    have h := readDigits_token ds rest hds hrest
    simp [scanNumber, List.dropWhile, isSpace, skipHexMark_dec, h]
  · subst hs
    have h := readDigits_token ds rest hds hrest
    simp [scanNumber, List.dropWhile, isSpace, skipHexMark_dec, h]

theorem extractUnsigned_token (ws sign ds rest : Str)
    (hws : ∀ c ∈ ws, isSpace c = true)
    (hsign : sign = [] ∨ sign = ['+'] ∨ sign = ['-'])
    (hds : ∀ c ∈ ds, (digitValue 10 c).isSome = true)
    (hrest : ∀ x, rest.head? = some x → digitValue 10 x = none)
    (hfirst : sign = [] → ds = [] →
      ∀ x, rest.head? = some x → x ≠ '+' ∧ x ≠ '-' ∧ isSpace x = false) :
    extractUnsigned 0 (ws ++ (sign ++ (ds ++ rest)))
      = if ds = [] then 0
        else if 2 ^ 32 - 1 < numeralValue 10 ds then 2 ^ 32 - 1
        else if sign = ['-'] then (2 ^ 32 - numeralValue 10 ds) % 2 ^ 32
        else numeralValue 10 ds := by
  unfold extractUnsigned
  rw [scanNumber_token ws sign ds rest hws hsign hds hrest hfirst]
  by_cases h0 : sign = [] ∧ ds = [] ∧ rest = []
  · rw [if_pos h0, if_pos h0.2.1]
  · rw [if_neg h0]
    cases ds with
    | nil => simp
    | cons d ds => simp

theorem extractInt_token (ws sign rest : Str)
    (hws : ∀ c ∈ ws, isSpace c = true)
    (hsign : sign = [] ∨ sign = ['+'] ∨ sign = ['-'])
    (hrest : ∀ x, rest.head? = some x → digitValue 10 x = none)
    (hfirst : sign = [] →
      ∀ x, rest.head? = some x → x ≠ '+' ∧ x ≠ '-' ∧ isSpace x = false) :
    extractInt 10 0 (ws ++ (sign ++ rest)) = 0 := by
  have h := scanNumber_token ws sign [] rest hws hsign (by simp) hrest (fun hs _ => hfirst hs)
  rw [List.nil_append] at h
  unfold extractInt
  rw [h]
  by_cases h0 : sign = [] ∧ ([] : Str) = [] ∧ rest = []
  · rw [if_pos h0]
  · rw [if_neg h0]
    simp

/-! ## The status line -/

theorem statusLine_length (V C D : Str) :
    (statusLine V C D).length = V.length + C.length + D.length + 4 := by
  simp [statusLine]; omega

theorem getLast?_before (X D : Str) (hD : '\r' ∉ D) :
    (X ++ ' ' :: D).getLast? ≠ some '\r' := by
  intro h
  rw [List.getLast?_append] at h
  cases hl : (' ' :: D).getLast? with
  | none => simp at hl
  | some x =>
    rw [hl] at h
    simp only [Option.or_some, Option.some.injEq] at h
    subst h
    have hm := List.mem_of_getLast?_eq_some hl
    rcases List.mem_cons.mp hm with h1 | h1
    · exact absurd h1 (by decide)
    · exact hD h1

theorem getLast?_line (V C D : Str) (hD : '\r' ∉ D) :
    (V ++ ' ' :: (C ++ ' ' :: D)).getLast? ≠ some '\r' := by
  have e : V ++ ' ' :: (C ++ ' ' :: D) = (V ++ ' ' :: C) ++ ' ' :: D := by simp
  rw [e]
  exact getLast?_before _ D hD

/-- On an input that begins with `V SP C SP D CRLF`, where `V` and `C` hold no space and
the line holds no CRLF and does not end with a carriage return, `HTTPResponse::parse`
splits the line into `V`, `C`, `D` and goes on with the status code. -/
theorem parse_statusLine_append (date V C D rest : Str) (length : Nat)
    (hV : ' ' ∉ V) (hC : ' ' ∉ C)
    (hinf : ¬ lineEnding <:+: V ++ ' ' :: (C ++ ' ' :: D))
    (hlast : (V ++ ' ' :: (C ++ ' ' :: D)).getLast? ≠ some '\r')
    (hlen : (statusLine V C D).length ≤ length) :
    HTTPResponse.parse date (statusLine V C D ++ rest) length
      = HTTPResponse.finish { HTTPResponse.default date with version := V } C D rest
          (length - (statusLine V C D).length) := by
  rw [statusLine_length] at hlen ⊢
  have hdata : statusLine V C D ++ rest
      = (V ++ ' ' :: (C ++ ' ' :: D)) ++ '\r' :: '\n' :: rest := by simp [statusLine]
  have hL : (V ++ ' ' :: (C ++ ' ' :: D)).length = V.length + C.length + D.length + 2 := by
    simp; omega
  have hfind := findNextLine_first _ rest length hinf hlast (by rw [hL]; omega)
  have hurl : find (V ++ ' ' :: (C ++ ' ' :: D)) [' '] 0 = some V.length := by
    rw [find_zero]
    simpa using findFrom_single ' ' V hV (C ++ ' ' :: D) 0
  have hdrop : (V ++ ' ' :: (C ++ ' ' :: D)).drop (V.length + 1) = C ++ ' ' :: D := by
    have : V ++ ' ' :: (C ++ ' ' :: D) = (V ++ [' ']) ++ (C ++ ' ' :: D) := by simp
    rw [this]
    have hl : (V ++ [' ']).length = V.length + 1 := by simp
    rw [← hl]
    exact take_drop_left _ _
  have hver : find (V ++ ' ' :: (C ++ ' ' :: D)) [' '] (V.length + 1)
      = some (V.length + 1 + C.length) := by
    have hlt : ¬ (V ++ ' ' :: (C ++ ' ' :: D)).length < V.length + 1 := by rw [hL]; omega
    simp only [find, hlt, if_false, hdrop]
    exact findFrom_single ' ' C hC D (V.length + 1)
  have hdrop2 : (V ++ ' ' :: (C ++ ' ' :: D)).drop (V.length + 1 + C.length + 1) = D := by
    have : V ++ ' ' :: (C ++ ' ' :: D) = (V ++ ' ' :: (C ++ [' '])) ++ D := by simp
    rw [this]
    have hl : (V ++ ' ' :: (C ++ [' '])).length = V.length + 1 + C.length + 1 := by
      simp; omega
    rw [← hl]
    exact take_drop_left _ _
  have hvers : substr (V ++ ' ' :: (C ++ ' ' :: D)) 0 V.length = V := by
    simp [substr]
  have hcode : substr (V ++ ' ' :: (C ++ ' ' :: D)) (V.length + 1)
      (V.length + 1 + C.length - V.length - 1) = C := by
    have e : V.length + 1 + C.length - V.length - 1 = C.length := by omega
    rw [e]
    simp only [substr, hdrop]
    simp
  have htake := take_line (V ++ ' ' :: (C ++ ' ' :: D)) ('\r' :: '\n' :: rest)
  have hrest := drop_line (V ++ ' ' :: (C ++ ' ' :: D)) rest
  have hsub : length - ((V ++ ' ' :: (C ++ ' ' :: D)).length + 2)
      = length - (V.length + C.length + D.length + 4) := by rw [hL]
  rw [hdata]
  unfold HTTPResponse.parse
  simp only [hfind, htake, hurl, hver, hvers, hcode, hdrop2, hrest, hsub]

/-- What `parseFields` does to the header map does not change its verdict. -/
theorem parseFieldsLoop_flag (length : Nat) : ∀ (fuel : Nat) (data : Str) (avail : Nat)
    (h1 h2 : Headers),
    (parseFieldsLoop length fuel data avail h1).1 = (parseFieldsLoop length fuel data avail h2).1 := by
  intro fuel
  induction fuel with
  | zero => intro data avail h1 h2; rfl
  | succ fuel ih =>
    intro data avail h1 h2
    simp only [parseFieldsLoop]
    split
    · rfl
    · cases findNextLine data length with
      | none => rfl
      | some next =>
        simp only []
        split
        · rfl
        · split
          · rfl
          · exact ih _ _ _ _

theorem parseFields_flag (h1 h2 : Headers) (data : Str) (length : Nat) :
    (parseFields h1 data length).1 = (parseFields h2 data length).1 :=
  parseFieldsLoop_flag length length data length h1 h2

theorem digits_no_space (base : Nat) (ds : Str)
    (h : ∀ c ∈ ds, (digitValue base c).isSome = true) : ' ' ∉ ds := by
  intro hm
  have := (digit_not_special base ' ' (h ' ' hm)).1
  exact absurd this (by decide)

/-- The second half of `HTTPResponse::parse` when the status code is between 100 and 599. -/
theorem finish_accept (response : HTTPResponse) (C D rest : Str) (n code : Nat)
    (hcode : extractUnsigned response.statusCode C = code)
    (hrange : 100 ≤ code ∧ code ≤ 599) :
    HTTPResponse.finish response C D rest n
      = if (parseFields response.headers rest n).1 then
          .object { response with
            statusCode := code
            statusDesc := D
            headers := (parseFields response.headers rest n).2
            chunked := some (find
              ((getHeaderValue (parseFields response.headers rest n).2
                "Transfer-Encoding".toList).getD []) "chunked".toList 0).isSome }
        else .null := by
  have h1 : ¬ (code < 100 ∨ 600 ≤ code) := by omega
  simp only [HTTPResponse.finish, hcode, h1, if_false]

/-- The second half of `HTTPResponse::parse` when the status code is not between 100 and
599. -/
theorem finish_reject (response : HTTPResponse) (C D rest : Str) (n : Nat)
    (hcode : extractUnsigned response.statusCode C < 100
      ∨ 600 ≤ extractUnsigned response.statusCode C) :
    HTTPResponse.finish response C D rest n = .null := by
  simp only [HTTPResponse.finish, hcode, if_true]

/-- A status line `V SP C SP D CRLF` whose code `C` is a decimal numeral between 100 and
599 and whose header block is accepted is parsed to a response with version `V`, that
status code and the description `D`. -/
theorem parse_status_line (date V ds D rest : Str) (length : Nat)
    (hV : ' ' ∉ V) (hn : IsNumeral 10 ds)
    (hrange : 100 ≤ numeralValue 10 ds ∧ numeralValue 10 ds ≤ 599)
    (hline : ¬ lineEnding <:+: V ++ ' ' :: (ds ++ ' ' :: D)) (hD : '\r' ∉ D)
    (hlen : (statusLine V ds D).length ≤ length)
    (hvalid : (parseFields (HTTPResponse.default date).headers rest
      (length - (statusLine V ds D).length)).1 = true) :
    ∃ r, HTTPResponse.parse date (statusLine V ds D ++ rest) length = .object r
      ∧ r.version = V ∧ r.statusCode = numeralValue 10 ds ∧ r.statusDesc = D := by
  have hcode := extractUnsigned_numeral
    ({ HTTPResponse.default date with version := V } : HTTPResponse).statusCode ds [] hn
    (by simp)
  rw [List.append_nil] at hcode
  have hsmall : ¬ 2 ^ 32 - 1 < numeralValue 10 ds := by omega
  rw [if_neg hsmall] at hcode
  have hvalid' : (parseFields ({ HTTPResponse.default date with version := V } : HTTPResponse).headers
      rest (length - (statusLine V ds D).length)).1 = true := hvalid
  rw [parse_statusLine_append date V ds D rest length hV (digits_no_space 10 ds hn.2) hline
    (getLast?_line _ _ _ hD) hlen]
  rw [finish_accept _ ds D rest _ _ hcode hrange, hvalid']
  exact ⟨_, rfl, rfl, rfl, rfl⟩

/-- C11, evaluated on the input "a 200" CR CRLF "x y" CRLF CRLF: its first line, "a 200" CR,
has one space, yet `HTTPResponse::parse` returns a response (version "a", status code 200,
description "y"). -/
theorem parse_response_accepts_line_with_one_space :
    "a 200\r\r\nx y\r\n\r\n".toList = "a 200\r".toList ++ lineEnding ++ "x y\r\n\r\n".toList
      ∧ ¬ lineEnding <:+: "a 200\r".toList
      ∧ "a 200\r".toList.count ' ' = 1
      ∧ HTTPResponse.parse "Sun, 06 Nov 1994 08:49:37 GMT".toList
          "a 200\r\r\nx y\r\n\r\n".toList 15
          = .object { statusCode := 200, version := ['a'], statusDesc := ['y'], content := [],
                      chunked := some false,
                      headers := (HTTPResponse.default
                        "Sun, 06 Nov 1994 08:49:37 GMT".toList).headers } := by
  decide

/-- C12: for a status line `V SP C SP D CRLF` (no space in `V`, no CRLF in the line, no
carriage return in `D`) whose code `C` is a decimal numeral of value n, leading zeros
allowed, followed by a header block that `parseFields` accepts, `HTTPResponse::parse`
returns a response if and only if 100 <= n <= 599, and returns `NULL` otherwise. -/
theorem parse_status_code_boundary (date V ds D rest : Str) (length : Nat)
    (hV : ' ' ∉ V) (hn : IsNumeral 10 ds)
    (hline : ¬ lineEnding <:+: V ++ ' ' :: (ds ++ ' ' :: D)) (hD : '\r' ∉ D)
    (hlen : (statusLine V ds D).length ≤ length)
    (hvalid : (parseFields (HTTPResponse.default date).headers rest
      (length - (statusLine V ds D).length)).1 = true) :
    ((∃ r, HTTPResponse.parse date (statusLine V ds D ++ rest) length = .object r)
        ↔ (100 ≤ numeralValue 10 ds ∧ numeralValue 10 ds ≤ 599))
      ∧ (HTTPResponse.parse date (statusLine V ds D ++ rest) length = .null
        ↔ ¬ (100 ≤ numeralValue 10 ds ∧ numeralValue 10 ds ≤ 599)) := by
  have hnull : ¬ (100 ≤ numeralValue 10 ds ∧ numeralValue 10 ds ≤ 599) →
      HTTPResponse.parse date (statusLine V ds D ++ rest) length = .null := by
    intro hout
    have hcode := extractUnsigned_numeral
      ({ HTTPResponse.default date with version := V } : HTTPResponse).statusCode ds [] hn
      (by simp)
    rw [List.append_nil] at hcode
    have hbad : extractUnsigned
          ({ HTTPResponse.default date with version := V } : HTTPResponse).statusCode ds < 100
        ∨ 600 ≤ extractUnsigned
          ({ HTTPResponse.default date with version := V } : HTTPResponse).statusCode ds := by
      rw [hcode]
      split <;> omega
    rw [parse_statusLine_append date V ds D rest length hV (digits_no_space 10 ds hn.2) hline
      (getLast?_line _ _ _ hD) hlen]
    exact finish_reject _ ds D rest _ hbad
  have hobj : (100 ≤ numeralValue 10 ds ∧ numeralValue 10 ds ≤ 599) →
      ∃ r, HTTPResponse.parse date (statusLine V ds D ++ rest) length = .object r := by
    intro hrange
    obtain ⟨r, hr, _⟩ := parse_status_line date V ds D rest length hV hn hrange hline hD
      hlen hvalid
    exact ⟨r, hr⟩
  refine ⟨⟨?_, hobj⟩, ⟨?_, hnull⟩⟩
  · intro ⟨r, hr⟩
    by_contra hout
    rw [hnull hout] at hr
    exact absurd hr (by simp)
  · intro h hrange
    obtain ⟨r, hr⟩ := hobj hrange
    rw [h] at hr
    exact absurd hr (by simp)

/-- C12 at the codes 099, 100, 599 and 600 in the status line "HTTP/1.1 <code> OK",
followed by the bare CRLF. -/
theorem parse_status_code_boundary_witness :
    HTTPResponse.parse ['D'] "HTTP/1.1 099 OK\r\n\r\n".toList 19 = .null
      ∧ (∃ r, HTTPResponse.parse ['D'] "HTTP/1.1 100 OK\r\n\r\n".toList 19 = .object r)
      ∧ (∃ r, HTTPResponse.parse ['D'] "HTTP/1.1 599 OK\r\n\r\n".toList 19 = .object r)
      ∧ HTTPResponse.parse ['D'] "HTTP/1.1 600 OK\r\n\r\n".toList 19 = .null :=
  ⟨(parse_status_code_boundary ['D'] "HTTP/1.1".toList "099".toList "OK".toList lineEnding 19
      (by decide) (by decide) (by decide) (by decide) (by decide) (by decide)).2.mpr
      (by decide),
   (parse_status_code_boundary ['D'] "HTTP/1.1".toList "100".toList "OK".toList lineEnding 19
      (by decide) (by decide) (by decide) (by decide) (by decide) (by decide)).1.mpr
      (by decide),
   (parse_status_code_boundary ['D'] "HTTP/1.1".toList "599".toList "OK".toList lineEnding 19
      (by decide) (by decide) (by decide) (by decide) (by decide) (by decide)).1.mpr
      (by decide),
   (parse_status_code_boundary ['D'] "HTTP/1.1".toList "600".toList "OK".toList lineEnding 19
      (by decide) (by decide) (by decide) (by decide) (by decide) (by decide)).2.mpr
      (by decide)⟩

/-- C13, as stated, fails: the code token "200abc" is not a decimal integer, yet the
status line "HTTP/1.1 200abc OK" is parsed to a response with the status code 200. -/
theorem parse_bad_status_code_counterexample :
    ¬ IsNumeral 10 "200abc".toList
      ∧ HTTPResponse.parse ['D'] "HTTP/1.1 200abc OK\r\n\r\n".toList 22
          = .object { statusCode := 200, version := "HTTP/1.1".toList,
                      statusDesc := "OK".toList, content := [], chunked := some false,
                      headers := (HTTPResponse.default ['D']).headers } := by
  decide

/-- C13, amended: in a status line `V SP C SP D CRLF` the code token `C` is read as the
stream extraction reads it.  Every token is white space `ws`, an optional sign, the
longest run `ds` of decimal digits, and a tail `tl` that does not begin with a digit; the
number read is 0 when there is no digit, 2^32 - 1 when the value of the digits is above
it, 2^32 minus that value (modulo 2^32) after a minus sign, and that value otherwise.
`HTTPResponse::parse` returns `NULL` whenever the number read is outside 100..599,
whatever follows the status line; and when it is within 100..599 and `parseFields` accepts
the header block, it returns a response with that number as status code, whatever the
tail `tl` is. -/
theorem parse_bad_status_code (date V ws sign ds tl D rest : Str) (length code : Nat)
    (hV : ' ' ∉ V) (hC : ' ' ∉ ws ++ (sign ++ (ds ++ tl)))
    (hline : ¬ lineEnding <:+: V ++ ' ' :: ((ws ++ (sign ++ (ds ++ tl))) ++ ' ' :: D))
    (hD : '\r' ∉ D)
    (hlen : (statusLine V (ws ++ (sign ++ (ds ++ tl))) D).length ≤ length)
    (hws : ∀ c ∈ ws, isSpace c = true)
    (hsign : sign = [] ∨ sign = ['+'] ∨ sign = ['-'])
    (hds : ∀ c ∈ ds, (digitValue 10 c).isSome = true)
    (htl : ∀ x, tl.head? = some x → digitValue 10 x = none)
    (hfirst : sign = [] → ds = [] →
      ∀ x, tl.head? = some x → x ≠ '+' ∧ x ≠ '-' ∧ isSpace x = false)
    (hcode : code = if ds = [] then 0
      else if 2 ^ 32 - 1 < numeralValue 10 ds then 2 ^ 32 - 1
      else if sign = ['-'] then (2 ^ 32 - numeralValue 10 ds) % 2 ^ 32
      else numeralValue 10 ds) :
    (code < 100 ∨ 600 ≤ code →
        HTTPResponse.parse date (statusLine V (ws ++ (sign ++ (ds ++ tl))) D ++ rest) length
          = .null)
      ∧ (100 ≤ code ∧ code ≤ 599 →
        (parseFields (HTTPResponse.default date).headers rest
          (length - (statusLine V (ws ++ (sign ++ (ds ++ tl))) D).length)).1 = true →
        ∃ r, HTTPResponse.parse date (statusLine V (ws ++ (sign ++ (ds ++ tl))) D ++ rest)
            length = .object r
          ∧ r.statusCode = code ∧ r.version = V ∧ r.statusDesc = D) := by
  have hx : extractUnsigned
      ({ HTTPResponse.default date with version := V } : HTTPResponse).statusCode
      (ws ++ (sign ++ (ds ++ tl))) = code := by
    rw [hcode]
    exact extractUnsigned_token ws sign ds tl hws hsign hds htl hfirst
  rw [parse_statusLine_append date V _ D rest length hV hC hline (getLast?_line _ _ _ hD) hlen]
  constructor
  · intro hout
    exact finish_reject _ _ D rest _ (by rw [hx]; exact hout)
  · intro hrange hvalid
    have hvalid' : (parseFields
        ({ HTTPResponse.default date with version := V } : HTTPResponse).headers rest
        (length - (statusLine V (ws ++ (sign ++ (ds ++ tl))) D).length)).1 = true := hvalid
    rw [finish_accept _ _ D rest _ _ hx hrange, hvalid']
    exact ⟨_, rfl, rfl, rfl, rfl⟩

/-- C13, amended, at the code tokens "200abc" (accepted with the code 200), "abc", "600x",
"+abc" and "-5" (all refused), in the status line "HTTP/1.1 <code> OK" followed by the
bare CRLF. -/
theorem parse_bad_status_code_witness :
    (∃ r, HTTPResponse.parse ['D'] "HTTP/1.1 200abc OK\r\n\r\n".toList 22 = .object r
        ∧ r.statusCode = 200 ∧ r.version = "HTTP/1.1".toList ∧ r.statusDesc = "OK".toList)
      ∧ HTTPResponse.parse ['D'] "HTTP/1.1 abc OK\r\n\r\n".toList 19 = .null
      ∧ HTTPResponse.parse ['D'] "HTTP/1.1 600x OK\r\n\r\n".toList 20 = .null
      ∧ HTTPResponse.parse ['D'] "HTTP/1.1 +abc OK\r\n\r\n".toList 20 = .null
      ∧ HTTPResponse.parse ['D'] "HTTP/1.1 -5 OK\r\n\r\n".toList 18 = .null :=
  ⟨(parse_bad_status_code ['D'] "HTTP/1.1".toList [] [] "200".toList "abc".toList "OK".toList
      lineEnding 22 200 (by decide) (by decide) (by decide) (by decide) (by decide)
      (by decide) (by decide) (by decide) (by decide) (by decide) (by decide)).2
      (by decide) (by decide),
   (parse_bad_status_code ['D'] "HTTP/1.1".toList [] [] [] "abc".toList "OK".toList
      lineEnding 19 0 (by decide) (by decide) (by decide) (by decide) (by decide)
      (by decide) (by decide) (by decide) (by decide) (by decide) (by decide)).1
      (by decide),
   (parse_bad_status_code ['D'] "HTTP/1.1".toList [] [] "600".toList "x".toList "OK".toList
      lineEnding 20 600 (by decide) (by decide) (by decide) (by decide) (by decide)
      (by decide) (by decide) (by decide) (by decide) (by decide) (by decide)).1
      (by decide),
   (parse_bad_status_code ['D'] "HTTP/1.1".toList [] ['+'] [] "abc".toList "OK".toList
      lineEnding 20 0 (by decide) (by decide) (by decide) (by decide) (by decide)
      (by decide) (by decide) (by decide) (by decide) (by decide) (by decide)).1
      (by decide),
   (parse_bad_status_code ['D'] "HTTP/1.1".toList [] ['-'] "5".toList [] "OK".toList
      lineEnding 18 4294967291 (by decide) (by decide) (by decide) (by decide) (by decide)
      (by decide) (by decide) (by decide) (by decide) (by decide) (by decide)).1
      (by decide)⟩

/-! ## The chunked flag -/

theorem findFrom_isSome_of_occurs (pat : Str) : ∀ (s : Str) (i : Nat), pat <:+: s →
    (findFrom pat s i).isSome = true := by
  intro s
  induction s with
  | nil =>
    intro i h
    have : pat = [] := List.eq_nil_of_infix_nil h
    simp [findFrom, this]
  | cons c cs ih =>
    intro i h
    by_cases hp : pat.isPrefixOf (c :: cs) = true
    · simp [findFrom, hp]
    · rcases List.infix_cons_iff.mp h with h1 | h1
      · exact absurd (List.isPrefixOf_iff_prefix.mpr h1) hp
      · simp only [findFrom, hp]
        exact ih (i + 1) h1

/-- The call `s.find(pat)` finds something exactly when `pat` occurs in `s`. -/
theorem find_isSome_iff (s pat : Str) : (find s pat 0).isSome = true ↔ pat <:+: s := by
  rw [find_zero]
  constructor
  · intro h
    by_contra hn
    rw [findFrom_none_of_absent pat s hn 0] at h
    exact absurd h (by simp)
  · exact findFrom_isSome_of_occurs pat s 0

/-- A response returned by the second half of `HTTPResponse::parse` has its flag `chunked`
set from its own header "Transfer-Encoding". -/
theorem finish_chunked (response : HTTPResponse) (C D rest : Str) (n : Nat) (r : HTTPResponse)
    (h : HTTPResponse.finish response C D rest n = .object r) :
    r.chunked = some (find ((getHeaderValue r.headers "Transfer-Encoding".toList).getD [])
      "chunked".toList 0).isSome := by
  simp only [HTTPResponse.finish] at h
  split at h
  · exact absurd h (by simp)
  · split at h
    · simp only [ParseResult.object.injEq] at h
      rw [← h]
    · exact absurd h (by simp)

theorem parse_chunked (date data : Str) (length : Nat) (r : HTTPResponse)
    (h : HTTPResponse.parse date data length = .object r) :
    r.chunked = some (find ((getHeaderValue r.headers "Transfer-Encoding".toList).getD [])
      "chunked".toList 0).isSome := by
  unfold HTTPResponse.parse at h
  dsimp only at h
  split at h
  · exact absurd h (by simp)
  · split at h
    · exact absurd h (by simp)
    · split at h
      · exact absurd h (by simp)
      · exact finish_chunked _ _ _ _ _ r h

/-- C14: on every input on which `HTTPResponse::parse` succeeds, `isChunked()` is true
exactly when the parsed header map has an entry under the name "Transfer-Encoding" (the
lookup is by exact match) whose value holds "chunked", and it is false otherwise. -/
theorem parse_isChunked (date data : Str) (length : Nat) (r : HTTPResponse)
    (h : HTTPResponse.parse date data length = .object r) :
    (r.isChunked = some true
        ↔ ∃ v, getHeaderValue r.headers "Transfer-Encoding".toList = some v
            ∧ "chunked".toList <:+: v)
      ∧ (r.isChunked = some false
        ↔ ¬ ∃ v, getHeaderValue r.headers "Transfer-Encoding".toList = some v
            ∧ "chunked".toList <:+: v) := by
  have hc := parse_chunked date data length r h
  have key : (find ((getHeaderValue r.headers "Transfer-Encoding".toList).getD [])
        "chunked".toList 0).isSome = true
      ↔ ∃ v, getHeaderValue r.headers "Transfer-Encoding".toList = some v
          ∧ "chunked".toList <:+: v := by
    rw [find_isSome_iff]
    cases hv : getHeaderValue r.headers "Transfer-Encoding".toList with
    | none =>
      simp only [Option.getD_none]
      constructor
      · intro hi
        exact absurd (List.eq_nil_of_infix_nil hi) (by decide)
      · intro ⟨v, hv', _⟩
        exact absurd hv' (by simp)
    | some w =>
      simp only [Option.getD_some]
      constructor
      · intro hi
        exact ⟨w, rfl, hi⟩
      · intro ⟨v, hv', hi⟩
        simp only [Option.some.injEq] at hv'
        rw [hv']
        exact hi
  unfold HTTPResponse.isChunked
  rw [hc]
  constructor
  · rw [← key]
    simp
  · rw [← key]
    simp

/-- C14 at a response with the header "Transfer-Encoding: chunked" and at one with the
header "transfer-encoding: chunked". -/
theorem parse_isChunked_witness :
    HTTPResponse.isChunked
        { statusCode := 200, version := "HTTP/1.1".toList, statusDesc := "OK".toList,
          content := [], chunked := some true,
          headers := setHeaderField (HTTPResponse.default ['D']).headers
            "Transfer-Encoding".toList "chunked".toList } = some true
      ∧ HTTPResponse.isChunked
        { statusCode := 200, version := "HTTP/1.1".toList, statusDesc := "OK".toList,
          content := [], chunked := some false,
          headers := setHeaderField (HTTPResponse.default ['D']).headers
            "transfer-encoding".toList "chunked".toList } = some false :=
  ⟨(parse_isChunked ['D'] "HTTP/1.1 200 OK\r\nTransfer-Encoding: chunked\r\n\r\n".toList 47 _
      (by decide)).1.mpr ⟨"chunked".toList, by decide, by decide⟩,
   (parse_isChunked ['D'] "HTTP/1.1 200 OK\r\ntransfer-encoding: chunked\r\n\r\n".toList 47 _
      (by decide)).2.mpr (fun ⟨_, hv, _⟩ => absurd hv (by
        rw [show getHeaderValue (setHeaderField (HTTPResponse.default ['D']).headers
          "transfer-encoding".toList "chunked".toList) "Transfer-Encoding".toList = none
          by decide]
        simp))⟩

/-! ## The chunk size line -/

theorem toInt_small (p : Nat) (h : p < 2 ^ 31) : toInt (some p) = (p : Int) := by
  have h1 : p % 2 ^ 32 = p := Nat.mod_eq_of_lt (by omega)
  simp only [toInt, Option.getD_some, h1, h, if_true]

theorem toSizeT_natCast (p : Nat) (h : p < 2 ^ 64) : toSizeT (p : Int) = p := by
  have h2 : (2 : Int) ^ 64 = ((2 ^ 64 : Nat) : Int) := by norm_num
  simp only [toSizeT]
  rw [h2, ← Int.ofNat_emod, Int.toNat_ofNat]
  exact Nat.mod_eq_of_lt h

theorem cr_mem_of_occurs (X : Str) (h : lineEnding <:+: X) : '\r' ∈ X := by
  obtain ⟨s, t, rfl⟩ := h
  simp [lineEnding]

theorem infix_append_cases : ∀ (A B : Str), lineEnding <:+: A ++ B →
    '\r' ∈ A ∨ lineEnding <:+: B := by
  intro A
  induction A with
  | nil => intro B h; exact Or.inr h
  | cons a as ih =>
    intro B h
    rw [List.cons_append] at h
    rcases List.infix_cons_iff.mp h with h1 | h1
    · left
      obtain ⟨t, ht⟩ := h1
      simp only [lineEnding, List.cons_append, List.cons.injEq] at ht
      rw [← ht.1]
      exact List.mem_cons_self _ _
    · rcases ih B h1 with h2 | h2
      · exact Or.inl (List.mem_cons_of_mem _ h2)
      · exact Or.inr h2

/-- The call `data.find("\r\n")` on a text `X` without CRLF followed by CRLF: the CRLF is
found right after `X`. -/
theorem findFrom_lineEnding (rest : Str) : ∀ (X : Str) (i : Nat), ¬ lineEnding <:+: X →
    findFrom lineEnding (X ++ '\r' :: '\n' :: rest) i = some (i + X.length) := by
  intro X
  induction X with
  | nil =>
    intro i _
    simpa [lineEnding] using findFrom_at_start lineEnding rest i
  | cons c cs ih =>
    intro i h
    have hnp : lineEnding.isPrefixOf (c :: cs ++ '\r' :: '\n' :: rest) = false := by
      cases hb : lineEnding.isPrefixOf (c :: cs ++ '\r' :: '\n' :: rest) with
      | false => rfl
      | true =>
        exfalso
        obtain ⟨t, ht⟩ := List.isPrefixOf_iff_prefix.mp hb
        cases cs with
        | nil =>
          simp [lineEnding] at ht
        | cons d ds =>
          simp only [lineEnding, List.cons_append, List.cons.injEq] at ht
          apply h
          refine ⟨[], ds, ?_⟩
          rw [← ht.1, ← ht.2.1]
          simp [lineEnding]
    rw [List.cons_append] at hnp ⊢
    have e : i + 1 + cs.length = i + (c :: cs).length := by
      simp only [List.length_cons]; omega
    simp only [findFrom, hnp]
    rw [ih (i + 1) (not_infix_tail c cs h), e]
    simp

/-- The function `getChunkSize` on a size line `X` without CRLF, closed by CRLF: the size
is what the hexadecimal extraction reads in `X`, and `data` keeps what follows the CRLF. -/
theorem getChunkSize_line (chunkLen0 : Int) (X rest : Str) (hX : ¬ lineEnding <:+: X)
    (hsize : X.length + 2 < 2 ^ 31) :
    HTTPResponse.getChunkSize chunkLen0 (X ++ '\r' :: '\n' :: rest)
      = some (extractInt 16 chunkLen0 X, rest) := by
  have hfind : find (X ++ '\r' :: '\n' :: rest) lineEnding 0 = some X.length := by
    rw [find_zero, findFrom_lineEnding rest X 0 hX]
    simp
  have hint : toInt (some X.length) = (X.length : Int) := toInt_small _ (by omega)
  have hs1 : toSizeT (X.length : Int) = X.length := toSizeT_natCast _ (by omega)
  have hs2 : toSizeT ((X.length : Int) + 2) = X.length + 2 := by
    have : ((X.length : Int) + 2) = ((X.length + 2 : Nat) : Int) := by push_cast; rfl
    rw [this]
    exact toSizeT_natCast _ (by omega)
  have hne : X.length ≠ npos := by
    have : npos = 2 ^ 64 - 1 := rfl
    omega
  have hlen : (X ++ '\r' :: '\n' :: rest).length = X.length + 2 + rest.length := by
    simp; omega
  have hle : X.length + 2 ≤ (X ++ '\r' :: '\n' :: rest).length := by rw [hlen]; omega
  have hnlt : ¬ (X ++ '\r' :: '\n' :: rest).length < X.length + 2 := by omega
  have hhead : substr (X ++ '\r' :: '\n' :: rest) 0 X.length = X := by simp [substr]
  have htail : substr (X ++ '\r' :: '\n' :: rest) (X.length + 2)
      ((X ++ '\r' :: '\n' :: rest).length - X.length - 2) = rest := by
    have e : (X ++ '\r' :: '\n' :: rest).length - X.length - 2 = rest.length := by
      rw [hlen]; omega
    rw [e]
    simp only [substr, drop_line]
    simp
  simp only [HTTPResponse.getChunkSize, hfind, hint, hs1, hs2, hne, ne_eq, not_false_eq_true,
    if_true, hle, hnlt, if_false, hhead, htail]

/-- C15: for a chunk size n below 2^31 written as a hexadecimal numeral `h` and any `rest`,
`getChunkSize` on `h` CRLF `rest` returns n and leaves `rest` in the buffer.  The numeral
(with its CRLF) is shorter than 2^31 characters, the range of the `int` in which the code
keeps the position of the CRLF. -/
theorem getChunkSize_hex (chunkLen0 : Int) (h rest : Str) (n : Nat)
    (hn : IsNumeral 16 h) (hv : numeralValue 16 h = n) (hn31 : n < 2 ^ 31)
    (hsize : h.length + 2 < 2 ^ 31) :
    HTTPResponse.getChunkSize chunkLen0 (h ++ lineEnding ++ rest) = some ((n : Int), rest) := by
  have hX : ¬ lineEnding <:+: h := by
    intro hi
    have := (digit_not_special 16 '\r' (hn.2 '\r' (cr_mem_of_occurs h hi))).1
    exact absurd this (by decide)
  have e : h ++ lineEnding ++ rest = h ++ '\r' :: '\n' :: rest := by simp [lineEnding]
  have hx := extractInt_numeral 16 chunkLen0 h [] hn (by simp) (Or.inr (by simp))
  rw [List.append_nil, hv] at hx
  have hsmall : ¬ 2 ^ 31 - 1 < n := by omega
  rw [if_neg hsmall] at hx
  rw [e, getChunkSize_line chunkLen0 h rest hX hsize, hx]

/-- C15 at "1a" CRLF followed by 26 data bytes, and at "0" CRLF CRLF. -/
theorem getChunkSize_hex_witness :
    HTTPResponse.getChunkSize 0 "1a\r\nabcdefghijklmnopqrstuvwxyz".toList
        = some (26, "abcdefghijklmnopqrstuvwxyz".toList)
      ∧ HTTPResponse.getChunkSize 0 "0\r\n\r\n".toList = some (0, "\r\n".toList) :=
  ⟨getChunkSize_hex 0 "1a".toList "abcdefghijklmnopqrstuvwxyz".toList 26
      (by decide) (by decide) (by decide) (by decide),
   getChunkSize_hex 0 ['0'] "\r\n".toList 0 (by decide) (by decide) (by decide) (by decide)⟩

/-- C16: on a buffer that holds no CRLF, `getChunkSize` returns -1 and leaves the buffer
as it is. -/
theorem getChunkSize_incomplete (chunkLen0 : Int) (data : Str) (h : ¬ lineEnding <:+: data) :
    HTTPResponse.getChunkSize chunkLen0 data = some (-1, data) := by
  have hfind : find data lineEnding 0 = none := by
    rw [find_zero]
    exact findFrom_none_of_absent lineEnding data h 0
  have h1 : toInt none = -1 := by decide
  have h2 : toSizeT (-1) = npos := by decide
  simp only [HTTPResponse.getChunkSize, hfind, h1, h2, ne_eq, not_true_eq_false, if_false]

/-- C16 at the buffer "1a" CR "abc". -/
theorem getChunkSize_incomplete_witness :
    HTTPResponse.getChunkSize 0 "1a\rabc".toList = some (-1, "1a\rabc".toList) :=
  getChunkSize_incomplete 0 "1a\rabc".toList (by decide)

/-- C17, as stated, fails: for the size line "80000000;x" the numeral has the value 2^31,
which an `int` cannot hold, and `getChunkSize` returns 2^31 - 1. -/
theorem getChunkSize_extension_counterexample :
    IsNumeral 16 "80000000".toList
      ∧ numeralValue 16 "80000000".toList = 2147483648
      ∧ HTTPResponse.getChunkSize 0 "80000000;x\r\nrest".toList
          = some (2147483647, "rest".toList) := by
  decide

/-- C17, amended: for a size line `h ; ext CRLF rest` where `h` is a hexadecimal numeral of
a value n below 2^31 and `ext` holds no CRLF, `getChunkSize` returns n and leaves `rest` in
the buffer.  The size line (with its CRLF) is shorter than 2^31 characters. -/
theorem getChunkSize_extension (chunkLen0 : Int) (h ext rest : Str) (n : Nat)
    (hn : IsNumeral 16 h) (hv : numeralValue 16 h = n) (hn31 : n < 2 ^ 31)
    (hext : ¬ lineEnding <:+: ext)
    (hsize : h.length + 1 + ext.length + 2 < 2 ^ 31) :
    HTTPResponse.getChunkSize chunkLen0 (h ++ ';' :: ext ++ lineEnding ++ rest)
      = some ((n : Int), rest) := by
  have hX : ¬ lineEnding <:+: h ++ ';' :: ext := by
    intro hi
    have e : h ++ ';' :: ext = (h ++ [';']) ++ ext := by simp
    rw [e] at hi
    rcases infix_append_cases _ _ hi with h1 | h1
    · rcases List.mem_append.mp h1 with h2 | h2
      · have := (digit_not_special 16 '\r' (hn.2 '\r' h2)).1
        exact absurd this (by decide)
      · exact absurd h2 (by decide)
    · exact hext h1
  have e : h ++ ';' :: ext ++ lineEnding ++ rest
      = (h ++ ';' :: ext) ++ '\r' :: '\n' :: rest := by simp [lineEnding]
  have hx := extractInt_numeral 16 chunkLen0 h (';' :: ext) hn
    (by intro x hx; simp only [List.head?_cons, Option.some.injEq] at hx; subst hx; decide)
    (Or.inr (by
      intro x hx; simp only [List.head?_cons, Option.some.injEq] at hx; subst hx; decide))
  rw [hv] at hx
  have hsmall : ¬ 2 ^ 31 - 1 < n := by omega
  rw [if_neg hsmall] at hx
  have hl : (h ++ ';' :: ext).length + 2 < 2 ^ 31 := by
    simp only [List.length_append, List.length_cons]; omega
  rw [e, getChunkSize_line chunkLen0 _ rest hX hl, hx]

/-- C17, amended, at the size line "1a;name=value" followed by "data". -/
theorem getChunkSize_extension_witness :
    HTTPResponse.getChunkSize 0 "1a;name=value\r\ndata".toList = some (26, "data".toList) :=
  getChunkSize_extension 0 "1a".toList "name=value".toList "data".toList 26
    (by decide) (by decide) (by decide) (by decide) (by decide)

/-! ## Content-Length -/

/-- C18: when the header map has "Content-Length" with a decimal numeral of a value n
below 2^31, `getContentLen()` returns n; when the header map has no "Content-Length",
it returns -1. -/
theorem getContentLen_lookup (r r' : HTTPResponse) (ds : Str) (n : Nat)
    (hh : getHeaderValue r.headers "Content-Length".toList = some ds)
    (hn : IsNumeral 10 ds) (hv : numeralValue 10 ds = n) (hn31 : n < 2 ^ 31)
    (habsent : getHeaderValue r'.headers "Content-Length".toList = none) :
    r.getContentLen = (n : Int) ∧ r'.getContentLen = -1 := by
  have hx := extractInt_numeral 10 0 ds [] hn (by simp) (Or.inl rfl)
  rw [List.append_nil, hv] at hx
  have hsmall : ¬ 2 ^ 31 - 1 < n := by omega
  rw [if_neg hsmall] at hx
  constructor
  · simp only [HTTPResponse.getContentLen, hh, hx]
  · simp only [HTTPResponse.getContentLen, habsent]

/-- C18 at a response with the header "Content-Length: 42" and at one without it. -/
theorem getContentLen_lookup_witness :
    HTTPResponse.getContentLen
        { statusCode := 200, version := "HTTP/1.1".toList, statusDesc := "OK".toList,
          content := [], chunked := some false,
          headers := [("Content-Length".toList, "42".toList)] } = 42
      ∧ HTTPResponse.getContentLen (HTTPResponse.default ['D']) = -1 :=
  getContentLen_lookup _ _ "42".toList 42 (by decide) (by decide) (by decide) (by decide)
    (by decide)

/-- C19, as stated, fails: with the header value "abc", and with the empty value,
`getContentLen()` returns 0, not -1. -/
theorem getContentLen_unparsable_counterexample :
    HTTPResponse.getContentLen
        { statusCode := 200, version := "HTTP/1.1".toList, statusDesc := "OK".toList,
          content := [], chunked := some false,
          headers := [("Content-Length".toList, "abc".toList)] } = 0
      ∧ HTTPResponse.getContentLen
        { statusCode := 200, version := "HTTP/1.1".toList, statusDesc := "OK".toList,
          content := [], chunked := some false,
          headers := [("Content-Length".toList, [])] } = 0
      ∧ (0 : Int) ≠ -1 := by
  decide

/-- C19, amended: when the header "Content-Length" is present and its value cannot be
parsed as an integer, `getContentLen()` returns 0.  A value cannot be parsed as an integer
when, after its leading white space `ws` and an optional sign, the rest does not begin
with a decimal digit (the rest may be empty); without a sign the rest begins with neither
white space nor a sign, these being taken by `ws` and by the sign. -/
theorem getContentLen_unparsable (r : HTTPResponse) (ws sign rest : Str)
    (hh : getHeaderValue r.headers "Content-Length".toList = some (ws ++ (sign ++ rest)))
    (hws : ∀ c ∈ ws, isSpace c = true)
    (hsign : sign = [] ∨ sign = ['+'] ∨ sign = ['-'])
    (hrest : ∀ x, rest.head? = some x → digitValue 10 x = none)
    (hfirst : sign = [] →
      ∀ x, rest.head? = some x → x ≠ '+' ∧ x ≠ '-' ∧ isSpace x = false) :
    r.getContentLen = 0 := by
  simp only [HTTPResponse.getContentLen, hh, extractInt_token ws sign rest hws hsign hrest hfirst]

/-- C19, amended, at responses with the header "Content-Length" of value "abc", "", "-",
" " and "+x". -/
theorem getContentLen_unparsable_witness :
    HTTPResponse.getContentLen
        { statusCode := 200, version := "HTTP/1.1".toList, statusDesc := "OK".toList,
          content := [], chunked := some false,
          headers := [("Content-Length".toList, "abc".toList)] } = 0
      ∧ HTTPResponse.getContentLen
        { statusCode := 200, version := "HTTP/1.1".toList, statusDesc := "OK".toList,
          content := [], chunked := some false,
          headers := [("Content-Length".toList, [])] } = 0
      ∧ HTTPResponse.getContentLen
        { statusCode := 200, version := "HTTP/1.1".toList, statusDesc := "OK".toList,
          content := [], chunked := some false,
          headers := [("Content-Length".toList, "-".toList)] } = 0
      ∧ HTTPResponse.getContentLen
        { statusCode := 200, version := "HTTP/1.1".toList, statusDesc := "OK".toList,
          content := [], chunked := some false,
          headers := [("Content-Length".toList, " ".toList)] } = 0
      ∧ HTTPResponse.getContentLen
        { statusCode := 200, version := "HTTP/1.1".toList, statusDesc := "OK".toList,
          content := [], chunked := some false,
          headers := [("Content-Length".toList, "+x".toList)] } = 0 :=
  ⟨getContentLen_unparsable _ [] [] "abc".toList (by decide) (by decide) (by decide)
      (by decide) (by decide),
   getContentLen_unparsable _ [] [] [] (by decide) (by decide) (by decide) (by decide)
      (by decide),
   getContentLen_unparsable _ [] ['-'] [] (by decide) (by decide) (by decide) (by decide)
      (by decide),
   getContentLen_unparsable _ [' '] [] [] (by decide) (by decide) (by decide) (by decide)
      (by decide),
   getContentLen_unparsable _ [] ['+'] ['x'] (by decide) (by decide) (by decide) (by decide)
      (by decide)⟩

/-! ## The header map: set and get -/

theorem getHeaderValue_set_same : ∀ (s : Headers) (a v : Str),
    getHeaderValue (setHeaderField s a v) a = some v := by
  intro s
  induction s with
  | nil => intro a v; simp [setHeaderField, getHeaderValue]
  | cons f rest ih =>
    intro a v
    obtain ⟨k, w⟩ := f
    by_cases h1 : a = k
    · simp [setHeaderField, getHeaderValue, h1]
    · by_cases h2 : strLt a k = true
      · simp [setHeaderField, getHeaderValue, h1, h2]
      · have h3 : ¬ k = a := fun e => h1 e.symm
        simp [setHeaderField, getHeaderValue, h1, h2, h3, ih]

theorem getHeaderValue_set_other : ∀ (s : Headers) (a b v : Str), b ≠ a →
    getHeaderValue (setHeaderField s a v) b = getHeaderValue s b := by
  intro s
  induction s with
  | nil =>
    intro a b v hne
    have : ¬ a = b := fun e => hne e.symm
    simp [setHeaderField, getHeaderValue, this]
  | cons f rest ih =>
    intro a b v hne
    obtain ⟨k, w⟩ := f
    have hab : ¬ a = b := fun e => hne e.symm
    by_cases h1 : a = k
    · have hkb : ¬ k = b := fun e => hab (h1.trans e)
      simp [setHeaderField, getHeaderValue, h1, hkb]
    · by_cases h2 : strLt a k = true
      · simp [setHeaderField, getHeaderValue, h1, h2, hab]
      · by_cases h3 : k = b
        · subst h3
          simp [setHeaderField, getHeaderValue, h1, h2]
        · simp [setHeaderField, getHeaderValue, h1, h2, h3, ih a b v hne]

theorem getHeaderValue_none_of_absent (s : Headers) (a : Str) (h : ∀ f ∈ s, f.1 ≠ a) :
    getHeaderValue s a = none := by
  induction s with
  | nil => rfl
  | cons f rest ih =>
    obtain ⟨k, w⟩ := f
    have hk : ¬ k = a := h (k, w) (List.mem_cons_self _ _)
    simp [getHeaderValue, hk, ih (fun g hg => h g (List.mem_cons_of_mem _ hg))]

theorem length_setHeaderField : ∀ (s : Headers) (a v : Str), OrderedHeaders s →
    (setHeaderField s a v).length
      = s.length + (if getHeaderValue s a = none then 1 else 0) := by
  intro s
  induction s with
  | nil => intro a v _; simp [setHeaderField, getHeaderValue]
  | cons f rest ih =>
    intro a v hord
    obtain ⟨k, w⟩ := f
    have hrest : OrderedHeaders rest := (List.pairwise_cons.mp hord).2
    have hk : ∀ g ∈ rest, strLt k g.1 = true := (List.pairwise_cons.mp hord).1
    by_cases h1 : a = k
    · simp [setHeaderField, getHeaderValue, h1]
    · have h3 : ¬ k = a := fun e => h1 e.symm
      by_cases h2 : strLt a k = true
      · have habs : getHeaderValue rest a = none := by
          apply getHeaderValue_none_of_absent
          intro g hg e
          have hkg := hk g hg
          rw [e] at hkg
          rw [strLt_asymm k a hkg] at h2
          exact Bool.false_ne_true h2
        simp [setHeaderField, getHeaderValue, h1, h2, h3, habs]
      · simp [setHeaderField, getHeaderValue, h1, h2, h3, ih a v hrest]
        omega

theorem strLt_trans : ∀ a b c : Str, strLt a b = true → strLt b c = true → strLt a c = true := by
  intro a
  induction a with
  | nil =>
    intro b c hab hbc
    cases b with
    | nil => simp [strLt] at hab
    | cons y bs =>
      cases c with
      | nil => simp [strLt] at hbc
      | cons z cs => rfl
  | cons x as ih =>
    intro b c hab hbc
    cases b with
    | nil => simp [strLt] at hab
    | cons y bs =>
      cases c with
      | nil => simp [strLt] at hbc
      | cons z cs =>
        simp only [strLt] at hab hbc ⊢
        by_cases h1 : x.toNat < y.toNat
        · by_cases h2 : y.toNat < z.toNat
          · have : x.toNat < z.toNat := by omega
            simp [this]
          · by_cases h3 : z.toNat < y.toNat
            · simp [h2, h3] at hbc
            · have : x.toNat < z.toNat := by omega
              simp [this]
        · by_cases h1' : y.toNat < x.toNat
          · simp [h1, h1'] at hab
          · simp only [h1, h1', if_false] at hab
            by_cases h2 : y.toNat < z.toNat
            · have : x.toNat < z.toNat := by omega
              simp [this]
            · by_cases h3 : z.toNat < y.toNat
              · simp [h2, h3] at hbc
              · simp only [h2, h3, if_false] at hbc
                have e1 : ¬ x.toNat < z.toNat := by omega
                have e2 : ¬ z.toNat < x.toNat := by omega
                simp only [e1, e2, if_false]
                exact ih bs cs hab hbc

theorem strLt_total : ∀ a b : Str, a ≠ b → strLt a b = false → strLt b a = true := by
  intro a
  induction a with
  | nil =>
    intro b hne hab
    cases b with
    | nil => exact absurd rfl hne
    | cons y bs => simp [strLt] at hab
  | cons x as ih =>
    intro b hne hab
    cases b with
    | nil => rfl
    | cons y bs =>
      simp only [strLt] at hab ⊢
      by_cases h1 : x.toNat < y.toNat
      · simp [h1] at hab
      · by_cases h2 : y.toNat < x.toNat
        · simp [h2]
        · simp only [h1, h2, if_false] at hab ⊢
          have hxy : x = y := by
            have e : x.toNat = y.toNat := by omega
            rw [← Char.ofNat_toNat x, ← Char.ofNat_toNat y, e]
          subst hxy
          exact ih bs (fun e => hne (by rw [e])) hab

/-- Every name stored after `setHeaderField(a, v)` was stored before or is `a`. -/
theorem mem_setHeaderField : ∀ (s : Headers) (a v : Str) (g : Str × Str),
    g ∈ setHeaderField s a v → g.1 = a ∨ ∃ f ∈ s, f.1 = g.1 := by
  intro s
  induction s with
  | nil =>
    intro a v g hg
    simp only [setHeaderField, List.mem_singleton] at hg
    left; rw [hg]
  | cons f rest ih =>
    intro a v g hg
    obtain ⟨k, w⟩ := f
    by_cases h1 : a = k
    · simp only [setHeaderField, h1, if_true, List.mem_cons] at hg
      rcases hg with hg | hg
      · left; rw [hg, h1]
      · right; exact ⟨g, List.mem_cons_of_mem _ hg, rfl⟩
    · by_cases h2 : strLt a k = true
      · simp only [setHeaderField, h1, h2, if_true, if_false, List.mem_cons] at hg
        rcases hg with hg | hg | hg
        · left; rw [hg]
        · right; exact ⟨(k, w), List.mem_cons_self _ _, by rw [hg]⟩
        · right; exact ⟨g, List.mem_cons_of_mem _ hg, rfl⟩
      · have hg' : g = (k, w) ∨ g ∈ setHeaderField rest a v := by
          simpa only [setHeaderField, h1, h2, if_false, List.mem_cons, Bool.false_eq_true] using hg
        rcases hg' with hgk | hgr
        · right; exact ⟨(k, w), List.mem_cons_self _ _, by rw [hgk]⟩
        · rcases ih a v g hgr with h | ⟨f, hf, hfe⟩
          · exact Or.inl h
          · exact Or.inr ⟨f, List.mem_cons_of_mem _ hf, hfe⟩

/-- The method `setHeaderField` keeps the names of the header map strictly ascending. -/
theorem setHeaderField_ordered : ∀ (s : Headers) (a v : Str), OrderedHeaders s →
    OrderedHeaders (setHeaderField s a v) := by
  intro s
  induction s with
  | nil => intro a v _; simp [setHeaderField, OrderedHeaders]
  | cons f rest ih =>
    intro a v hord
    obtain ⟨k, w⟩ := f
    have hrest : OrderedHeaders rest := (List.pairwise_cons.mp hord).2
    have hk : ∀ g ∈ rest, strLt k g.1 = true := (List.pairwise_cons.mp hord).1
    by_cases h1 : a = k
    · simp only [setHeaderField, h1, if_true]
      exact List.pairwise_cons.mpr ⟨hk, hrest⟩
    · by_cases h2 : strLt a k = true
      · simp only [setHeaderField, h1, h2, if_true, if_false]
        refine List.pairwise_cons.mpr ⟨?_, hord⟩
        intro g hg
        rcases List.mem_cons.mp hg with hg | hg
        · rw [hg]; exact h2
        · exact strLt_trans a k g.1 h2 (hk g hg)
      · simp only [setHeaderField, h1, h2, if_false]
        refine List.pairwise_cons.mpr ⟨?_, ih a v hrest⟩
        intro g hg
        rcases mem_setHeaderField rest a v g hg with h | ⟨f, hf, hfe⟩
        · rw [h]
          exact strLt_total a k h1 (by simpa using h2)
        · rw [← hfe]; exact hk f hf

/-- C20: on a header map (a `std::map`, its names ascending), after
`setHeaderField(a, v)` the lookup of `a` gives `v`, the lookup of any other name `b`
(one that differs in letter case included) gives what it gave before, and the number of
fields has grown by one exactly when `a` was not present. -/
theorem setHeaderField_lookup (store : Headers) (a b v : Str)
    (hord : OrderedHeaders store) (hne : b ≠ a) :
    getHeaderValue (setHeaderField store a v) a = some v
      ∧ getHeaderValue (setHeaderField store a v) b = getHeaderValue store b
      ∧ getNumHeaderFields (setHeaderField store a v)
          = getNumHeaderFields store + (if getHeaderValue store a = none then 1 else 0) :=
  ⟨getHeaderValue_set_same store a v, getHeaderValue_set_other store a b v hne,
    length_setHeaderField store a v hord⟩

/-- C20 at the map with "Host: x": setting "host" to "y" adds a field and leaves the lookup
of "Host" alone; setting "Host" to "z" overwrites. -/
theorem setHeaderField_lookup_witness :
    (getHeaderValue (setHeaderField [("Host".toList, ['x'])] "host".toList ['y'])
          "host".toList = some ['y']
        ∧ getHeaderValue (setHeaderField [("Host".toList, ['x'])] "host".toList ['y'])
          "Host".toList = getHeaderValue [("Host".toList, ['x'])] "Host".toList
        ∧ getNumHeaderFields (setHeaderField [("Host".toList, ['x'])] "host".toList ['y'])
          = getNumHeaderFields [("Host".toList, ['x'])]
            + (if getHeaderValue [("Host".toList, ['x'])] "host".toList = none then 1 else 0))
      ∧ getNumHeaderFields (setHeaderField [("Host".toList, ['x'])] "host".toList ['y']) = 2
      ∧ getNumHeaderFields (setHeaderField [("Host".toList, ['x'])] "Host".toList ['z']) = 1 :=
  ⟨setHeaderField_lookup [("Host".toList, ['x'])] "host".toList "Host".toList ['y']
      (by decide) (by decide),
   by decide, by decide⟩
/-! ## Serialization -/

theorem printTo_eq (headers : Headers) :
    ∀ outputString, HTTPMessage.printTo headers outputString
      = outputString ++ HTTPMessage.print headers := by
  induction headers with
  | nil => intro o; rfl
  | cons f rest ih =>
    intro o
    obtain ⟨name, value⟩ := f
    simp only [HTTPMessage.printTo, HTTPMessage.print, ih, List.append_assoc]

/-! ## The order of the header map does not depend on the order of the calls -/

theorem setHeaderField_comm : ∀ (h : Headers) (a v b w : Str), a ≠ b →
    setHeaderField (setHeaderField h a v) b w = setHeaderField (setHeaderField h b w) a v := by
  intro h
  induction h with
  | nil =>
    intro a v b w hab
    have hba : b ≠ a := fun e => hab e.symm
    by_cases h1 : strLt a b = true
    · have h2 := strLt_asymm a b h1
      simp [setHeaderField, hab, hba, h1, h2]
    · have h2 := strLt_total a b hab (by simpa using h1)
      simp [setHeaderField, hab, hba, h1, h2]
  | cons f rest ih =>
    intro a v b w hab
    obtain ⟨k, x⟩ := f
    have hba : b ≠ a := fun e => hab e.symm
    by_cases ha : a = k
    · subst ha
      by_cases hb : strLt b a = true
      · have h2 := strLt_asymm b a hb
        simp [setHeaderField, hab, hba, hb, h2]
      · simp [setHeaderField, hab, hba, hb]
    · by_cases hb : b = k
      · subst hb
        by_cases hl : strLt a b = true
        · have h2 := strLt_asymm a b hl
          simp [setHeaderField, hab, hba, hl, h2]
        · simp [setHeaderField, hab, hba, hl]
      · by_cases hak : strLt a k = true <;> by_cases hbk : strLt b k = true
        · by_cases h1 : strLt a b = true
          · have h2 := strLt_asymm a b h1
            simp [setHeaderField, hab, hba, ha, hb, hak, hbk, h1, h2]
          · have h2 := strLt_total a b hab (by simpa using h1)
            simp [setHeaderField, hab, hba, ha, hb, hak, hbk, h1, h2]
        · have hkb := strLt_total b k hb (by simpa using hbk)
          have h1 := strLt_trans a k b hak hkb
          have h2 := strLt_asymm a b h1
          simp [setHeaderField, hab, hba, ha, hb, hak, hbk, h1, h2]
        · have hka := strLt_total a k ha (by simpa using hak)
          have h1 := strLt_trans b k a hbk hka
          have h2 := strLt_asymm b a h1
          simp [setHeaderField, hab, hba, ha, hb, hak, hbk, h1, h2]
        · simp [setHeaderField, hab, hba, ha, hb, hak, hbk, ih a v b w hab]

theorem foldl_setHeaderField_ordered (calls : List (Str × Str)) :
    ∀ acc : Headers, OrderedHeaders acc →
      OrderedHeaders (calls.foldl (fun h c => setHeaderField h c.1 c.2) acc) := by
  induction calls with
  | nil => intro acc h; exact h
  | cons c rest ih =>
    intro acc h
    exact ih _ (setHeaderField_ordered acc c.1 c.2 h)

theorem names_nodup_of_ordered (headers : Headers) (h : OrderedHeaders headers) :
    (headers.map Prod.fst).Nodup := by
  unfold OrderedHeaders at h
  rw [List.Nodup, List.pairwise_map]
  refine h.imp ?_
  intro a b hab e
  rw [e, strLt_irrefl] at hab
  exact Bool.noConfusion hab

theorem foldl_setHeaderField_perm (calls calls' : List (Str × Str)) (hp : calls'.Perm calls)
    (hn : (calls.map Prod.fst).Nodup) (acc : Headers) :
    calls'.foldl (fun h c => setHeaderField h c.1 c.2) acc
      = calls.foldl (fun h c => setHeaderField h c.1 c.2) acc := by
  refine List.Perm.foldl_eq' hp ?_ acc
  intro x hx y hy z
  by_cases e : x.1 = y.1
  · have hxy : x = y := by
      have hn' : (calls'.map Prod.fst).Nodup := (hp.map Prod.fst).nodup_iff.mpr hn
      exact List.inj_on_of_nodup_map hn' hx hy e
    rw [hxy]
  · exact setHeaderField_comm z y.1 y.2 x.1 x.2 (fun h => e h.symm) |>.symm ▸ rfl

/-! ## The decimal text of a number -/

theorem digitValue_ofNat (d : Nat) (hd : d < 10) :
    digitValue 10 (Char.ofNat (48 + d)) = some d := by
  interval_cases d <;> rfl

theorem ofNat_ne_zero (d : Nat) (hd : d < 10) (h0 : d ≠ 0) : Char.ofNat (48 + d) ≠ '0' := by
  interval_cases d <;> first | exact absurd rfl h0 | decide

theorem putDigits_append : ∀ (fuel n : Nat) (acc : Str),
    putDigits fuel n acc = putDigits fuel n [] ++ acc := by
  intro fuel
  induction fuel with
  | zero => intro n acc; rfl
  | succ fuel ih =>
    intro n acc
    by_cases h : n / 10 = 0
    · simp [putDigits, h]
    · simp only [putDigits, h, if_false]
      rw [ih (n / 10) (_ :: acc), ih (n / 10) [_]]
      simp

theorem numeralValue_concat (xs : Str) (c : Char) :
    numeralValue 10 (xs ++ [c]) = 10 * numeralValue 10 xs + (digitValue 10 c).getD 0 := by
  simp only [numeralValue, List.reverse_append, List.reverse_cons, List.reverse_nil,
    List.nil_append, List.singleton_append, List.map_cons, Nat.ofDigits_cons]
  omega

theorem putDigits_numeral : ∀ (fuel n : Nat), n < fuel →
    IsNumeral 10 (putDigits fuel n []) ∧ numeralValue 10 (putDigits fuel n []) = n
      ∧ (n ≠ 0 → (putDigits fuel n []).head? ≠ some '0') := by
  intro fuel
  induction fuel with
  | zero => intro n h; omega
  | succ fuel ih =>
    intro n hn
    have hd : n % 10 < 10 := Nat.mod_lt _ (by decide)
    by_cases h : n / 10 = 0
    · have hnd : n % 10 = n := by omega
      simp only [putDigits, h, if_true]
      refine ⟨⟨by simp, ?_⟩, ?_, ?_⟩
      · intro c hc
        rw [List.mem_singleton] at hc
        rw [hc, digitValue_ofNat _ hd]; rfl
      · have := numeralValue_concat [] (Char.ofNat (48 + n % 10))
        rw [List.nil_append] at this
        rw [this, digitValue_ofNat _ hd]
        simp [numeralValue, hnd]
      · intro h0 he
        rw [List.head?_cons, Option.some.injEq] at he
        exact ofNat_ne_zero _ hd (by omega) he
    · simp only [putDigits, h, if_false]
      rw [putDigits_append]
      obtain ⟨⟨hne, hall⟩, hval, hhead⟩ := ih (n / 10) (by omega)
      refine ⟨⟨by simp, ?_⟩, ?_, ?_⟩
      · intro c hc
        rcases List.mem_append.mp hc with hc | hc
        · exact hall c hc
        · rw [List.mem_singleton] at hc
          rw [hc, digitValue_ofNat _ hd]; rfl
      · rw [numeralValue_concat, hval, digitValue_ofNat _ hd]
        simp only [Option.getD_some]
        omega
      · intro _
        rw [List.head?_append_of_ne_nil _ hne]
        exact hhead h

theorem putUnsigned_numeral (n : Nat) :
    IsNumeral 10 (putUnsigned n) ∧ numeralValue 10 (putUnsigned n) = n
      ∧ (n ≠ 0 → (putUnsigned n).head? ≠ some '0') :=
  putDigits_numeral (n + 1) n (Nat.lt_succ_self n)

/-! ## The statements of the specification on printing -/

/-- C21: after every sequence of calls of `setHeaderField` on an empty header map,
`getHeaderSet` gives the fields with their names strictly ascending in the lexicographic
order, so no name twice; a sequence of calls with distinct names gives the same fields in
whatever order the calls are made; and `print` writes the lines in that order.  After
"Zeta: 1" and then "Alpha: 2" the printed lines are "Alpha: 2", "Zeta: 1" and the closing
empty line. -/
theorem getHeaderSet_ascending (calls : List (Str × Str)) :
    (getHeaderSet (calls.foldl (fun h c => setHeaderField h c.1 c.2) [])).Pairwise
        (fun f g => strLt f.1 g.1 = true)
      ∧ ((getHeaderSet (calls.foldl (fun h c => setHeaderField h c.1 c.2) [])).map
          Prod.fst).Nodup
      ∧ (∀ calls' : List (Str × Str), calls'.Perm calls → (calls.map Prod.fst).Nodup →
          getHeaderSet (calls'.foldl (fun h c => setHeaderField h c.1 c.2) [])
            = getHeaderSet (calls.foldl (fun h c => setHeaderField h c.1 c.2) []))
      ∧ HTTPMessage.printTo (calls.foldl (fun h c => setHeaderField h c.1 c.2) []) []
          = ((getHeaderSet (calls.foldl (fun h c => setHeaderField h c.1 c.2) [])).map
              fun f => f.1 ++ ": ".toList ++ f.2 ++ "\r\n".toList).flatten ++ "\r\n".toList
      ∧ HTTPMessage.printTo
          (setHeaderField (setHeaderField [] "Zeta".toList "1".toList) "Alpha".toList "2".toList)
          [] = "Alpha: 2\r\nZeta: 1\r\n\r\n".toList := by
  have hord := foldl_setHeaderField_ordered calls [] List.Pairwise.nil
  refine ⟨hord, names_nodup_of_ordered _ hord, ?_, ?_, by decide⟩
  · intro calls' hp hn
    exact foldl_setHeaderField_perm calls calls' hp hn []
  · generalize calls.foldl (fun h c => setHeaderField h c.1 c.2) [] = store
    rw [printTo_eq, List.nil_append]
    unfold getHeaderSet
    induction store with
    | nil => rfl
    | cons f rest ih =>
      obtain ⟨name, value⟩ := f
      simp only [HTTPMessage.print, ih, List.map_cons, List.flatten_cons, List.append_assoc]
      rfl

/-- C22: `HTTPMessage::print(std::string&)` appends to the output, for the fields that
`getHeaderSet` gives and in that order, the name, ": ", the value and CRLF, and then one
more CRLF; for an empty header map it appends CRLF alone. -/
theorem HTTPMessage_print_appends (headers : Headers) (outputString : Str) :
    HTTPMessage.printTo headers outputString
        = outputString
          ++ ((getHeaderSet headers).map
              fun f => f.1 ++ ": ".toList ++ f.2 ++ "\r\n".toList).flatten
          ++ "\r\n".toList
      ∧ HTTPMessage.printTo [] outputString = outputString ++ "\r\n".toList := by
  refine ⟨?_, rfl⟩
  unfold getHeaderSet
  induction headers generalizing outputString with
  | nil => simp [HTTPMessage.printTo, lineEnding]
  | cons f rest ih =>
    obtain ⟨name, value⟩ := f
    simp only [HTTPMessage.printTo, ih, List.map_cons, List.flatten_cons, List.append_assoc]
    rfl

/-- C23: `HTTPRequest::print(std::string&)` leaves in the output, whatever it held before,
the method, a space, the target, a space, the version and CRLF, followed by what
`HTTPMessage::print` writes for the header map. -/
theorem HTTPRequest_print_sets (r : HTTPRequest) (outputString : Str) :
    HTTPRequest.printTo r outputString
        = r.method ++ " ".toList ++ r.path ++ " ".toList ++ r.version ++ "\r\n".toList
          ++ HTTPMessage.printTo r.headers []
      ∧ HTTPRequest.printTo r outputString = HTTPRequest.print r := by
  constructor
  · unfold HTTPRequest.printTo
    rw [printTo_eq, printTo_eq, List.nil_append]
    rfl
  · unfold HTTPRequest.printTo HTTPRequest.print
    rw [printTo_eq]

/-- C24: `HTTPResponse::print(std::string&)` leaves in the output the version, a space, the
status code in decimal (a numeral whose value is the code, without leading zero), a space,
the status description and CRLF, followed by what `HTTPMessage::print` writes for the
header map; two responses that agree on version, code, description and headers print the
same text, whatever their contents are. -/
theorem HTTPResponse_print_line (r r' : HTTPResponse) (outputString outputString' : Str) :
    HTTPResponse.print r outputString
        = r.version ++ " ".toList ++ putUnsigned r.statusCode ++ " ".toList ++ r.statusDesc
          ++ "\r\n".toList ++ HTTPMessage.printTo r.headers []
      ∧ IsNumeral 10 (putUnsigned r.statusCode)
      ∧ numeralValue 10 (putUnsigned r.statusCode) = r.statusCode
      ∧ (r.statusCode ≠ 0 → (putUnsigned r.statusCode).head? ≠ some '0')
      ∧ (r'.version = r.version → r'.statusCode = r.statusCode →
          r'.statusDesc = r.statusDesc → r'.headers = r.headers →
          HTTPResponse.print r' outputString' = HTTPResponse.print r outputString)
      ∧ HTTPResponse.print
          { statusCode := 404, version := "HTTP/1.1".toList, statusDesc := "Not Found".toList,
            content := "<html>".toList, chunked := none,
            headers := [("Host".toList, "x".toList)] } "old".toList
          = "HTTP/1.1 404 Not Found\r\nHost: x\r\n\r\n".toList := by
  obtain ⟨h1, h2, h3⟩ := putUnsigned_numeral r.statusCode
  refine ⟨?_, h1, h2, h3, ?_, by decide⟩
  · unfold HTTPResponse.print
    rw [printTo_eq, printTo_eq, List.nil_append]
    rfl
  · intro hv hc hd hh
    unfold HTTPResponse.print
    rw [hv, hc, hd, hh]

/-! ## The standard response -/

theorem extractInt_putUnsigned (old : Int) (n : Nat) (hn : n < 2 ^ 31) :
    extractInt 10 old (putUnsigned n) = (n : Int) := by
  obtain ⟨h1, h2, _⟩ := putUnsigned_numeral n
  have h := extractInt_numeral 10 old (putUnsigned n) [] h1
    (by intro x hx; simp at hx) (Or.inl rfl)
  rw [List.append_nil, h2] at h
  rw [h, if_neg (by omega)]

/-- C25: for every content length and status code the response that
`createStandardResponse` returns has the headers Content-Encoding "identity",
Transfer-Encoding "identity", Connection "close" and Content-Length the decimal text of the
content length (a numeral whose value is the content length); `getContentLen` returns the
content length when that is below 2^31. -/
theorem createStandardResponse_headers (date timeBuffer : Str) (contentLen statusCode : Nat)
    (statusDesc version : Str) :
    getHeaderValue
        (HTTPResponse.createStandardResponse date timeBuffer contentLen statusCode statusDesc
          version).headers "Content-Encoding".toList = some "identity".toList
      ∧ getHeaderValue
        (HTTPResponse.createStandardResponse date timeBuffer contentLen statusCode statusDesc
          version).headers "Transfer-Encoding".toList = some "identity".toList
      ∧ getHeaderValue
        (HTTPResponse.createStandardResponse date timeBuffer contentLen statusCode statusDesc
          version).headers "Connection".toList = some "close".toList
      ∧ getHeaderValue
        (HTTPResponse.createStandardResponse date timeBuffer contentLen statusCode statusDesc
          version).headers "Content-Length".toList = some (putUnsigned contentLen)
      ∧ IsNumeral 10 (putUnsigned contentLen)
      ∧ numeralValue 10 (putUnsigned contentLen) = contentLen
      ∧ (contentLen < 2 ^ 31 →
          (HTTPResponse.createStandardResponse date timeBuffer contentLen statusCode statusDesc
            version).getContentLen = (contentLen : Int))
      ∧ (HTTPResponse.createStandardResponse "Sun, 06 Nov 1994 08:49:37 GMT".toList
            "Sun, 06 Nov 1994 08:49:37 GMT".toList 1234 200 [] "HTTP/1.1".toList).getContentLen
          = 1234 := by
  obtain ⟨h1, h2, _⟩ := putUnsigned_numeral contentLen
  have hlen : getHeaderValue
      (HTTPResponse.createStandardResponse date timeBuffer contentLen statusCode statusDesc
        version).headers "Content-Length".toList = some (putUnsigned contentLen) := by
    unfold HTTPResponse.createStandardResponse
    exact getHeaderValue_set_same _ _ _
  refine ⟨?_, ?_, ?_, hlen, h1, h2, ?_, by decide⟩
  · unfold HTTPResponse.createStandardResponse
    dsimp only
    rw [getHeaderValue_set_other _ _ _ _ (by decide), getHeaderValue_set_other _ _ _ _ (by decide),
      getHeaderValue_set_other _ _ _ _ (by decide), getHeaderValue_set_other _ _ _ _ (by decide),
      getHeaderValue_set_same]
  · unfold HTTPResponse.createStandardResponse
    dsimp only
    rw [getHeaderValue_set_other _ _ _ _ (by decide), getHeaderValue_set_other _ _ _ _ (by decide),
      getHeaderValue_set_other _ _ _ _ (by decide), getHeaderValue_set_same]
  · unfold HTTPResponse.createStandardResponse
    dsimp only
    rw [getHeaderValue_set_other _ _ _ _ (by decide), getHeaderValue_set_other _ _ _ _ (by decide),
      getHeaderValue_set_same]
  · intro hn
    unfold HTTPResponse.getContentLen
    rw [hlen]
    exact extractInt_putUnsigned 0 contentLen hn

/-- C26: the constructor called without a description leaves as description the entry of
the table of `buildStatus` for the codes 200, 400, 403, 404, 500, 501 and 503, and the one
text for an unrecognized code for every other code, such as 0 (the default argument) and
201. -/
theorem construct_default_description (date version content : Str) (c : Nat) :
    (HTTPResponse.construct date 200 [] version content).statusDesc = "OK".toList
      ∧ (HTTPResponse.construct date 400 [] version content).statusDesc = "Bad request".toList
      ∧ (HTTPResponse.construct date 403 [] version content).statusDesc = "Forbidden".toList
      ∧ (HTTPResponse.construct date 404 [] version content).statusDesc = "Not Found".toList
      ∧ (HTTPResponse.construct date 500 [] version content).statusDesc
          = "Internal server error".toList
      ∧ (HTTPResponse.construct date 501 [] version content).statusDesc
          = "Not implemented".toList
      ∧ (HTTPResponse.construct date 503 [] version content).statusDesc
          = "Service unavailable".toList
      ∧ (c ∉ [200, 400, 403, 404, 500, 501, 503] →
          (HTTPResponse.construct date c [] version content).statusDesc
            = "Code not implemented/recognized".toList)
      ∧ (HTTPResponse.construct date 0 [] version content).statusDesc
          = "Code not implemented/recognized".toList
      ∧ (HTTPResponse.construct date 201 [] version content).statusDesc
          = "Code not implemented/recognized".toList := by
  refine ⟨rfl, rfl, rfl, rfl, rfl, rfl, rfl, ?_, rfl, rfl⟩
  intro hc
  simp only [List.mem_cons, List.mem_singleton, List.not_mem_nil, or_false, not_or] at hc
  obtain ⟨c1, c2, c3, c4, c5, c6, c7⟩ := hc
  show buildStatus c = _
  unfold buildStatus
  split <;> first | rfl | contradiction

/-- C27 at `createStandardResponse(0, 404, "Gone fishing", "HTTP/1.0")` and at the
constructor with the same arguments: the description of the response is the table entry
"Not Found" and its version is "HTTP/1.1", not the arguments. -/
theorem construct_ignores_description :
    (HTTPResponse.createStandardResponse "Sun, 06 Nov 1994 08:49:37 GMT".toList
        "Sun, 06 Nov 1994 08:49:37 GMT".toList 0 404 "Gone fishing".toList
        "HTTP/1.0".toList).statusDesc = "Not Found".toList
      ∧ (HTTPResponse.createStandardResponse "Sun, 06 Nov 1994 08:49:37 GMT".toList
        "Sun, 06 Nov 1994 08:49:37 GMT".toList 0 404 "Gone fishing".toList
        "HTTP/1.0".toList).version = "HTTP/1.1".toList
      ∧ (HTTPResponse.construct "Sun, 06 Nov 1994 08:49:37 GMT".toList 404
        "Gone fishing".toList "HTTP/1.0".toList []).statusDesc = "Not Found".toList
      ∧ (HTTPResponse.construct "Sun, 06 Nov 1994 08:49:37 GMT".toList 404
        "Gone fishing".toList "HTTP/1.0".toList []).version = "HTTP/1.1".toList := by
  decide

/-! ## The matcher of the header boundary -/

theorem matchHeaderEnd_done (piece : Str) (i r : Nat) (h : headerEnd.length ≤ r) :
    matchHeaderEnd piece i r = (i, r) := by
  cases piece with
  | nil => rfl
  | cons c piece => simp [matchHeaderEnd, Nat.not_lt.mpr h]

theorem matchHeaderEnd_all : ∀ (piece : Str) (i r : Nat),
    (matchHeaderEnd piece i r).2 < headerEnd.length →
      (matchHeaderEnd piece i r).1 = i + piece.length := by
  intro piece
  induction piece with
  | nil => intro i r _; rfl
  | cons c piece ih =>
    intro i r h
    by_cases hr : r < headerEnd.length
    · by_cases hm : headerEnd.get? r = some c
      · simp only [matchHeaderEnd, hr, hm, if_true] at h ⊢
        rw [ih _ _ h, List.length_cons]; omega
      · simp only [matchHeaderEnd, hr, hm, if_true, if_false] at h ⊢
        rw [ih _ _ h, List.length_cons]; omega
    · rw [matchHeaderEnd_done _ _ _ (Nat.le_of_not_lt hr)] at h
      exact absurd h hr

theorem matchHeaderEnd_append : ∀ (p q : Str) (i r : Nat),
    matchHeaderEnd (p ++ q) i r
      = if (matchHeaderEnd p i r).2 < headerEnd.length
        then matchHeaderEnd q (i + p.length) (matchHeaderEnd p i r).2
        else matchHeaderEnd p i r := by
  intro p
  induction p with
  | nil =>
    intro q i r
    by_cases hr : r < headerEnd.length
    · simp [matchHeaderEnd, hr]
    · simp only [List.nil_append, matchHeaderEnd, hr, if_false]
      exact matchHeaderEnd_done _ _ _ (Nat.le_of_not_lt hr)
  | cons c p ih =>
    intro q i r
    by_cases hr : r < headerEnd.length
    · by_cases hm : headerEnd.get? r = some c
      · rw [List.cons_append]
        simp only [matchHeaderEnd, hr, hm, if_true, List.length_cons]
        rw [ih, show i + 1 + p.length = i + (p.length + 1) by omega]
      · rw [List.cons_append]
        simp only [matchHeaderEnd, hr, hm, if_true, if_false, List.length_cons]
        rw [ih, show i + 1 + p.length = i + (p.length + 1) by omega]
    · rw [matchHeaderEnd_done _ _ _ (Nat.le_of_not_lt hr),
        matchHeaderEnd_done _ _ _ (Nat.le_of_not_lt hr), if_neg hr]

theorem headerEnd_take_succ (r : Nat) (c : Char) (hr : r < headerEnd.length)
    (hm : headerEnd.get? r = some c) : headerEnd.take (r + 1) = headerEnd.take r ++ [c] := by
  have hr4 : r < 4 := hr
  interval_cases r <;> simp [headerEnd] at hm <;> subst hm <;> rfl

theorem matchHeaderEnd_sound : ∀ (piece buffer : Str) (r : Nat), r ≤ headerEnd.length →
    headerEnd.take r <:+ buffer →
    (matchHeaderEnd piece buffer.length r).2 ≤ headerEnd.length
      ∧ (matchHeaderEnd piece buffer.length r).1 ≤ buffer.length + piece.length
      ∧ headerEnd.take (matchHeaderEnd piece buffer.length r).2
          <:+ (buffer ++ piece).take (matchHeaderEnd piece buffer.length r).1 := by
  intro piece
  induction piece with
  | nil =>
    intro buffer r hr hs
    simpa [matchHeaderEnd] using ⟨hr, hs⟩
  | cons c piece ih =>
    intro buffer r hr hs
    have hlen : (buffer ++ [c]).length = buffer.length + 1 := by simp
    have happ : (buffer ++ [c]) ++ piece = buffer ++ c :: piece := by simp
    by_cases hlt : r < headerEnd.length
    · by_cases hm : headerEnd.get? r = some c
      · have hs' : headerEnd.take (r + 1) <:+ buffer ++ [c] := by
          rw [headerEnd_take_succ r c hlt hm]
          obtain ⟨t, ht⟩ := hs
          exact ⟨t, by rw [← ht, List.append_assoc]⟩
        have h := ih (buffer ++ [c]) (r + 1) hlt hs'
        rw [hlen, happ] at h
        simp only [matchHeaderEnd, hlt, hm, if_true]
        exact ⟨h.1, by rw [List.length_cons]; omega, h.2.2⟩
      · have h := ih (buffer ++ [c]) 0 (Nat.zero_le _) List.nil_suffix
        rw [hlen, happ] at h
        simp only [matchHeaderEnd, hlt, hm, if_true, if_false]
        exact ⟨h.1, by rw [List.length_cons]; omega, h.2.2⟩
    · rw [matchHeaderEnd_done _ _ _ (Nat.le_of_not_lt hlt)]
      refine ⟨hr, Nat.le_add_right _ _, ?_⟩
      rw [List.take_left']
      · exact hs
      · rfl

/-! ## The loop of `receiveHeaders` -/

theorem receiveHeadersLoop_full (bufferLen : Nat) (reads : List (Option Str)) (buffer : Str)
    (r t : Nat) (h : ¬ buffer.length < bufferLen) :
    receiveHeadersLoop bufferLen reads buffer r t = some (-1, buffer.length, buffer) := by
  cases reads <;> simp [receiveHeadersLoop, h]

theorem receiveHeadersLoop_error (bufferLen : Nat) (reads : List (Option Str)) (buffer : Str)
    (r t : Nat) (h : buffer.length < bufferLen) :
    receiveHeadersLoop bufferLen (none :: reads) buffer r t = some (-1, t, buffer) := by
  simp [receiveHeadersLoop, h]

theorem receiveHeadersLoop_found (bufferLen : Nat) (reads : List (Option Str))
    (ready buffer : Str) (r t : Nat) (h : buffer.length < bufferLen)
    (hf : headerEnd.length
      ≤ (matchHeaderEnd (ready.take (bufferLen - buffer.length)) buffer.length r).2) :
    receiveHeadersLoop bufferLen (some ready :: reads) buffer r t
      = some (((matchHeaderEnd (ready.take (bufferLen - buffer.length)) buffer.length r).1 : Int),
          buffer.length + (ready.take (bufferLen - buffer.length)).length,
          buffer ++ ready.take (bufferLen - buffer.length)) := by
  simp only [receiveHeadersLoop, h, hf, if_true]

theorem receiveHeadersLoop_next (bufferLen : Nat) (reads : List (Option Str))
    (ready buffer : Str) (r t : Nat) (h : buffer.length < bufferLen)
    (hf : (matchHeaderEnd (ready.take (bufferLen - buffer.length)) buffer.length r).2
      < headerEnd.length) :
    receiveHeadersLoop bufferLen (some ready :: reads) buffer r t
      = receiveHeadersLoop bufferLen reads (buffer ++ ready.take (bufferLen - buffer.length))
          (matchHeaderEnd (ready.take (bufferLen - buffer.length)) buffer.length r).2 t := by
  simp only [receiveHeadersLoop, h, Nat.not_le.mpr hf, if_true, if_false]

theorem take_capacity (buffer ready X : Str) (cap : Nat) (h : buffer.length ≤ cap) :
    (buffer ++ ready.take (cap - buffer.length) ++ X).take cap
      = (buffer ++ ready ++ X).take cap := by
  by_cases hl : ready.length ≤ cap - buffer.length
  · rw [List.take_of_length_le hl]
  · have hA : (buffer ++ ready.take (cap - buffer.length)).length = cap := by
      rw [List.length_append, List.length_take]; omega
    have hsplit : buffer ++ ready ++ X
        = (buffer ++ ready.take (cap - buffer.length))
          ++ (ready.drop (cap - buffer.length) ++ X) := by
      conv_lhs => rw [← List.take_append_drop (cap - buffer.length) ready]
      simp only [List.append_assoc]
    rw [hsplit, List.take_left' hA, List.take_left' hA]

theorem receiveHeadersLoop_sound (bufferLen : Nat) :
    ∀ (reads : List (Option Str)) (buffer : Str) (r t : Nat) (pos : Int) (total : Nat)
      (buf : Str),
      r < headerEnd.length → headerEnd.take r <:+ buffer →
      receiveHeadersLoop bufferLen reads buffer r t = some (pos, total, buf) → 0 ≤ pos →
      ∃ (used : List Str) (rest : List (Option Str)) (p : Nat),
        reads = used.map some ++ rest ∧ buf = (buffer ++ used.flatten).take bufferLen
          ∧ total = buf.length ∧ pos = (p : Int) ∧ p ≤ total ∧ headerEnd <:+ buf.take p := by
  intro reads
  induction reads with
  | nil =>
    intro buffer r t pos total buf _ _ h hpos
    by_cases hb : buffer.length < bufferLen
    · simp [receiveHeadersLoop, hb] at h
    · rw [receiveHeadersLoop_full _ _ _ _ _ hb] at h
      simp only [Option.some.injEq, Prod.mk.injEq] at h
      omega
  | cons r0 reads ih =>
    intro buffer r t pos total buf hr hs h hpos
    by_cases hb : buffer.length < bufferLen
    · cases r0 with
      | none =>
        rw [receiveHeadersLoop_error _ _ _ _ _ hb] at h
        simp only [Option.some.injEq, Prod.mk.injEq] at h
        omega
      | some ready =>
        obtain ⟨h4, hle, hsuf⟩ := matchHeaderEnd_sound
          (ready.take (bufferLen - buffer.length)) buffer r (Nat.le_of_lt hr) hs
        have hpl : (ready.take (bufferLen - buffer.length)).length ≤ bufferLen - buffer.length :=
          List.length_take_le _ _
        by_cases hf : headerEnd.length
            ≤ (matchHeaderEnd (ready.take (bufferLen - buffer.length)) buffer.length r).2
        · rw [receiveHeadersLoop_found _ _ _ _ _ _ hb hf] at h
          simp only [Option.some.injEq, Prod.mk.injEq] at h
          obtain ⟨h1, h2, h3⟩ := h
          refine ⟨[ready], reads, _, rfl, ?_, ?_, h1.symm, ?_, ?_⟩
          · have ht := take_capacity buffer ready [] bufferLen (Nat.le_of_lt hb)
            rw [List.append_nil, List.append_nil, List.take_of_length_le] at ht
            · rw [← h3, ht]; simp
            · rw [List.length_append]; omega
          · rw [← h2, ← h3, List.length_append]
          · rw [← h2]; exact hle
          · rw [← h3]
            have he : (matchHeaderEnd (ready.take (bufferLen - buffer.length)) buffer.length r).2
                = headerEnd.length := Nat.le_antisymm h4 hf
            rw [he, List.take_length] at hsuf
            exact hsuf
        · have hf' := Nat.lt_of_not_le hf
          rw [receiveHeadersLoop_next _ _ _ _ _ _ hb hf'] at h
          have hall := matchHeaderEnd_all _ _ _ hf'
          rw [hall, ← List.length_append, List.take_length] at hsuf
          obtain ⟨used, rest, p, e1, e2, e3, e4, e5, e6⟩ := ih _ _ t pos total buf hf' hsuf h hpos
          refine ⟨ready :: used, rest, p, ?_, ?_, e3, e4, e5, e6⟩
          · rw [e1]; rfl
          · rw [e2, take_capacity buffer ready used.flatten bufferLen (Nat.le_of_lt hb)]
            simp only [List.flatten_cons, List.append_assoc]
    · rw [receiveHeadersLoop_full _ _ _ _ _ hb] at h
      simp only [Option.some.injEq, Prod.mk.injEq] at h
      omega

theorem receiveHeadersLoop_filled (bufferLen : Nat) :
    ∀ (used : List Str) (rest : List (Option Str)) (buffer : Str) (r t : Nat),
      buffer.length ≤ bufferLen → bufferLen ≤ buffer.length + used.flatten.length →
      (matchHeaderEnd (used.flatten.take (bufferLen - buffer.length)) buffer.length r).2
        < headerEnd.length →
      receiveHeadersLoop bufferLen (used.map some ++ rest) buffer r t
        = some (-1, bufferLen, buffer ++ used.flatten.take (bufferLen - buffer.length)) := by
  intro used
  induction used with
  | nil =>
    intro rest buffer r t h1 h2 _
    have hb : buffer.length = bufferLen := by
      simp only [List.flatten_nil, List.length_nil, Nat.add_zero] at h2; omega
    rw [receiveHeadersLoop_full _ _ _ _ _ (by omega), hb]
    simp
  | cons u used ih =>
    intro rest buffer r t h1 h2 h3
    by_cases hb : buffer.length < bufferLen
    · have htake : (u ++ used.flatten).take (bufferLen - buffer.length)
          = u.take (bufferLen - buffer.length)
            ++ used.flatten.take (bufferLen - buffer.length - u.length) :=
        List.take_append_eq_append_take
      have hlen : (buffer ++ u.take (bufferLen - buffer.length)).length
          = buffer.length + min (bufferLen - buffer.length) u.length := by
        rw [List.length_append, List.length_take]
      have hsub : bufferLen - (buffer ++ u.take (bufferLen - buffer.length)).length
          = bufferLen - buffer.length - u.length := by
        rw [hlen]; omega
      rw [List.flatten_cons, htake, matchHeaderEnd_append] at h3
      by_cases hf : (matchHeaderEnd (u.take (bufferLen - buffer.length)) buffer.length r).2
          < headerEnd.length
      · rw [if_pos hf] at h3
        rw [List.map_cons, List.cons_append, receiveHeadersLoop_next _ _ _ _ _ _ hb hf,
          ih rest _ _ t (by rw [hlen]; omega)
            (by rw [hlen]; rw [List.flatten_cons, List.length_append] at h2; omega)
            (by rw [hsub, List.length_append]; exact h3),
          hsub, List.flatten_cons, htake, List.append_assoc]
      · rw [if_neg hf] at h3
        exact absurd h3 hf
    · have hb' : buffer.length = bufferLen := by omega
      rw [receiveHeadersLoop_full _ _ _ _ _ hb, hb']
      simp

/-! ## The statements of the specification on the socket -/

/-- C28: when `readHeader` returns, the read results it consumed were all data, the text
appended to `header` followed by the text appended to `data` is the bytes of those results
in order (up to the capacity `BUFFER_SIZE - 1` of the buffer), the text appended to `header`
ends with CR LF CR LF, and `receiveHeaders` has returned its length, which is at least 4
and at most the total received.  When the read results fill the capacity and the matcher
has not counted four bytes on them, `readHeader` throws. -/
theorem readHeader_splits (BUFFER_SIZE : Nat) (reads : List (Option Str))
    (header data header' data' : Str)
    (hret : TCPSocket.readHeader BUFFER_SIZE reads header data = .returned (header', data')) :
    (∃ (used : List Str) (rest : List (Option Str)) (h b : Str),
        reads = used.map some ++ rest
          ∧ header' = header ++ h ∧ data' = data ++ b
          ∧ h ++ b = used.flatten.take (BUFFER_SIZE - 1)
          ∧ headerEnd <:+ h
          ∧ 4 ≤ h.length ∧ h.length ≤ (h ++ b).length
          ∧ TCPSocket.receiveHeaders reads (BUFFER_SIZE - 1) 0
              = some ((h.length : Int), (h ++ b).length, h ++ b))
      ∧ (∀ (pieces : List Str) (after : List (Option Str)) (header0 data0 : Str),
          BUFFER_SIZE - 1 ≤ pieces.flatten.length →
          (matchHeaderEnd (pieces.flatten.take (BUFFER_SIZE - 1)) 0 0).2 < headerEnd.length →
          TCPSocket.readHeader BUFFER_SIZE (pieces.map some ++ after) header0 data0
            = .thrown) := by
  refine ⟨?_, ?_⟩
  · unfold TCPSocket.readHeader at hret
    cases hrec : TCPSocket.receiveHeaders reads (BUFFER_SIZE - 1) 0 with
    | none =>
      rw [hrec] at hret
      cases hret
    | some res =>
      obtain ⟨pos, total, buf⟩ := res
      rw [hrec] at hret
      dsimp only at hret
      by_cases hneg : pos < 0
      · rw [if_pos hneg] at hret
        cases hret
      · rw [if_neg hneg] at hret
        obtain ⟨used, rest, p, e1, e2, e3, e4, e5, e6⟩ :=
          receiveHeadersLoop_sound (BUFFER_SIZE - 1) reads [] 0 0 pos total buf (by decide)
            List.nil_suffix hrec (by omega)
        subst e4
        simp only [Int.toNat_ofNat, Outcome.returned.injEq, Prod.mk.injEq] at hret
        obtain ⟨hh, hd⟩ := hret
        have hdrop : (buf.drop p).take (total - p) = buf.drop p := by
          apply List.take_of_length_le
          rw [List.length_drop, e3]
        have hlen : (buf.take p).length = p := by
          rw [List.length_take]; omega
        refine ⟨used, rest, buf.take p, buf.drop p, e1, hh.symm, ?_, ?_, e6, ?_, ?_, ?_⟩
        · rw [← hd, hdrop]
        · rw [List.take_append_drop, e2, List.nil_append]
        · exact e6.length_le
        · rw [hlen, List.take_append_drop, ← e3]
          exact e5
        · rw [hlen, List.take_append_drop, ← e3]
  · intro pieces after header0 data0 h1 h2
    unfold TCPSocket.readHeader TCPSocket.receiveHeaders
    rw [receiveHeadersLoop_filled (BUFFER_SIZE - 1) pieces after [] 0 0 (Nat.zero_le _)
      (by simpa using h1) (by simpa using h2)]
    rfl

/-- C28 with a buffer of 24 bytes: the header "GET / HTTP/1.0" arrives in two reads that cut
its end in two, with four more bytes behind it; and three reads of digits, which fill the
buffer without an end of header, make `readHeader` throw. -/
theorem readHeader_splits_witness :
    TCPSocket.readHeader 24 [some "GET / HTTP/1.0\r\n".toList, some "\r\nrest".toList] [] []
        = .returned ("GET / HTTP/1.0\r\n\r\n".toList, "rest".toList)
      ∧ (∃ (used : List Str) (rest : List (Option Str)) (h b : Str),
          [some "GET / HTTP/1.0\r\n".toList, some "\r\nrest".toList] = used.map some ++ rest
            ∧ "GET / HTTP/1.0\r\n\r\n".toList = [] ++ h ∧ "rest".toList = [] ++ b
            ∧ h ++ b = used.flatten.take (24 - 1)
            ∧ headerEnd <:+ h
            ∧ 4 ≤ h.length ∧ h.length ≤ (h ++ b).length
            ∧ TCPSocket.receiveHeaders
                [some "GET / HTTP/1.0\r\n".toList, some "\r\nrest".toList] (24 - 1) 0
                = some ((h.length : Int), (h ++ b).length, h ++ b))
      ∧ TCPSocket.readHeader 24
          (["0123456789".toList, "0123456789".toList, "0123".toList].map some ++ []) [] []
          = .thrown :=
  ⟨by decide,
    (readHeader_splits 24 [some "GET / HTTP/1.0\r\n".toList, some "\r\nrest".toList] [] []
      "GET / HTTP/1.0\r\n\r\n".toList "rest".toList (by decide)).1,
    (readHeader_splits 24 [some "GET / HTTP/1.0\r\n".toList, some "\r\nrest".toList] [] []
      "GET / HTTP/1.0\r\n\r\n".toList "rest".toList (by decide)).2
      ["0123456789".toList, "0123456789".toList, "0123".toList] [] [] []
      (by decide) (by decide)⟩

/-- C29: the matcher of `receiveHeaders` is not aware of overlaps.  The five bytes
CR CR LF CR LF contain CR LF CR LF; the counter, 1 after the first CR, is set to 0 by the
second; whenever the capacity is at least 5, `receiveHeaders` takes the five bytes in one
read and goes on reading with the counter at 2 and no end found; with the capacity 5 it
returns -1 with 5 bytes received, and `readHeader` throws. -/
theorem receiveHeaders_not_overlap_aware (bufferLen totalReceivedLen : Nat)
    (reads : List (Option Str)) (hcap : 5 ≤ bufferLen) :
    headerEnd <:+: ['\r', '\r', '\n', '\r', '\n']
      ∧ ['\r', '\r', '\n', '\r', '\n'].length ≤ bufferLen
      ∧ matchHeaderEnd ['\r'] 0 0 = (1, 1)
      ∧ matchHeaderEnd ['\r', '\r'] 0 0 = (2, 0)
      ∧ TCPSocket.receiveHeaders (some ['\r', '\r', '\n', '\r', '\n'] :: reads) bufferLen
          totalReceivedLen
          = receiveHeadersLoop bufferLen reads ['\r', '\r', '\n', '\r', '\n'] 2 totalReceivedLen
      ∧ TCPSocket.receiveHeaders (some ['\r', '\r', '\n', '\r', '\n'] :: reads) 5
          totalReceivedLen = some (-1, 5, ['\r', '\r', '\n', '\r', '\n'])
      ∧ TCPSocket.readHeader 6 (some ['\r', '\r', '\n', '\r', '\n'] :: reads) [] []
          = .thrown := by
  have ht : ∀ n, 5 ≤ n → (['\r', '\r', '\n', '\r', '\n'] : Str).take (n - ([] : Str).length)
      = ['\r', '\r', '\n', '\r', '\n'] := by
    intro n hn
    apply List.take_of_length_le
    simp only [List.length_cons, List.length_nil]
    omega
  have hloop : ∀ n t, 5 ≤ n →
      TCPSocket.receiveHeaders (some ['\r', '\r', '\n', '\r', '\n'] :: reads) n t
        = receiveHeadersLoop n reads ['\r', '\r', '\n', '\r', '\n'] 2 t := by
    intro n t hn
    unfold TCPSocket.receiveHeaders
    rw [receiveHeadersLoop_next n reads ['\r', '\r', '\n', '\r', '\n'] [] 0 t
      (by simp only [List.length_nil]; omega) (by rw [ht n hn]; decide), ht n hn]
    rfl
  have h5 : ∀ t, TCPSocket.receiveHeaders (some ['\r', '\r', '\n', '\r', '\n'] :: reads) 5 t
      = some (-1, 5, ['\r', '\r', '\n', '\r', '\n']) := by
    intro t
    rw [hloop 5 t (Nat.le_refl 5), receiveHeadersLoop_full _ _ _ _ _ (by decide)]
    rfl
  refine ⟨by decide, hcap, by decide, by decide, hloop bufferLen totalReceivedLen hcap,
    h5 totalReceivedLen, ?_⟩
  unfold TCPSocket.readHeader
  rw [show 6 - 1 = 5 from rfl, h5 0]
  rfl

/-- C29 with the capacity 8 and a read of CR LF behind the five bytes: `receiveHeaders`
reports the end of the header at 7 only, where the line ending of the next read completes
the count. -/
theorem receiveHeaders_not_overlap_aware_witness :
    5 ≤ 8
      ∧ TCPSocket.receiveHeaders [some ['\r', '\r', '\n', '\r', '\n'], some ['\r', '\n']] 8 0
          = receiveHeadersLoop 8 [some ['\r', '\n']] ['\r', '\r', '\n', '\r', '\n'] 2 0
      ∧ TCPSocket.receiveHeaders [some ['\r', '\r', '\n', '\r', '\n'], some ['\r', '\n']] 8 0
          = some (7, 7, ['\r', '\r', '\n', '\r', '\n', '\r', '\n']) :=
  ⟨by decide,
    (receiveHeaders_not_overlap_aware 8 0 [some ['\r', '\n']] (by decide)).2.2.2.2.1,
    by decide⟩

/-- C30 at inputs on which `readLine` returns one more than it stored: the peer closes
after the byte "a" (2 is returned, 1 byte is stored); three bytes are ready and `maxLen` is
3 (3 is returned, 2 bytes are stored); `maxLen` is 1 (1 is returned, nothing is read).  On a
line feed the stored count is returned, and 0 when the peer closes at once. -/
theorem readLine_returns_one_more :
    TCPSocket.readLine [.byte 'a', .closed] 10 = some (2, ['a'])
      ∧ TCPSocket.readLine [.byte 'a', .byte 'b', .byte 'c'] 3 = some (3, ['a', 'b'])
      ∧ TCPSocket.readLine [.byte 'a'] 1 = some (1, [])
      ∧ TCPSocket.readLine [.byte 'a', .byte '\n'] 10 = some (2, ['a', '\n'])
      ∧ TCPSocket.readLine [.closed] 10 = some (0, []) := by
  decide
/-! ## Printing into a character buffer -/

theorem cstr_of_no_nul (s : Str) (h : '\x00' ∉ s) : cstr s = s := by
  unfold cstr
  rw [List.takeWhile_eq_self_iff]
  intro c hc
  simp only [bne_iff_ne, ne_eq]
  intro e
  exact h (e ▸ hc)

theorem copyIfRoom_text (T p : Str) (n : Nat) (t : Bool) :
    copyIfRoom { written := T.take n, remainingLength := n - T.length, terminated := t } p
      = { written := (T ++ cstr p).take n, remainingLength := n - (T ++ cstr p).length,
          terminated := t || decide (T.length < n) } := by
  unfold copyIfRoom
  generalize cstr p = q
  by_cases h : n - T.length = 0
  · have hle : n ≤ T.length := by omega
    simp only [h, if_true]
    have h1 : (T ++ q).take n = T.take n := by
      rw [List.take_append_of_le_length hle]
    have h2 : n - (T ++ q).length = 0 := by rw [List.length_append]; omega
    have h3 : decide (T.length < n) = false := by simp; omega
    rw [h1, h2, h3, Bool.or_false]
  · have hlt : T.length < n := by omega
    simp only [h, if_false]
    have h3 : decide (T.length < n) = true := by simp; omega
    rw [h3, Bool.or_true, List.take_of_length_le (Nat.le_of_lt hlt)]
    by_cases hq : n - T.length < q.length
    · simp only [hq, if_true]
      congr 1
      · rw [List.take_append_eq_append_take, List.take_of_length_le (Nat.le_of_lt hlt)]
      · rw [List.length_append]; omega
    · simp only [hq, if_false]
      congr 1
      · rw [List.take_of_length_le (Nat.le_refl _), List.take_of_length_le]
        rw [List.length_append]; omega
      · rw [List.length_append]; omega

theorem copyIfRoom_step (k : Nat) (T p : Str) (n : Nat) (t : Bool) (h : k ≤ T.length) :
    copyIfRoom { written := T.take n, remainingLength := n - T.length,
                 terminated := t || decide (k < n) } p
      = { written := (T ++ cstr p).take n, remainingLength := n - (T ++ cstr p).length,
          terminated := t || decide (k < n) } := by
  rw [copyIfRoom_text]
  congr 1
  by_cases h1 : T.length < n
  · have h0 : k < n := by omega
    simp [h0, h1]
  · simp [h1]

theorem printBuffer_text (n : Nat) (t : Bool) (k : Nat) : ∀ (headers : Headers) (T : Str),
    k ≤ T.length →
    HTTPMessage.printBuffer headers
        { written := T.take n, remainingLength := n - T.length,
          terminated := t || decide (k < n) }
      = { written :=
            (T ++ HTTPMessage.print (headers.map fun f => (cstr f.1, cstr f.2))).take n
          remainingLength :=
            n - (T ++ HTTPMessage.print (headers.map fun f => (cstr f.1, cstr f.2))).length
          terminated := t || decide (k < n) } := by
  intro headers
  induction headers with
  | nil =>
    intro T h
    simp only [HTTPMessage.printBuffer, List.map_nil, HTTPMessage.print]
    rw [copyIfRoom_step k T _ n t h]
    rfl
  | cons f rest ih =>
    intro T h
    obtain ⟨name, value⟩ := f
    simp only [HTTPMessage.printBuffer, List.map_cons, HTTPMessage.print]
    rw [copyIfRoom_step k T _ n t h,
      copyIfRoom_step k _ _ n t (by simp only [List.length_append]; omega),
      copyIfRoom_step k _ _ n t (by simp only [List.length_append]; omega),
      copyIfRoom_step k _ _ n t (by simp only [List.length_append]; omega),
      ih _ (by simp only [List.length_append]; omega)]
    have hd : cstr delimString = [headerDelimiter] ++ [' '] := by decide
    have hl : cstr lineEnding = lineEnding := by decide
    rw [hd, hl]
    simp only [List.append_assoc]

theorem map_cstr_of_no_nul (headers : Headers)
    (h : ∀ f ∈ headers, '\x00' ∉ f.1 ∧ '\x00' ∉ f.2) :
    (headers.map fun f => (cstr f.1, cstr f.2)) = headers := by
  induction headers with
  | nil => rfl
  | cons f rest ih =>
    rw [List.map_cons, ih (fun g hg => h g (List.mem_cons_of_mem _ hg)),
      cstr_of_no_nul _ (h f (List.mem_cons_self _ _)).1,
      cstr_of_no_nul _ (h f (List.mem_cons_self _ _)).2]

theorem putUnsigned_no_nul (n : Nat) : '\x00' ∉ putUnsigned n := by
  intro h
  have hd := (putUnsigned_numeral n).1.2 _ h
  exact absurd hd (by decide)

theorem HTTPRequest_printBuffer_eq (r : HTTPRequest) (n : Nat)
    (hm : '\x00' ∉ r.method) (hp : '\x00' ∉ r.path) (hv : '\x00' ∉ r.version)
    (hh : ∀ f ∈ r.headers, '\x00' ∉ f.1 ∧ '\x00' ∉ f.2) :
    HTTPRequest.printBuffer r n
      = { written := (HTTPRequest.printTo r []).take n
          remainingLength := n - (HTTPRequest.printTo r []).length
          terminated := decide (0 < n) } := by
  unfold HTTPRequest.printBuffer HTTPRequest.printTo
  have h0 := copyIfRoom_text [] r.method n false
  simp only [List.take_nil, List.length_nil, Nat.sub_zero, List.nil_append] at h0
  simp only []
  rw [h0, cstr_of_no_nul _ hm,
    copyIfRoom_step 0 _ _ n false (Nat.zero_le _),
    copyIfRoom_step 0 _ _ n false (Nat.zero_le _),
    copyIfRoom_step 0 _ _ n false (Nat.zero_le _),
    copyIfRoom_step 0 _ _ n false (Nat.zero_le _),
    copyIfRoom_step 0 _ _ n false (Nat.zero_le _),
    printBuffer_text n false 0 _ _ (Nat.zero_le _),
    map_cstr_of_no_nul _ hh, cstr_of_no_nul _ hp, cstr_of_no_nul _ hv, printTo_eq]
  have hs : cstr [' '] = [' '] := by decide
  have hl : cstr lineEnding = lineEnding := by decide
  rw [hs, hl]
  simp

theorem HTTPResponse_printBuffer_eq (r : HTTPResponse) (n : Nat)
    (hv : '\x00' ∉ r.version) (hd : '\x00' ∉ r.statusDesc)
    (hh : ∀ f ∈ r.headers, '\x00' ∉ f.1 ∧ '\x00' ∉ f.2) :
    HTTPResponse.printBuffer r n
      = { written := (HTTPResponse.print r []).take n
          remainingLength := n - (HTTPResponse.print r []).length
          terminated := decide (0 < n) } := by
  unfold HTTPResponse.printBuffer HTTPResponse.print
  have h0 := copyIfRoom_text [] r.version n false
  simp only [List.take_nil, List.length_nil, Nat.sub_zero, List.nil_append] at h0
  simp only []
  rw [h0, cstr_of_no_nul _ hv,
    copyIfRoom_step 0 _ _ n false (Nat.zero_le _),
    copyIfRoom_step 0 _ _ n false (Nat.zero_le _),
    copyIfRoom_step 0 _ _ n false (Nat.zero_le _),
    copyIfRoom_step 0 _ _ n false (Nat.zero_le _),
    copyIfRoom_step 0 _ _ n false (Nat.zero_le _),
    printBuffer_text n false 0 _ _ (Nat.zero_le _),
    map_cstr_of_no_nul _ hh, cstr_of_no_nul _ hd, cstr_of_no_nul _ (putUnsigned_no_nul _),
    printTo_eq]
  have hs : cstr [' '] = [' '] := by decide
  have hl : cstr lineEnding = lineEnding := by decide
  rw [hs, hl]
  simp

/-- C31: for a request and a response whose fields hold no NUL and a buffer length of at
least 1, `print(outputBuffer, bufferLength)` stores in the buffer exactly the first
`bufferLength` characters of the text that `print(std::string&)` produces (all of it when it
is shorter), that is min(bufferLength, L) characters, and a NUL behind them. -/
theorem printBuffer_truncates (r : HTTPRequest) (s : HTTPResponse) (bufferLength : Nat)
    (hlen : 1 ≤ bufferLength)
    (hm : '\x00' ∉ r.method) (hp : '\x00' ∉ r.path) (hv : '\x00' ∉ r.version)
    (hh : ∀ f ∈ r.headers, '\x00' ∉ f.1 ∧ '\x00' ∉ f.2)
    (hsv : '\x00' ∉ s.version) (hsd : '\x00' ∉ s.statusDesc)
    (hsh : ∀ f ∈ s.headers, '\x00' ∉ f.1 ∧ '\x00' ∉ f.2) :
    (HTTPRequest.printBuffer r bufferLength).written
        = (HTTPRequest.printTo r []).take bufferLength
      ∧ (HTTPRequest.printBuffer r bufferLength).written.length
        = min bufferLength (HTTPRequest.printTo r []).length
      ∧ (HTTPRequest.printBuffer r bufferLength).terminated = true
      ∧ (HTTPResponse.printBuffer s bufferLength).written
        = (HTTPResponse.print s []).take bufferLength
      ∧ (HTTPResponse.printBuffer s bufferLength).written.length
        = min bufferLength (HTTPResponse.print s []).length
      ∧ (HTTPResponse.printBuffer s bufferLength).terminated = true := by
  rw [HTTPRequest_printBuffer_eq r bufferLength hm hp hv hh,
    HTTPResponse_printBuffer_eq s bufferLength hsv hsd hsh]
  refine ⟨rfl, List.length_take _ _, ?_, rfl, List.length_take _ _, ?_⟩
  · exact decide_eq_true (by omega)
  · exact decide_eq_true (by omega)

/-- C31 with a buffer of 12 characters, for the request "GET / HTTP/1.1" with the header
"Host: x" and the response "HTTP/1.1 404 Not Found" with the same header. -/
theorem printBuffer_truncates_witness :
    ((HTTPRequest.printBuffer
          { method := "GET".toList, path := "/".toList, version := "HTTP/1.1".toList,
            headers := [("Host".toList, "x".toList)] } 12).written
        = (HTTPRequest.printTo
          { method := "GET".toList, path := "/".toList, version := "HTTP/1.1".toList,
            headers := [("Host".toList, "x".toList)] } []).take 12
      ∧ (HTTPRequest.printBuffer
          { method := "GET".toList, path := "/".toList, version := "HTTP/1.1".toList,
            headers := [("Host".toList, "x".toList)] } 12).written.length
        = min 12 (HTTPRequest.printTo
          { method := "GET".toList, path := "/".toList, version := "HTTP/1.1".toList,
            headers := [("Host".toList, "x".toList)] } []).length
      ∧ (HTTPRequest.printBuffer
          { method := "GET".toList, path := "/".toList, version := "HTTP/1.1".toList,
            headers := [("Host".toList, "x".toList)] } 12).terminated = true
      ∧ (HTTPResponse.printBuffer
          { statusCode := 404, version := "HTTP/1.1".toList, statusDesc := "Not Found".toList,
            content := [], chunked := none, headers := [("Host".toList, "x".toList)] }
          12).written
        = (HTTPResponse.print
          { statusCode := 404, version := "HTTP/1.1".toList, statusDesc := "Not Found".toList,
            content := [], chunked := none, headers := [("Host".toList, "x".toList)] }
          []).take 12
      ∧ (HTTPResponse.printBuffer
          { statusCode := 404, version := "HTTP/1.1".toList, statusDesc := "Not Found".toList,
            content := [], chunked := none, headers := [("Host".toList, "x".toList)] }
          12).written.length
        = min 12 (HTTPResponse.print
          { statusCode := 404, version := "HTTP/1.1".toList, statusDesc := "Not Found".toList,
            content := [], chunked := none, headers := [("Host".toList, "x".toList)] }
          []).length
      ∧ (HTTPResponse.printBuffer
          { statusCode := 404, version := "HTTP/1.1".toList, statusDesc := "Not Found".toList,
            content := [], chunked := none, headers := [("Host".toList, "x".toList)] }
          12).terminated = true)
      ∧ (HTTPRequest.printBuffer
          { method := "GET".toList, path := "/".toList, version := "HTTP/1.1".toList,
            headers := [("Host".toList, "x".toList)] } 12).written = "GET / HTTP/1".toList
      ∧ (HTTPResponse.printBuffer
          { statusCode := 404, version := "HTTP/1.1".toList, statusDesc := "Not Found".toList,
            content := [], chunked := none, headers := [("Host".toList, "x".toList)] }
          12).written = "HTTP/1.1 404".toList
      ∧ (HTTPRequest.printBuffer
          { method := "GET".toList, path := "/".toList, version := "HTTP/1.1".toList,
            headers := [("Host".toList, "x".toList)] } 100).written
        = "GET / HTTP/1.1\r\nHost: x\r\n\r\n".toList :=
  ⟨printBuffer_truncates
      { method := "GET".toList, path := "/".toList, version := "HTTP/1.1".toList,
        headers := [("Host".toList, "x".toList)] }
      { statusCode := 404, version := "HTTP/1.1".toList, statusDesc := "Not Found".toList,
        content := [], chunked := none, headers := [("Host".toList, "x".toList)] }
      12 (by decide) (by decide) (by decide) (by decide) (by decide) (by decide) (by decide)
      (by decide),
    by decide, by decide, by decide⟩

/-! ## Fragmented reads and empty reads -/

theorem receiveHeadersLoop_pieces (bufferLen : Nat) :
    ∀ (pieces : List Str) (rest : List (Option Str)) (buffer : Str) (r t : Nat),
      r < headerEnd.length → buffer.length + pieces.flatten.length ≤ bufferLen →
      ((matchHeaderEnd pieces.flatten buffer.length r).2 < headerEnd.length →
          receiveHeadersLoop bufferLen (pieces.map some ++ rest) buffer r t
            = receiveHeadersLoop bufferLen rest (buffer ++ pieces.flatten)
                (matchHeaderEnd pieces.flatten buffer.length r).2 t)
        ∧ (headerEnd.length ≤ (matchHeaderEnd pieces.flatten buffer.length r).2 →
          ∃ (total : Nat) (buf : Str),
            receiveHeadersLoop bufferLen (pieces.map some ++ rest) buffer r t
              = some (((matchHeaderEnd pieces.flatten buffer.length r).1 : Int), total, buf)) := by
  intro pieces
  induction pieces with
  | nil =>
    intro rest buffer r t hr _
    constructor
    · intro _
      simp [matchHeaderEnd]
    · intro h
      simp only [List.flatten_nil, matchHeaderEnd] at h
      omega
  | cons u pieces ih =>
    intro rest buffer r t hr hcap
    rw [List.flatten_cons, List.length_append] at hcap
    rw [List.flatten_cons, matchHeaderEnd_append]
    by_cases hb : buffer.length < bufferLen
    · have htake : u.take (bufferLen - buffer.length) = u :=
        List.take_of_length_le (by omega)
      by_cases hf : (matchHeaderEnd u buffer.length r).2 < headerEnd.length
      · have hnext := receiveHeadersLoop_next bufferLen (pieces.map some ++ rest) u buffer r t hb
          (by rw [htake]; exact hf)
        rw [htake] at hnext
        have h := ih rest (buffer ++ u) (matchHeaderEnd u buffer.length r).2 t hf
          (by rw [List.length_append]; omega)
        rw [List.length_append, List.append_assoc] at h
        rw [if_pos hf, List.map_cons, List.cons_append, hnext]
        exact h
      · have hfound := receiveHeadersLoop_found bufferLen (pieces.map some ++ rest) u buffer r t
          hb (by rw [htake]; exact Nat.le_of_not_lt hf)
        rw [htake] at hfound
        rw [if_neg hf, List.map_cons, List.cons_append, hfound]
        exact ⟨fun h => absurd h hf, fun _ => ⟨_, _, rfl⟩⟩
    · have hu : u = [] := List.eq_nil_of_length_eq_zero (by omega)
      have hp : pieces.flatten = [] := List.eq_nil_of_length_eq_zero (by omega)
      subst hu
      rw [hp]
      simp only [matchHeaderEnd, List.length_nil, Nat.add_zero, List.append_nil, hr, if_true]
      rw [receiveHeadersLoop_full _ _ _ _ _ hb, receiveHeadersLoop_full _ _ _ _ _ hb]
      exact ⟨fun _ => rfl, fun h => absurd h (Nat.not_le.mpr hr)⟩

/-- C36: the detection of the end of the header does not depend on how the bytes are cut
into reads.  For every byte sequence within the capacity and every two ways of cutting it
into successive reads, followed by the same further reads, `receiveHeaders` returns the
same number (an offset, or -1), or returns on neither; that number is the one returned
when the bytes come in a single read; and when the matcher counts four on the bytes, the
offset is in each case the one the matcher reaches on the whole sequence. -/
theorem receiveHeaders_fragmentation (bufferLen t : Nat) (bytes : Str)
    (split1 split2 : List Str) (rest : List (Option Str))
    (h1 : split1.flatten = bytes) (h2 : split2.flatten = bytes)
    (hcap : bytes.length ≤ bufferLen) :
    (TCPSocket.receiveHeaders (split1.map some ++ rest) bufferLen t).map (fun res => res.1)
        = (TCPSocket.receiveHeaders (split2.map some ++ rest) bufferLen t).map
            (fun res => res.1)
      ∧ (TCPSocket.receiveHeaders (split1.map some ++ rest) bufferLen t).map (fun res => res.1)
        = (TCPSocket.receiveHeaders (some bytes :: rest) bufferLen t).map (fun res => res.1)
      ∧ (headerEnd.length ≤ (matchHeaderEnd bytes 0 0).2 →
          (TCPSocket.receiveHeaders (split1.map some ++ rest) bufferLen t).map
              (fun res => res.1) = some ((matchHeaderEnd bytes 0 0).1 : Int)
            ∧ (TCPSocket.receiveHeaders (split2.map some ++ rest) bufferLen t).map
              (fun res => res.1) = some ((matchHeaderEnd bytes 0 0).1 : Int)) := by
  have key : ∀ split : List Str, split.flatten = bytes →
      ((matchHeaderEnd bytes 0 0).2 < headerEnd.length →
          TCPSocket.receiveHeaders (split.map some ++ rest) bufferLen t
            = receiveHeadersLoop bufferLen rest bytes (matchHeaderEnd bytes 0 0).2 t)
        ∧ (headerEnd.length ≤ (matchHeaderEnd bytes 0 0).2 →
          (TCPSocket.receiveHeaders (split.map some ++ rest) bufferLen t).map
            (fun res => res.1) = some ((matchHeaderEnd bytes 0 0).1 : Int)) := by
    intro split hs
    have h := receiveHeadersLoop_pieces bufferLen split rest [] 0 t (by decide)
      (by rw [hs]; simpa using hcap)
    rw [hs] at h
    simp only [List.length_nil, List.nil_append] at h
    refine ⟨h.1, ?_⟩
    intro hf
    obtain ⟨total, buf, e⟩ := h.2 hf
    unfold TCPSocket.receiveHeaders
    rw [e]
    rfl
  have hone : [bytes].flatten = bytes := by simp
  have k1 := key split1 h1
  have k2 := key split2 h2
  have k3 := key [bytes] hone
  have e3 : [bytes].map some ++ rest = some bytes :: rest := rfl
  rw [e3] at k3
  by_cases hf : (matchHeaderEnd bytes 0 0).2 < headerEnd.length
  · refine ⟨by rw [k1.1 hf, k2.1 hf], by rw [k1.1 hf, k3.1 hf], ?_⟩
    intro h
    exact absurd hf (Nat.not_lt.mpr h)
  · have hf' := Nat.le_of_not_lt hf
    exact ⟨by rw [k1.2 hf', k2.2 hf'], by rw [k1.2 hf', k3.2 hf'],
      fun _ => ⟨k1.2 hf', k2.2 hf'⟩⟩

/-- C36 on eight bytes with the end of the header in the middle, cut in two reads inside
the CR LF CR LF, and cut in three reads: the offset is 6 each time. -/
theorem receiveHeaders_fragmentation_witness :
    ((TCPSocket.receiveHeaders
          (["ab\r\n".toList, "\r\ncd".toList].map some ++ []) 16 0).map (fun res => res.1)
        = (TCPSocket.receiveHeaders
          (["ab\r".toList, "\n\r".toList, "\ncd".toList].map some ++ []) 16 0).map
            (fun res => res.1)
      ∧ (TCPSocket.receiveHeaders
          (["ab\r\n".toList, "\r\ncd".toList].map some ++ []) 16 0).map (fun res => res.1)
        = (TCPSocket.receiveHeaders (some "ab\r\n\r\ncd".toList :: []) 16 0).map
            (fun res => res.1)
      ∧ (headerEnd.length ≤ (matchHeaderEnd "ab\r\n\r\ncd".toList 0 0).2 →
          (TCPSocket.receiveHeaders
              (["ab\r\n".toList, "\r\ncd".toList].map some ++ []) 16 0).map
              (fun res => res.1) = some ((matchHeaderEnd "ab\r\n\r\ncd".toList 0 0).1 : Int)
            ∧ (TCPSocket.receiveHeaders
              (["ab\r".toList, "\n\r".toList, "\ncd".toList].map some ++ []) 16 0).map
              (fun res => res.1) = some ((matchHeaderEnd "ab\r\n\r\ncd".toList 0 0).1 : Int)))
      ∧ TCPSocket.receiveHeaders [some "ab\r\n".toList, some "\r\ncd".toList] 16 0
          = some (6, 8, "ab\r\n\r\ncd".toList)
      ∧ TCPSocket.receiveHeaders [some "ab\r".toList, some "\n\r".toList, some "\ncd".toList]
          16 0 = some (6, 8, "ab\r\n\r\ncd".toList)
      ∧ TCPSocket.receiveHeaders [some "ab\r\n\r\ncd".toList] 16 0
          = some (6, 8, "ab\r\n\r\ncd".toList) :=
  ⟨receiveHeaders_fragmentation 16 0 "ab\r\n\r\ncd".toList ["ab\r\n".toList, "\r\ncd".toList]
      ["ab\r".toList, "\n\r".toList, "\ncd".toList] [] (by decide) (by decide) (by decide),
    by decide, by decide, by decide⟩

theorem receiveHeadersLoop_empty (bufferLen : Nat) (reads : List (Option Str)) (buffer : Str)
    (r t : Nat) (hr : r < headerEnd.length) (hb : buffer.length < bufferLen) :
    receiveHeadersLoop bufferLen (some [] :: reads) buffer r t
      = receiveHeadersLoop bufferLen reads buffer r t := by
  have h := receiveHeadersLoop_next bufferLen reads [] buffer r t hb
    (by simpa [matchHeaderEnd] using hr)
  simpa [matchHeaderEnd] using h

theorem receiveHeadersLoop_empty_reads (bufferLen : Nat) (buffer : Str) (r t : Nat)
    (hr : r < headerEnd.length) (hb : buffer.length < bufferLen) :
    ∀ n : Nat, receiveHeadersLoop bufferLen (List.replicate n (some [])) buffer r t = none := by
  intro n
  induction n with
  | zero => simp [receiveHeadersLoop, hb]
  | succ n ih => rw [List.replicate_succ, receiveHeadersLoop_empty _ _ _ _ _ hr hb, ih]

/-- C40: in the loop of `receiveHeaders`, with no end of header found and the buffer not
full, a read of 0 bytes leaves the bytes received and the counter as they are and the loop
goes on with the next read; no number of such reads makes it return; a read with the
result -1 makes it return -1; and on a stream whose bytes neither complete CR LF CR LF for
the matcher nor fill the buffer, followed by any number of reads of 0 bytes,
`receiveHeaders` does not return. -/
theorem receiveHeaders_empty_reads (bufferLen t r n : Nat) (buffer : Str)
    (reads : List (Option Str)) (pieces : List Str)
    (hr : r < headerEnd.length) (hb : buffer.length < bufferLen) :
    matchHeaderEnd [] buffer.length r = (buffer.length, r)
      ∧ receiveHeadersLoop bufferLen (some [] :: reads) buffer r t
          = receiveHeadersLoop bufferLen reads buffer r t
      ∧ receiveHeadersLoop bufferLen (List.replicate n (some [])) buffer r t = none
      ∧ receiveHeadersLoop bufferLen (none :: reads) buffer r t = some (-1, t, buffer)
      ∧ (pieces.flatten.length < bufferLen →
          (matchHeaderEnd pieces.flatten 0 0).2 < headerEnd.length →
          TCPSocket.receiveHeaders (pieces.map some ++ List.replicate n (some [])) bufferLen t
            = none) := by
  refine ⟨rfl, receiveHeadersLoop_empty _ _ _ _ _ hr hb,
    receiveHeadersLoop_empty_reads _ _ _ _ hr hb n,
    receiveHeadersLoop_error _ _ _ _ _ hb, ?_⟩
  intro hlen hm
  have h := (receiveHeadersLoop_pieces bufferLen pieces (List.replicate n (some [])) [] 0 t
    (by decide) (by simpa using Nat.le_of_lt hlen)).1 (by simpa using hm)
  unfold TCPSocket.receiveHeaders
  rw [h]
  exact receiveHeadersLoop_empty_reads _ _ _ _ (by simpa using hm) (by simpa using hlen) n

/-- C40 with a capacity of 32 bytes, the buffer holding "ab" and the counter at 0, and for
the stream "HTTP/1.1 200 OK" CR LF, which ends before the end of the header: three reads
of 0 bytes give no result. -/
theorem receiveHeaders_empty_reads_witness :
    (matchHeaderEnd [] "ab".toList.length 0 = ("ab".toList.length, 0)
      ∧ receiveHeadersLoop 32 (some [] :: [some "\r\n\r\n".toList]) "ab".toList 0 0
          = receiveHeadersLoop 32 [some "\r\n\r\n".toList] "ab".toList 0 0
      ∧ receiveHeadersLoop 32 (List.replicate 3 (some [])) "ab".toList 0 0 = none
      ∧ receiveHeadersLoop 32 (none :: [some "\r\n\r\n".toList]) "ab".toList 0 0
          = some (-1, 0, "ab".toList)
      ∧ (["HTTP/1.1 ".toList, "200 OK\r\n".toList].flatten.length < 32 →
          (matchHeaderEnd ["HTTP/1.1 ".toList, "200 OK\r\n".toList].flatten 0 0).2
            < headerEnd.length →
          TCPSocket.receiveHeaders
            (["HTTP/1.1 ".toList, "200 OK\r\n".toList].map some ++ List.replicate 3 (some []))
            32 0 = none))
      ∧ TCPSocket.receiveHeaders
          [some "HTTP/1.1 ".toList, some "200 OK\r\n".toList, some [], some [], some []] 32 0
          = none :=
  ⟨receiveHeaders_empty_reads 32 0 0 3 "ab".toList [some "\r\n\r\n".toList]
      ["HTTP/1.1 ".toList, "200 OK\r\n".toList] (by decide) (by decide),
    by decide⟩

/-! ## Soundness of the line matcher -/

theorem lineEnding_take_succ (found : Nat) (c : Char) (hf : found < 2)
    (hm : some c = lineEnding.get? found) :
    lineEnding.take (found + 1) = lineEnding.take found ++ [c] := by
  interval_cases found <;> simp [lineEnding] at hm <;> subst hm <;> rfl

theorem findNextLineLoop_sound : ∀ (data : Str) (remaining found off p : Nat) (buffer : Str),
    found ≤ 2 → lineEnding.take found <:+ buffer →
    findNextLineLoop data remaining found off = some p →
    ∃ k, p = off + k ∧ k ≤ remaining ∧ k ≤ data.length
      ∧ lineEnding <:+ buffer ++ data.take k := by
  intro data
  induction data with
  | nil =>
    intro remaining found off p buffer hf hs h
    simp only [findNextLineLoop] at h
    split at h
    · rename_i h2
      have e : found = 2 := Nat.le_antisymm hf h2
      subst e
      simp only [Option.some.injEq] at h
      exact ⟨0, by omega, Nat.zero_le _, Nat.zero_le _, by simpa using hs⟩
    · exact absurd h (by simp)
  | cons c rest ih =>
    intro remaining found off p buffer hf hs h
    simp only [findNextLineLoop] at h
    split at h
    · rename_i h2
      have e : found = 2 := Nat.le_antisymm hf h2
      subst e
      simp only [Option.some.injEq] at h
      exact ⟨0, by omega, Nat.zero_le _, Nat.zero_le _, by simpa using hs⟩
    · rename_i h2
      have hlt : found < 2 := Nat.lt_of_not_le h2
      cases remaining with
      | zero => exact absurd h (by simp)
      | succ remaining =>
        simp only at h
        split at h
        · rename_i hm
          have hs' : lineEnding.take (found + 1) <:+ buffer ++ [c] := by
            rw [lineEnding_take_succ found c hlt hm]
            obtain ⟨t, ht⟩ := hs
            exact ⟨t, by rw [← ht, List.append_assoc]⟩
          obtain ⟨k, e1, e2, e3, e4⟩ := ih remaining (found + 1) (off + 1) p (buffer ++ [c])
            (by omega) hs' h
          refine ⟨k + 1, by omega, by omega, by simp only [List.length_cons]; omega, ?_⟩
          simpa using e4
        · obtain ⟨k, e1, e2, e3, e4⟩ := ih remaining 0 (off + 1) p (buffer ++ [c])
            (by omega) List.nil_suffix h
          refine ⟨k + 1, by omega, by omega, by simp only [List.length_cons]; omega, ?_⟩
          simpa using e4

theorem findNextLine_sound (data : Str) (length p : Nat)
    (h : findNextLine data length = some p) :
    p ≤ length ∧ p ≤ data.length ∧ lineEnding <:+ data.take p := by
  obtain ⟨k, e1, e2, e3, e4⟩ := findNextLineLoop_sound data length 0 0 p [] (by decide)
    List.nil_suffix h
  have e : p = k := by omega
  subst e
  exact ⟨e2, e3, by simpa using e4⟩

/-- C37: whenever `findNextLine(data, length)` returns the offset `p`, `p` is between 2 and
`length`, lies within the memory scanned, and the bytes at `p - 2` and `p - 1` are CR and
LF; so the first-line length `p` that `HTTPRequest::parse` and `HTTPResponse::parse` compute
is at least 2, the subtractions `p - 2` and `length - p` do not wrap, and the first line
without its terminator has `p - 2` characters. -/
theorem findNextLine_offset (data : Str) (length p : Nat)
    (h : findNextLine data length = some p) :
    2 ≤ p ∧ p ≤ length ∧ p ≤ data.length
      ∧ data[p - 2]? = some '\r' ∧ data[p - 1]? = some '\n'
      ∧ p - 2 + 2 = p ∧ length - p + p = length
      ∧ (data.take (p - 2)).length = p - 2 := by
  obtain ⟨h1, h2, ⟨t, ht⟩⟩ := findNextLine_sound data length p h
  have hl : t.length + 2 = p := by
    have := congrArg List.length ht
    simp only [lineEnding, List.length_append, List.length_cons, List.length_nil,
      List.length_take] at this
    omega
  have e1 : data[p - 2]? = (data.take p)[p - 2]? := by
    rw [List.getElem?_take_of_lt]; omega
  have e2 : data[p - 1]? = (data.take p)[p - 1]? := by
    rw [List.getElem?_take_of_lt]; omega
  refine ⟨by omega, h1, h2, ?_, ?_, by omega, by omega, ?_⟩
  · rw [e1, ← ht, show p - 2 = t.length by omega,
      List.getElem?_append_right (Nat.le_refl _)]
    simp [lineEnding]
  · rw [e2, ← ht, show p - 1 = t.length + 1 by omega,
      List.getElem?_append_right (Nat.le_succ _)]
    simp [lineEnding]
  · rw [List.length_take]; omega

/-- C37 on the buffer "GET / HTTP/1.1" CR LF "rest" of 20 bytes: the offset is 16. -/
theorem findNextLine_offset_witness :
    findNextLine "GET / HTTP/1.1\r\nrest".toList 20 = some 16
      ∧ 2 ≤ 16 ∧ 16 ≤ 20 ∧ 16 ≤ "GET / HTTP/1.1\r\nrest".toList.length
      ∧ "GET / HTTP/1.1\r\nrest".toList[16 - 2]? = some '\r'
      ∧ "GET / HTTP/1.1\r\nrest".toList[16 - 1]? = some '\n'
      ∧ 16 - 2 + 2 = 16 ∧ 20 - 16 + 16 = 20
      ∧ ("GET / HTTP/1.1\r\nrest".toList.take (16 - 2)).length = 16 - 2 :=
  ⟨by decide, findNextLine_offset "GET / HTTP/1.1\r\nrest".toList 20 16 (by decide)⟩

/-- C39 at the buffer "A: b" CR LF "C" of 7 bytes, with two different memories behind it:
in its second iteration `parseFields` calls `findNextLine` at offset 6 with the unchanged
length 7, the scan leaves the buffer and finds a line ending at offset 12, and the field
stored for "C" comes from the bytes behind the buffer. -/
theorem parseFields_reads_past_buffer :
    ("A: b\r\nC".toList ++ ": d\r\n\r\n".toList).take 7
        = ("A: b\r\nC".toList ++ ": e\r\n\r\n".toList).take 7
      ∧ findNextLine ("A: b\r\nC".toList ++ ": d\r\n\r\n".toList) 7 = some 6
      ∧ findNextLine (("A: b\r\nC".toList ++ ": d\r\n\r\n".toList).drop 6) 7 = some 6
      ∧ 7 < 6 + 6
      ∧ parseFields [] ("A: b\r\nC".toList ++ ": d\r\n\r\n".toList) 7
          = (false, [("A".toList, "b".toList), ("C".toList, "d".toList)])
      ∧ parseFields [] ("A: b\r\nC".toList ++ ": e\r\n\r\n".toList) 7
          = (false, [("A".toList, "b".toList), ("C".toList, "e".toList)]) := by
  decide

/-- C33 at the empty path and at the paths "ab" and "abc", none of which ends with "/",
"html" or "htm": `isHtml` returns true, because `rfind` returns `npos` and the sum
`npos + size` wraps around to `size - 1`; at "abcd" it returns false and at "a.html"
true. -/
theorem isHtml_short_paths :
    URL.isHtml [] = true
      ∧ URL.isHtml "ab".toList = true
      ∧ URL.isHtml "abc".toList = true
      ∧ rfind "abc".toList "html".toList = none
      ∧ (npos + "html".toList.length) % 2 ^ 64 = 3
      ∧ URL.isHtml "abcd".toList = false
      ∧ URL.isHtml "a.html".toList = true
      ∧ URL.isHtml "a/".toList = true := by
  decide

/-! ## The restricted round trip -/

theorem printable_of_clean (f : Str × Str)
    (hname : ∀ c ∈ f.1, c ≠ ':' ∧ c ≠ '\r' ∧ c ≠ '\n')
    (hvalue : ∀ c ∈ f.2, c ≠ '\r' ∧ c ≠ '\n')
    (hhead : ∀ c, f.2.head? = some c → c ≠ ' ' ∧ c ≠ '\t')
    (hlast : ∀ c, f.2.getLast? = some c → c ≠ ' ' ∧ c ≠ '\t') :
    PrintableField f := by
  refine ⟨fun h => (hname _ h).1 rfl, fun h => (hname _ h).2.1 rfl,
    fun h => (hvalue _ h).1 rfl, ?_, ?_⟩
  · unfold startsBlank
    cases hv : f.2 with
    | nil => rfl
    | cons c cs =>
      have h1 := hhead c (by rw [hv]; rfl)
      have h2 := hvalue c (by rw [hv]; exact List.mem_cons_self _ _)
      simp [isBlank, h1.1, h1.2, h2.1, h2.2]
  · unfold endsBlank
    cases hl : f.2.getLast? with
    | none => rfl
    | some c =>
      have h1 := hlast c hl
      have h2 := hvalue c (List.mem_of_mem_getLast? hl)
      simp [isBlank, h1.1, h1.2, h2.1, h2.2]

/-- C35: for a request whose method and target hold no space, CR or LF, whose version holds
no CR or LF, whose target holds neither "http://" nor the value of a non-empty Host header,
whose header names hold no ':', CR or LF and whose header values hold no CR or LF and
neither begin nor end with a space or a tab, `HTTPRequest::parse` of the text that
`HTTPRequest::print` writes returns a request with the same method, target, version and
header map.  The header map is that of a `std::map` (names ascending); `tail` is whatever
stands in memory behind the printed text. -/
theorem parse_print_restricted (r : HTTPRequest) (tail outputString : Str)
    (hM : ∀ c ∈ r.method, c ≠ ' ' ∧ c ≠ '\r' ∧ c ≠ '\n')
    (hT : ∀ c ∈ r.path, c ≠ ' ' ∧ c ≠ '\r' ∧ c ≠ '\n')
    (hV : ∀ c ∈ r.version, c ≠ '\r' ∧ c ≠ '\n')
    (hscheme : ¬ httpScheme <:+: r.path)
    (hhost : HTTPRequest.getHost r.headers ≠ [] → ¬ HTTPRequest.getHost r.headers <:+: r.path)
    (hord : OrderedHeaders r.headers)
    (hnames : ∀ f ∈ r.headers, ∀ c ∈ f.1, c ≠ ':' ∧ c ≠ '\r' ∧ c ≠ '\n')
    (hvalues : ∀ f ∈ r.headers, (∀ c ∈ f.2, c ≠ '\r' ∧ c ≠ '\n')
      ∧ (∀ c, f.2.head? = some c → c ≠ ' ' ∧ c ≠ '\t')
      ∧ (∀ c, f.2.getLast? = some c → c ≠ ' ' ∧ c ≠ '\t')) :
    HTTPRequest.parse (HTTPRequest.printTo r outputString ++ tail)
        (HTTPRequest.printTo r outputString).length = .object r := by
  have hp : HTTPRequest.printTo r outputString = HTTPRequest.print r := by
    unfold HTTPRequest.printTo HTTPRequest.print
    rw [printTo_eq]
  rw [hp]
  refine parse_print_core r tail (fun h => (hM _ h).1 rfl) (fun h => (hT _ h).1 rfl)
    (fun h => (hM _ h).2.1 rfl) (fun h => (hT _ h).2.1 rfl) (fun h => (hV _ h).1 rfl)
    hscheme ?_ hord ?_
  · by_cases he : HTTPRequest.getHost r.headers = []
    · exact Or.inl he
    · exact Or.inr (hhost he)
  · intro f hf
    exact printable_of_clean f (hnames f hf) (hvalues f hf).1 (hvalues f hf).2.1
      (hvalues f hf).2.2

/-- C35 for the request "GET /a/b HTTP/1.1" with the headers "Accept: */*" and
"Host: example.org". -/
theorem parse_print_restricted_witness :
    HTTPRequest.parse
        (HTTPRequest.printTo
          { method := "GET".toList, path := "/a/b".toList, version := "HTTP/1.1".toList,
            headers := [("Accept".toList, "*/*".toList), ("Host".toList, "example.org".toList)] }
          "old".toList ++ "tail".toList)
        (HTTPRequest.printTo
          { method := "GET".toList, path := "/a/b".toList, version := "HTTP/1.1".toList,
            headers := [("Accept".toList, "*/*".toList), ("Host".toList, "example.org".toList)] }
          "old".toList).length
      = .object
          { method := "GET".toList, path := "/a/b".toList, version := "HTTP/1.1".toList,
            headers := [("Accept".toList, "*/*".toList), ("Host".toList, "example.org".toList)] } :=
  parse_print_restricted
    { method := "GET".toList, path := "/a/b".toList, version := "HTTP/1.1".toList,
      headers := [("Accept".toList, "*/*".toList), ("Host".toList, "example.org".toList)] }
    "tail".toList "old".toList (by decide) (by decide) (by decide) (by decide) (by decide)
    (by decide) (by decide) (by decide)

/-! ## The default headers of a parsed response -/

theorem finish_response_headers (response : HTTPResponse) (C D rest : Str) (n : Nat)
    (r : HTTPResponse) (h : HTTPResponse.finish response C D rest n = .object r) :
    r.headers = (parseFields response.headers rest n).2 := by
  unfold HTTPResponse.finish at h
  dsimp only at h
  split at h
  · exact absurd h (by simp)
  · split at h
    · simp only [ParseResult.object.injEq] at h
      rw [← h]
    · exact absurd h (by simp)

theorem foldl_storeField_other (k : Str) : ∀ (fields : List (Str × Str)) (headers : Headers),
    (∀ f ∈ fields, f.1 ≠ k) →
    getHeaderValue (fields.foldl storeField headers) k = getHeaderValue headers k := by
  intro fields
  induction fields with
  | nil => intro headers _; rfl
  | cons f rest ih =>
    intro headers h
    rw [List.foldl_cons, ih _ (fun g hg => h g (List.mem_cons_of_mem _ hg))]
    unfold storeField
    exact getHeaderValue_set_other headers f.1 k _
      (fun e => h f (List.mem_cons_self _ _) e.symm)

theorem foldl_storeField_kept (k : Str) : ∀ (fields : List (Str × Str)) (headers : Headers),
    (getHeaderValue headers k).isSome = true →
    (getHeaderValue (fields.foldl storeField headers) k).isSome = true := by
  intro fields
  induction fields with
  | nil => intro headers h; exact h
  | cons f rest ih =>
    intro headers h
    rw [List.foldl_cons]
    apply ih
    unfold storeField
    by_cases e : k = f.1
    · rw [e, getHeaderValue_set_same]; rfl
    · rw [getHeaderValue_set_other headers f.1 k _ e]
      exact h

theorem foldl_storeField_present : ∀ (fields : List (Str × Str)) (headers : Headers),
    ∀ f ∈ fields, (getHeaderValue (fields.foldl storeField headers) f.1).isSome = true := by
  intro fields
  induction fields with
  | nil => intro headers f hf; exact absurd hf (List.not_mem_nil _)
  | cons g rest ih =>
    intro headers f hf
    rw [List.foldl_cons]
    rcases List.mem_cons.mp hf with e | hmem
    · apply foldl_storeField_kept
      rw [e]
      unfold storeField
      rw [getHeaderValue_set_same]; rfl
    · exact ih _ f hmem

theorem default_headers_lookup (date : Str) :
    getHeaderValue (HTTPResponse.default date).headers "Server".toList
        = some "MSU/CSE422/SS17-Section001".toList
      ∧ getHeaderValue (HTTPResponse.default date).headers "Content-Type".toList
        = some "text/html".toList
      ∧ getHeaderValue (HTTPResponse.default date).headers "Connection".toList
        = some "close".toList
      ∧ getHeaderValue (HTTPResponse.default date).headers "Date".toList = some date := by
  unfold HTTPResponse.default HTTPResponse.construct
  dsimp only
  refine ⟨?_, ?_, ?_, getHeaderValue_set_same _ _ _⟩
  · rw [getHeaderValue_set_other _ _ _ _ (by decide),
      getHeaderValue_set_other _ _ _ _ (by decide), getHeaderValue_set_same]
  · rw [getHeaderValue_set_other _ _ _ _ (by decide),
      getHeaderValue_set_other _ _ _ _ (by decide),
      getHeaderValue_set_other _ _ _ _ (by decide), getHeaderValue_set_same]
  · rw [getHeaderValue_set_other _ _ _ _ (by decide), getHeaderValue_set_same]

/-- C38: `HTTPResponse::parse` starts from a default-constructed response.  Whenever it
returns a response for a status line followed by well-formed header lines and the empty
line, and no header line has the name Server, Content-Type or Connection, the response
still answers "MSU/CSE422/SS17-Section001" for Server, "text/html" for Content-Type and
"close" for Connection; it has a Date header; and every name of a header line of the
input has a value in it. -/
theorem parse_keeps_default_headers (date V C D tail : Str) (fields : List (Str × Str))
    (r : HTTPResponse)
    (hV : ' ' ∉ V) (hC : ' ' ∉ C)
    (hinf : ¬ lineEnding <:+: V ++ ' ' :: (C ++ ' ' :: D))
    (hlast : (V ++ ' ' :: (C ++ ' ' :: D)).getLast? ≠ some '\r')
    (hwf : ∀ f ∈ fields, WellFormedField f)
    (hparse : HTTPResponse.parse date
        (statusLine V C D ++ (headerLines fields ++ '\r' :: '\n' :: tail))
        ((statusLine V C D).length + ((headerLines fields).length + 2)) = .object r)
    (hnone : ∀ f ∈ fields, f.1 ≠ "Server".toList ∧ f.1 ≠ "Content-Type".toList
      ∧ f.1 ≠ "Connection".toList) :
    getHeaderValue r.headers "Server".toList = some "MSU/CSE422/SS17-Section001".toList
      ∧ getHeaderValue r.headers "Content-Type".toList = some "text/html".toList
      ∧ getHeaderValue r.headers "Connection".toList = some "close".toList
      ∧ (getHeaderValue r.headers "Date".toList).isSome = true
      ∧ (∀ f ∈ fields, (getHeaderValue r.headers f.1).isSome = true)
      ∧ r.headers = fields.foldl storeField (HTTPResponse.default date).headers := by
  rw [parse_statusLine_append date V C D _ _ hV hC hinf hlast (Nat.le_add_right _ _)] at hparse
  have hh := finish_response_headers _ C D _ _ r hparse
  rw [Nat.add_sub_cancel_left] at hh
  have hpf := parseFields_complete fields tail (HTTPResponse.default date).headers hwf
  have hh' : r.headers = fields.foldl storeField (HTTPResponse.default date).headers := by
    rw [hh]
    exact congrArg Prod.snd hpf
  obtain ⟨d1, d2, d3, d4⟩ := default_headers_lookup date
  rw [hh']
  refine ⟨?_, ?_, ?_, ?_, foldl_storeField_present fields _, rfl⟩
  · rw [foldl_storeField_other _ fields _ (fun f hf => (hnone f hf).1), d1]
  · rw [foldl_storeField_other _ fields _ (fun f hf => (hnone f hf).2.1), d2]
  · rw [foldl_storeField_other _ fields _ (fun f hf => (hnone f hf).2.2), d3]
  · exact foldl_storeField_kept _ fields _ (by rw [d4]; rfl)

/-! ## URL: the host and the port -/

theorem findFrom_cons_ne (a : Char) (pt : Str) (c : Char) (cs : Str) (i : Nat) (h : a ≠ c) :
    findFrom (a :: pt) (c :: cs) i = findFrom (a :: pt) cs (i + 1) := by
  simp [findFrom, List.isPrefixOf, h]

theorem findFrom_skip (a : Char) (pt : Str) : ∀ (P : Str), a ∉ P → ∀ (X : Str) (i : Nat),
    findFrom (a :: pt) (P ++ ((a :: pt) ++ X)) i = some (i + P.length) := by
  intro P
  induction P with
  | nil =>
    intro _ X i
    simpa using findFrom_at_start (a :: pt) X i
  | cons c P ih =>
    intro h X i
    have hc : a ≠ c := fun e => h (e ▸ List.mem_cons_self _ _)
    have hP : a ∉ P := fun m => h (List.mem_cons_of_mem _ m)
    rw [List.cons_append, findFrom_cons_ne a pt c _ i hc, ih hP, List.length_cons,
      show i + 1 + P.length = i + (P.length + 1) by omega]

theorem findFrom_single_after (c : Char) : ∀ (xs : Str), c ∉ xs → ∀ (ys : Str) (i : Nat),
    findFrom [c] (xs ++ ys) i = findFrom [c] ys (i + xs.length) := by
  intro xs
  induction xs with
  | nil => intro _ ys i; rfl
  | cons x xs ih =>
    intro h ys i
    have hc : c ≠ x := fun e => h (e ▸ List.mem_cons_self _ _)
    have hx : c ∉ xs := fun m => h (List.mem_cons_of_mem _ m)
    rw [List.cons_append, findFrom_cons_ne c [] x _ i hc, ih hx, List.length_cons,
      show i + 1 + xs.length = i + (xs.length + 1) by omega]

theorem findFirstOfFrom_skip (chars : Str) : ∀ (xs : Str), (∀ c ∈ xs, c ∉ chars) →
    ∀ (ys : Str) (i : Nat),
      findFirstOfFrom chars (xs ++ ys) i = findFirstOfFrom chars ys (i + xs.length) := by
  intro xs
  induction xs with
  | nil => intro _ ys i; rfl
  | cons x xs ih =>
    intro h ys i
    have hx := h x (List.mem_cons_self _ _)
    rw [List.cons_append]
    simp only [findFirstOfFrom, hx, if_false]
    rw [ih (fun c hc => h c (List.mem_cons_of_mem _ hc)), List.length_cons,
      show i + 1 + xs.length = i + (xs.length + 1) by omega]

theorem find_at (A Y pat : Str) : find (A ++ Y) pat A.length = findFrom pat Y A.length := by
  unfold find
  rw [if_neg (by rw [List.length_append]; omega), take_drop_left]

theorem findFirstOf_at (A Y chars : Str) :
    findFirstOf (A ++ Y) chars A.length = findFirstOfFrom chars Y A.length := by
  unfold findFirstOf
  rw [if_neg (by rw [List.length_append]; omega), take_drop_left]

theorem partEnd_eq (chars A B R : Str) (hB : ∀ c ∈ B, c ∉ chars)
    (hR : ∀ c, R.head? = some c → c ∈ chars) :
    (findFirstOf (A ++ (B ++ R)) chars A.length).getD (A ++ (B ++ R)).length
      = A.length + B.length := by
  rw [findFirstOf_at, findFirstOfFrom_skip chars B hB]
  cases R with
  | nil => simp [findFirstOfFrom]
  | cons c R =>
    have hc := hR c rfl
    simp [findFirstOfFrom, hc]

theorem portOffset_absent (A B R : Str) (hB : ':' ∉ B)
    (hR : ∀ c, R.head? = some c → c ≠ ':') :
    (match find (A ++ (B ++ R)) [':'] A.length with
      | none => A.length + B.length
      | some found => if A.length + B.length < found then A.length + B.length else found)
      = A.length + B.length := by
  rw [find_at, findFrom_single_after ':' B hB]
  cases R with
  | nil => simp [findFrom]
  | cons c R =>
    have hc : ':' ≠ c := fun e => hR c rfl e.symm
    rw [findFrom_cons_ne ':' [] c R _ hc]
    cases hf : findFrom [':'] R (A.length + B.length + 1) with
    | none => rfl
    | some p =>
      have hb := (findFrom_bound [':'] R _ p hf).1
      simp only []
      rw [if_pos (by omega)]

theorem digit_not_delim (c : Char) (h : (digitValue 10 c).isSome = true) :
    c ∉ ['/', '#', '?'] := by
  intro hm
  simp only [List.mem_cons, List.mem_singleton, List.not_mem_nil, or_false] at hm
  rcases hm with e | e | e <;> subst e <;> exact absurd h (by decide)

theorem extractUShort_numeral (old : Nat) (ds rest : Str) (hn : IsNumeral 10 ds)
    (hstop : ∀ x, rest.head? = some x → digitValue 10 x = none) :
    extractUShort old (ds ++ rest)
      = if 2 ^ 16 - 1 < numeralValue 10 ds then 2 ^ 16 - 1 else numeralValue 10 ds := by
  simp [extractUShort, scanNumber_numeral 10 ds rest hn hstop (Or.inl rfl)]

theorem readHostPort_absent (url : URL) (A H R : Str)
    (hH : ∀ c ∈ H, c ≠ ':' ∧ c ∉ ['/', '#', '?'])
    (hR : ∀ c, R.head? = some c → c ∈ ['/', '#', '?']) :
    (URL.readHostPort url (A ++ (H ++ R)) A.length).1.port = url.port
      ∧ (URL.readHostPort url (A ++ (H ++ R)) A.length).1.host = H := by
  unfold URL.readHostPort
  simp only []
  rw [partEnd_eq _ A H R (fun c hc => (hH c hc).2) hR,
    portOffset_absent A H R (fun h => (hH _ h).1 rfl)
      (fun c hc e => absurd (hR c hc) (by rw [e]; decide)),
    if_neg (Nat.lt_irrefl _)]
  refine ⟨rfl, ?_⟩
  simp [substr]

theorem readHostPort_port (url : URL) (A H ds R : Str)
    (hH : ∀ c ∈ H, c ≠ ':' ∧ c ∉ ['/', '#', '?']) (hn : IsNumeral 10 ds)
    (hR : ∀ c, R.head? = some c → c ∈ ['/', '#', '?']) :
    (URL.readHostPort url (A ++ (H ++ ':' :: (ds ++ R))) A.length).1.port
        = (if 2 ^ 16 - 1 < numeralValue 10 ds then 2 ^ 16 - 1 else numeralValue 10 ds)
      ∧ (URL.readHostPort url (A ++ (H ++ ':' :: (ds ++ R))) A.length).1.host = H := by
  have hshape : A ++ (H ++ ':' :: (ds ++ R)) = A ++ ((H ++ ':' :: ds) ++ R) := by simp
  have hpe : (findFirstOf (A ++ (H ++ ':' :: (ds ++ R))) ['/', '#', '?'] A.length).getD
      (A ++ (H ++ ':' :: (ds ++ R))).length = A.length + (H.length + 1 + ds.length) := by
    rw [hshape, partEnd_eq _ A (H ++ ':' :: ds) R _ hR]
    · simp only [List.length_append, List.length_cons]; omega
    · intro c hc
      rcases List.mem_append.mp hc with h | h
      · exact (hH c h).2
      · rcases List.mem_cons.mp h with e | h
        · rw [e]; decide
        · exact digit_not_delim c (hn.2 c h)
  have hfind : find (A ++ (H ++ ':' :: (ds ++ R))) [':'] A.length
      = some (A.length + H.length) := by
    rw [find_at, findFrom_single ':' H (fun h => (hH _ h).1 rfl)]
  have hhost : substr (A ++ (H ++ ':' :: (ds ++ R))) A.length (A.length + H.length - A.length)
      = H := by
    unfold substr
    rw [take_drop_left, Nat.add_sub_cancel_left]
    simp
  have hport : substr (A ++ (H ++ ':' :: (ds ++ R))) (A.length + H.length + 1)
      (A.length + (H.length + 1 + ds.length) - (A.length + H.length) - 1) = ds := by
    have e : A ++ (H ++ ':' :: (ds ++ R)) = (A ++ H ++ [':']) ++ (ds ++ R) := by simp
    have hl : (A ++ H ++ [':']).length = A.length + H.length + 1 := by
      simp only [List.length_append, List.length_cons, List.length_nil]
    have hc : A.length + (H.length + 1 + ds.length) - (A.length + H.length) - 1 = ds.length := by
      omega
    unfold substr
    rw [e, ← hl, take_drop_left, hc]
    simp
  unfold URL.readHostPort
  simp only []
  rw [hpe, hfind]
  simp only []
  rw [if_neg (show ¬ A.length + (H.length + 1 + ds.length) < A.length + H.length by omega),
    if_pos (show A.length + H.length < A.length + (H.length + 1 + ds.length) by omega),
    hhost, hport]
  refine ⟨?_, rfl⟩
  have hx := extractUShort_numeral url.port ds [] hn (by intro x hx; simp at hx)
  rw [List.append_nil] at hx
  exact hx

theorem readProtocol_scheme (url : URL) (P Y : Str) (hP : ':' ∉ P) :
    URL.readProtocol url (P ++ ([':', '/', '/'] ++ Y)) 0
      = ({ url with protocol := P }, P.length + 3) := by
  unfold URL.readProtocol
  rw [find_zero, findFrom_skip ':' ['/', '/'] P hP Y 0]
  simp [substr]

theorem readPathDetails_port (url : URL) (urlString : Str) (offset : Nat) :
    (URL.readPathDetails url urlString offset).1.port = url.port
      ∧ (URL.readPathDetails url urlString offset).1.host = url.host := by
  unfold URL.readPathDetails
  dsimp only
  cases find urlString ['#'] offset <;> cases find urlString ['?'] offset <;>
    dsimp only <;> (try split) <;> exact ⟨rfl, rfl⟩

theorem parse_hostPort (urlString : Str)
    (h : (URL.readProtocol URL.construct urlString 0).2 ≠ npos) :
    ∃ url, URL.parse urlString = some url
      ∧ url.port = (URL.readHostPort (URL.readProtocol URL.construct urlString 0).1 urlString
          (URL.readProtocol URL.construct urlString 0).2).1.port
      ∧ url.host = (URL.readHostPort (URL.readProtocol URL.construct urlString 0).1 urlString
          (URL.readProtocol URL.construct urlString 0).2).1.host := by
  unfold URL.parse
  simp only [h, if_false]
  split
  · split
    · exact ⟨_, rfl, (readPathDetails_port _ _ _).1, (readPathDetails_port _ _ _).2⟩
    · exact ⟨_, rfl, (readPathDetails_port _ _ _).1, (readPathDetails_port _ _ _).2⟩
  · exact ⟨_, rfl, rfl, rfl⟩

/-- C32, as stated, fails: in "http://h:65535/" the host is followed by ':' and the decimal
port 65535, which is within 0..65535, yet `isPortDefined()` is false: 65535 is the value
`UNDEFINED_PORT` that marks a port as not given.  The port 65534 is reported as defined. -/
theorem parse_port_counterexample :
    (URL.parse "http://h:65535/".toList).map URL.isPortDefined = some false
      ∧ (URL.parse "http://h:65535/".toList).map URL.getPort = some 65535
      ∧ (URL.parse "http://h:65535/".toList).map (fun url => url.host) = some ['h']
      ∧ UNDEFINED_PORT = 65535
      ∧ (URL.parse "http://h:65534/".toList).map URL.isPortDefined = some true
      ∧ (URL.parse "http://h:65534/".toList).map URL.getPort = some 65534 := by
  decide

/-- C32, amended: for a URL string made of a scheme without ':', "://", a host `H` without
':', '/', '#' and '?', and a rest that is empty or begins with '/', '#' or '?',
`URL::parse` returns a URL whose port is undefined; when ':' and a decimal port number
stand between the host and that rest, it returns a URL whose port is defined, with
`getPort()` equal to the number, if the number is at most 65534, and whose port is
undefined if the number is 65535 or more.  So on these URL strings the port is defined if
and only if a port number of at most 65534 follows the host. -/
theorem parse_port (P H ds R : Str)
    (hP : ':' ∉ P) (hsize : P.length + 3 < 2 ^ 64 - 1)
    (hH : ∀ c ∈ H, c ≠ ':' ∧ c ∉ ['/', '#', '?'])
    (hR : ∀ c, R.head? = some c → c ∈ ['/', '#', '?'])
    (hn : IsNumeral 10 ds) :
    (∃ url, URL.parse (P ++ ("://".toList ++ (H ++ R))) = some url
        ∧ url.isPortDefined = false ∧ url.host = H)
      ∧ (∃ url, URL.parse (P ++ ("://".toList ++ (H ++ ':' :: (ds ++ R)))) = some url
        ∧ url.host = H
        ∧ (numeralValue 10 ds ≤ 65534 →
            url.isPortDefined = true ∧ url.getPort = numeralValue 10 ds)
        ∧ (65535 ≤ numeralValue 10 ds → url.isPortDefined = false)
        ∧ (url.isPortDefined = true ↔ numeralValue 10 ds ≤ 65534)) := by
  have hA : (P ++ [':', '/', '/']).length = P.length + 3 := by simp
  have e1 : P ++ ("://".toList ++ (H ++ R)) = (P ++ [':', '/', '/']) ++ (H ++ R) := by
    simp [String.toList]
  have e2 : P ++ ("://".toList ++ (H ++ ':' :: (ds ++ R)))
      = (P ++ [':', '/', '/']) ++ (H ++ ':' :: (ds ++ R)) := by
    simp [String.toList]
  constructor
  · have hproto := readProtocol_scheme URL.construct P (H ++ R) hP
    have hs : P ++ ("://".toList ++ (H ++ R)) = P ++ ([':', '/', '/'] ++ (H ++ R)) := rfl
    obtain ⟨url, h1, h2, h3⟩ := parse_hostPort (P ++ ("://".toList ++ (H ++ R)))
      (by rw [hs, hproto]; exact Nat.ne_of_lt hsize)
    rw [hs, hproto] at h2 h3
    dsimp only at h2 h3
    rw [← hs, e1, ← hA] at h2 h3
    have hr := readHostPort_absent { URL.construct with protocol := P } (P ++ [':', '/', '/'])
      H R hH hR
    refine ⟨url, h1, ?_, ?_⟩
    · unfold URL.isPortDefined
      rw [h2, hr.1]
      rfl
    · rw [h3, hr.2]
  · have hproto := readProtocol_scheme URL.construct P (H ++ ':' :: (ds ++ R)) hP
    have hs : P ++ ("://".toList ++ (H ++ ':' :: (ds ++ R)))
        = P ++ ([':', '/', '/'] ++ (H ++ ':' :: (ds ++ R))) := rfl
    obtain ⟨url, h1, h2, h3⟩ :=
      parse_hostPort (P ++ ("://".toList ++ (H ++ ':' :: (ds ++ R))))
        (by rw [hs, hproto]; exact Nat.ne_of_lt hsize)
    rw [hs, hproto] at h2 h3
    dsimp only at h2 h3
    rw [← hs, e2, ← hA] at h2 h3
    have hr := readHostPort_port { URL.construct with protocol := P } (P ++ [':', '/', '/'])
      H ds R hH hn hR
    have hport : url.port
        = if 2 ^ 16 - 1 < numeralValue 10 ds then 2 ^ 16 - 1 else numeralValue 10 ds := by
      rw [h2, hr.1]
    have hlow : numeralValue 10 ds ≤ 65534 →
        url.isPortDefined = true ∧ url.getPort = numeralValue 10 ds := by
      intro hp
      rw [if_neg (show ¬ 2 ^ 16 - 1 < numeralValue 10 ds by omega)] at hport
      refine ⟨?_, hport⟩
      unfold URL.isPortDefined UNDEFINED_PORT
      rw [hport]
      simp only [bne_iff_ne, ne_eq]
      omega
    have hhigh : 65535 ≤ numeralValue 10 ds → url.isPortDefined = false := by
      intro hp
      have h65 : url.port = 65535 := by
        rw [hport]
        split <;> omega
      unfold URL.isPortDefined UNDEFINED_PORT
      rw [h65]
      rfl
    refine ⟨url, h1, by rw [h3, hr.2], hlow, hhigh, ?_⟩
    constructor
    · intro hd
      by_contra hc
      rw [hhigh (by omega)] at hd
      exact Bool.noConfusion hd
    · intro hp
      exact (hlow hp).1

/-- C32, amended, for "http://example.org/a" and "http://example.org:8080/a". -/
theorem parse_port_witness :
    ((∃ url, URL.parse ("http".toList ++ ("://".toList ++ ("example.org".toList ++ "/a".toList)))
          = some url ∧ url.isPortDefined = false ∧ url.host = "example.org".toList)
      ∧ (∃ url, URL.parse ("http".toList ++ ("://".toList
            ++ ("example.org".toList ++ ':' :: ("8080".toList ++ "/a".toList)))) = some url
          ∧ url.host = "example.org".toList
          ∧ (numeralValue 10 "8080".toList ≤ 65534 →
              url.isPortDefined = true ∧ url.getPort = numeralValue 10 "8080".toList)
          ∧ (65535 ≤ numeralValue 10 "8080".toList → url.isPortDefined = false)
          ∧ (url.isPortDefined = true ↔ numeralValue 10 "8080".toList ≤ 65534)))
      ∧ URL.parse "http://example.org:8080/a".toList
          = some { protocol := "http".toList, host := "example.org".toList, port := 8080,
                   path := "/a".toList, query := [], fragment := [] }
      ∧ URL.parse "http://example.org/a".toList
          = some { protocol := "http".toList, host := "example.org".toList, port := 65535,
                   path := "/a".toList, query := [], fragment := [] }
      ∧ (URL.parse "http://example.org:70000/a".toList).map URL.isPortDefined = some false :=
  ⟨parse_port "http".toList "example.org".toList "8080".toList "/a".toList (by decide)
      (by decide) (by decide) (by decide) (by decide),
    by decide, by decide, by decide⟩

/-! ## Playlist -/

theorem readUpTo_line : ∀ (L rest : Str), '\n' ∉ L →
    Playlist.readUpTo (L ++ '\n' :: rest) '\n' = (L, rest) := by
  intro L
  induction L with
  | nil => intro rest _; simp [Playlist.readUpTo]
  | cons c L ih =>
    intro rest h
    have hc : c ≠ '\n' := fun e => h (e ▸ List.mem_cons_self _ _)
    have hL : '\n' ∉ L := fun m => h (List.mem_cons_of_mem _ m)
    rw [List.cons_append]
    simp only [Playlist.readUpTo, hc, if_false, ih rest hL]

theorem readUpTo_all : ∀ (L : Str), '\n' ∉ L → Playlist.readUpTo L '\n' = (L, []) := by
  intro L
  induction L with
  | nil => intro _; rfl
  | cons c L ih =>
    intro h
    have hc : c ≠ '\n' := fun e => h (e ▸ List.mem_cons_self _ _)
    have hL : '\n' ∉ L := fun m => h (List.mem_cons_of_mem _ m)
    simp only [Playlist.readUpTo, hc, if_false, ih hL]

theorem atoi_numeral (ds rest : Str) (hn : IsNumeral 10 ds)
    (hstop : ∀ x, rest.head? = some x → digitValue 10 x = none)
    (hv : numeralValue 10 ds < 2 ^ 32) :
    toUnsigned (atoi (ds ++ rest)) = numeralValue 10 ds := by
  unfold toUnsigned atoi
  rw [scanNumber_numeral 10 ds rest hn hstop (Or.inl rfl)]
  generalize numeralValue 10 ds = v at hv
  simp only [Bool.false_eq_true, if_false]
  have h63 : ¬ (2 ^ 63 - 1 < v) := by omega
  rw [if_neg h63]
  have hlow : ((v : Int) % 2 ^ 32).toNat = v := by omega
  rw [hlow]
  split <;> omega

theorem digit_not_newline (ds : Str) (h : ∀ c ∈ ds, (digitValue 10 c).isSome = true) :
    '\n' ∉ ds ∧ ',' ∉ ds := by
  constructor <;> intro hm <;> exact absurd (h _ hm) (by decide)

theorem segmentStep_segment (d : Nat) (title url rest : Str) (segments : List PlaylistEntry)
    (hd : d < 2 ^ 32) (ht : '\n' ∉ title)
    (hu : url ≠ [] ∧ url.head? ≠ some '#' ∧ '\n' ∉ url) :
    Playlist.segmentStep (segmentText (d, title, url) ++ rest) segments
      = (false, true, rest, segments ++ [{ url := url, duration := d }]) := by
  obtain ⟨hnum, hval, _⟩ := putUnsigned_numeral d
  obtain ⟨hdn, hdc⟩ := digit_not_newline (putUnsigned d) hnum.2
  have hshape : segmentText (d, title, url) ++ rest
      = (SEGMENT_TAG ++ (putUnsigned d ++ ',' :: title)) ++ '\n' :: (url ++ '\n' :: rest) := by
    simp [segmentText]
  have hline : '\n' ∉ SEGMENT_TAG ++ (putUnsigned d ++ ',' :: title) := by
    intro h
    rcases List.mem_append.mp h with h | h
    · exact absurd h (by decide)
    · rcases List.mem_append.mp h with h | h
      · exact hdn h
      · rcases List.mem_cons.mp h with e | h
        · exact absurd e (by decide)
        · exact ht h
  have hend : ((SEGMENT_TAG ++ (putUnsigned d ++ ',' :: title)).take END_TAG.length == END_TAG)
      = false := by
    simp [SEGMENT_TAG, END_TAG]
  have hseg : (SEGMENT_TAG ++ (putUnsigned d ++ ',' :: title)).take SEGMENT_TAG.length
      = SEGMENT_TAG := by simp
  have hdrop : (SEGMENT_TAG ++ (putUnsigned d ++ ',' :: title)).drop SEGMENT_TAG.length
      = putUnsigned d ++ ',' :: title := by simp
  have hfind : find (putUnsigned d ++ ',' :: title) [','] 0 = some (0 + (putUnsigned d).length) := by
    rw [find_zero, findFrom_single ',' _ hdc]
  have hdur : toUnsigned (atoi (putUnsigned d ++ ',' :: title)) = d := by
    rw [atoi_numeral _ _ hnum (by intro x hx; simp at hx; rw [← hx]; decide) (by rw [hval]; exact hd),
      hval]
  have hcond : 0 < url.length ∧ url.head? ≠ some '#' :=
    ⟨List.length_pos.mpr hu.1, hu.2.1⟩
  unfold Playlist.segmentStep
  rw [hshape, readUpTo_line _ _ hline]
  simp only [hend, hseg, if_true, hdrop, hfind, hdur, readUpTo_line url rest hu.2.2, hcond,
    and_self, true_and, ne_eq, hu.2.1, not_false_eq_true]

theorem segmentStep_end (rest : Str) (segments : List PlaylistEntry) :
    Playlist.segmentStep (END_TAG ++ '\n' :: rest) segments = (true, false, rest, segments) := by
  unfold Playlist.segmentStep
  rw [readUpTo_line END_TAG rest (by decide)]
  have h1 : (END_TAG.take END_TAG.length == END_TAG) = true := by decide
  have h2 : ¬ END_TAG.take SEGMENT_TAG.length = SEGMENT_TAG := by decide
  simp only [h1, h2, if_false]

theorem readNextSegment_segment (d : Nat) (title url rest : Str) (segments : List PlaylistEntry)
    (hd : d < 2 ^ 32) (ht : '\n' ∉ title)
    (hu : url ≠ [] ∧ url.head? ≠ some '#' ∧ '\n' ∉ url) :
    Playlist.readNextSegment (segmentText (d, title, url) ++ rest) segments
      = some (decide (0 < rest.length), rest, segments ++ [{ url := url, duration := d }]) := by
  unfold Playlist.readNextSegment
  have hpos : 0 < (segmentText (d, title, url) ++ rest).length := by
    simp [segmentText, SEGMENT_TAG]
  obtain ⟨k, hk⟩ : ∃ k, (segmentText (d, title, url) ++ rest).length = k + 1 :=
    ⟨_, (Nat.succ_pred_eq_of_pos hpos).symm⟩
  rw [hk]
  simp only [Playlist.readNextSegmentLoop, hpos, if_true,
    segmentStep_segment d title url rest segments hd ht hu, Bool.or_true, Bool.not_false,
    Bool.true_and]

theorem readNextSegment_end (rest : Str) (segments : List PlaylistEntry) :
    Playlist.readNextSegment (END_TAG ++ '\n' :: rest) segments
      = some (false, rest, segments) := by
  unfold Playlist.readNextSegment
  have hpos : 0 < (END_TAG ++ '\n' :: rest).length := by simp [END_TAG]
  obtain ⟨k, hk⟩ : ∃ k, (END_TAG ++ '\n' :: rest).length = k + 1 :=
    ⟨_, (Nat.succ_pred_eq_of_pos hpos).symm⟩
  rw [hk]
  simp only [Playlist.readNextSegmentLoop, hpos, if_true, segmentStep_end, Bool.true_or,
    Bool.not_true, Bool.false_and]

theorem segmentsText_length_pos (entries : List (Nat × Str × Str)) :
    entries.length < (segmentsText entries).length := by
  induction entries with
  | nil => simp [segmentsText, END_TAG]
  | cons e rest ih =>
    simp only [segmentsText, List.length_cons, List.length_append]
    have : 1 ≤ (segmentText e).length := by simp [segmentText, SEGMENT_TAG]
    omega

theorem parseLoop_segments : ∀ (entries : List (Nat × Str × Str)) (fuel : Nat)
    (segments : List PlaylistEntry),
    entries.length < fuel →
    (∀ e ∈ entries, e.1 < 2 ^ 32) → (∀ e ∈ entries, '\n' ∉ e.2.1) →
    (∀ e ∈ entries, e.2.2 ≠ [] ∧ e.2.2.head? ≠ some '#' ∧ '\n' ∉ e.2.2) →
    Playlist.parseLoop fuel (segmentsText entries) segments
      = some (segments ++ entries.map fun e => { url := e.2.2, duration := e.1 }) := by
  intro entries
  induction entries with
  | nil =>
    intro fuel segments hf _ _ _
    obtain ⟨k, rfl⟩ : ∃ k, fuel = k + 1 := ⟨fuel - 1, by simp at hf; omega⟩
    have h := readNextSegment_end [] segments
    simp only [Playlist.parseLoop, segmentsText, h]
    simp
  | cons e rest ih =>
    intro fuel segments hf hd ht hu
    obtain ⟨k, rfl⟩ : ∃ k, fuel = k + 1 := ⟨fuel - 1, by simp at hf; omega⟩
    obtain ⟨d, title, url⟩ := e
    have h := readNextSegment_segment d title url (segmentsText rest) segments
      (hd _ (List.mem_cons_self _ _)) (ht _ (List.mem_cons_self _ _))
      (hu _ (List.mem_cons_self _ _))
    have hpos : decide (0 < (segmentsText rest).length) = true :=
      decide_eq_true (Nat.lt_of_le_of_lt (Nat.zero_le _) (segmentsText_length_pos rest))
    rw [hpos] at h
    simp only [Playlist.parseLoop, segmentsText, h, if_true]
    rw [ih k _ (by simp only [List.length_cons] at hf; omega)
      (fun e he => hd e (List.mem_cons_of_mem _ he))
      (fun e he => ht e (List.mem_cons_of_mem _ he))
      (fun e he => hu e (List.mem_cons_of_mem _ he))]
    simp

/-- C34, as stated, fails: with the title "a", a line feed and "b", the text is of the form
of the claim for one segment of duration 5 and URL "u", yet the playlist parsed has the
segment with URL "b". -/
theorem parse_playlist_counterexample :
    playlistText [(5, "a\nb".toList, "u".toList)]
        = "#EXTM3U\n#EXTINF:5,a\nb\nu\n#EXT-X-ENDLIST\n".toList
      ∧ Playlist.parse (playlistText [(5, "a\nb".toList, "u".toList)])
        = .returned (some { segments := [{ url := "b".toList, duration := 5 }] })
      ∧ Playlist.parse (playlistText [(5, "a\nb".toList, "u".toList)])
        ≠ .returned (some { segments := [{ url := "u".toList, duration := 5 }] }) := by
  decide

/-- C34, amended: for every playlist text made of the line "#EXTM3U", then for each segment
the line "#EXTINF:" with the decimal text of a duration below 2^32, "," and a title without
line feed, and the line of a URL that is not empty, does not begin with '#' and holds no
line feed, and then the line "#EXT-X-ENDLIST", `Playlist::parse` returns a playlist with
exactly these durations and URLs in the order of the file; and it returns `NULL` whenever
the first line of the data, ended by a line feed or by the end of the data, is not
"#EXTM3U". -/
theorem parse_playlist (entries : List (Nat × Str × Str)) (L rest : Str)
    (hd : ∀ e ∈ entries, e.1 < 2 ^ 32) (ht : ∀ e ∈ entries, '\n' ∉ e.2.1)
    (hu : ∀ e ∈ entries, e.2.2 ≠ [] ∧ e.2.2.head? ≠ some '#' ∧ '\n' ∉ e.2.2)
    (hL : '\n' ∉ L) (hne : L ≠ PLAYLIST_HEADER) :
    Playlist.parse (playlistText entries)
        = .returned (some { segments := entries.map fun e => { url := e.2.2, duration := e.1 } })
      ∧ Playlist.parse (L ++ '\n' :: rest) = .returned none
      ∧ Playlist.parse L = .returned none := by
  refine ⟨?_, ?_, ?_⟩
  · have hpos := segmentsText_length_pos entries
    have hflag : (PLAYLIST_HEADER == PLAYLIST_HEADER
        && (segmentsText entries).length != 0) = true := by
      simp only [beq_self_eq_true, Bool.true_and, bne_iff_ne, ne_eq]
      omega
    unfold Playlist.parse Playlist.verifyHeader playlistText
    rw [readUpTo_line PLAYLIST_HEADER _ (by decide)]
    simp only [hflag, Bool.true_eq_false, if_false]
    rw [parseLoop_segments entries _ [] (by omega) hd ht hu]
    rfl
  · unfold Playlist.parse Playlist.verifyHeader
    rw [readUpTo_line L rest hL]
    have hflag : (L == PLAYLIST_HEADER && rest.length != 0) = false := by
      simp [hne]
    simp only [hflag, if_true]
  · unfold Playlist.parse Playlist.verifyHeader
    rw [readUpTo_all L hL]
    have hflag : (L == PLAYLIST_HEADER && ([] : Str).length != 0) = false := by
      simp
    simp only [hflag, if_true]

/-- C34, amended, for a playlist with the two segments "a.ts" of 10 seconds and "b.ts" of
9 seconds, and for data whose first line is "#EXTM3U8". -/
theorem parse_playlist_witness :
    (Playlist.parse (playlistText [(10, "one".toList, "a.ts".toList), (9, [], "b.ts".toList)])
        = .returned (some { segments :=
            [{ url := "a.ts".toList, duration := 10 }, { url := "b.ts".toList, duration := 9 }] })
      ∧ Playlist.parse ("#EXTM3U8".toList ++ '\n' :: "#EXT-X-ENDLIST\n".toList) = .returned none
      ∧ Playlist.parse "#EXTM3U8".toList = .returned none)
      ∧ playlistText [(10, "one".toList, "a.ts".toList), (9, [], "b.ts".toList)]
        = "#EXTM3U\n#EXTINF:10,one\na.ts\n#EXTINF:9,\nb.ts\n#EXT-X-ENDLIST\n".toList
      ∧ Playlist.parse "#EXTM3U\n#EXTINF:10,one\na.ts\n#EXTINF:9,\nb.ts\n#EXT-X-ENDLIST\n".toList
        = .returned (some { segments :=
            [{ url := "a.ts".toList, duration := 10 }, { url := "b.ts".toList, duration := 9 }] }) :=
  ⟨parse_playlist [(10, "one".toList, "a.ts".toList), (9, [], "b.ts".toList)]
      "#EXTM3U8".toList "#EXT-X-ENDLIST\n".toList (by decide) (by decide) (by decide)
      (by decide) (by decide),
    by decide, by decide⟩

/-- C38 for the input "HTTP/1.1 200 OK" with the single header line "X-A: 1": the parsed
response has five headers, the four of a default-constructed response and the one of the
input. -/
theorem parse_keeps_default_headers_witness :
    HTTPResponse.parse "Sun, 06 Nov 1994 08:49:37 GMT".toList
        (statusLine "HTTP/1.1".toList "200".toList "OK".toList
          ++ (headerLines [("X-A".toList, " 1".toList)] ++ '\r' :: '\n' :: "body".toList))
        ((statusLine "HTTP/1.1".toList "200".toList "OK".toList).length
          + ((headerLines [("X-A".toList, " 1".toList)]).length + 2))
        = .object
          { statusCode := 200, version := "HTTP/1.1".toList, statusDesc := "OK".toList,
            content := [], chunked := some false,
            headers :=
              [("Connection".toList, "close".toList),
               ("Content-Type".toList, "text/html".toList),
               ("Date".toList, "Sun, 06 Nov 1994 08:49:37 GMT".toList),
               ("Server".toList, "MSU/CSE422/SS17-Section001".toList),
               ("X-A".toList, "1".toList)] }
      ∧ (getHeaderValue
            [("Connection".toList, "close".toList),
             ("Content-Type".toList, "text/html".toList),
             ("Date".toList, "Sun, 06 Nov 1994 08:49:37 GMT".toList),
             ("Server".toList, "MSU/CSE422/SS17-Section001".toList),
             ("X-A".toList, "1".toList)] "Server".toList
          = some "MSU/CSE422/SS17-Section001".toList
        ∧ getHeaderValue
            [("Connection".toList, "close".toList),
             ("Content-Type".toList, "text/html".toList),
             ("Date".toList, "Sun, 06 Nov 1994 08:49:37 GMT".toList),
             ("Server".toList, "MSU/CSE422/SS17-Section001".toList),
             ("X-A".toList, "1".toList)] "Content-Type".toList = some "text/html".toList
        ∧ getHeaderValue
            [("Connection".toList, "close".toList),
             ("Content-Type".toList, "text/html".toList),
             ("Date".toList, "Sun, 06 Nov 1994 08:49:37 GMT".toList),
             ("Server".toList, "MSU/CSE422/SS17-Section001".toList),
             ("X-A".toList, "1".toList)] "Connection".toList = some "close".toList
        ∧ (getHeaderValue
            [("Connection".toList, "close".toList),
             ("Content-Type".toList, "text/html".toList),
             ("Date".toList, "Sun, 06 Nov 1994 08:49:37 GMT".toList),
             ("Server".toList, "MSU/CSE422/SS17-Section001".toList),
             ("X-A".toList, "1".toList)] "Date".toList).isSome = true
        ∧ (∀ f ∈ [("X-A".toList, " 1".toList)],
            (getHeaderValue
              [("Connection".toList, "close".toList),
               ("Content-Type".toList, "text/html".toList),
               ("Date".toList, "Sun, 06 Nov 1994 08:49:37 GMT".toList),
               ("Server".toList, "MSU/CSE422/SS17-Section001".toList),
               ("X-A".toList, "1".toList)] f.1).isSome = true)
        ∧ [("Connection".toList, "close".toList),
           ("Content-Type".toList, "text/html".toList),
           ("Date".toList, "Sun, 06 Nov 1994 08:49:37 GMT".toList),
           ("Server".toList, "MSU/CSE422/SS17-Section001".toList),
           ("X-A".toList, "1".toList)]
          = [("X-A".toList, " 1".toList)].foldl storeField
              (HTTPResponse.default "Sun, 06 Nov 1994 08:49:37 GMT".toList).headers)
      ∧ getNumHeaderFields
          [("Connection".toList, "close".toList),
           ("Content-Type".toList, "text/html".toList),
           ("Date".toList, "Sun, 06 Nov 1994 08:49:37 GMT".toList),
           ("Server".toList, "MSU/CSE422/SS17-Section001".toList),
           ("X-A".toList, "1".toList)] = 5 :=
  ⟨by decide,
    parse_keeps_default_headers "Sun, 06 Nov 1994 08:49:37 GMT".toList "HTTP/1.1".toList
      "200".toList "OK".toList "body".toList [("X-A".toList, " 1".toList)]
      { statusCode := 200, version := "HTTP/1.1".toList, statusDesc := "OK".toList,
        content := [], chunked := some false,
        headers :=
          [("Connection".toList, "close".toList),
           ("Content-Type".toList, "text/html".toList),
           ("Date".toList, "Sun, 06 Nov 1994 08:49:37 GMT".toList),
           ("Server".toList, "MSU/CSE422/SS17-Section001".toList),
           ("X-A".toList, "1".toList)] }
      (by decide) (by decide) (by decide) (by decide) (by decide) (by decide) (by decide),
    by decide⟩


end HTTP
